import Mathlib

/-!
# Aleo ceremony verifier (`aleo/chunk.go`, `aleo/main.go`) and the self-check of `cmd/main.go`

A shallow embedding of the chunk decoder, the subgroup verifier, the pairing
based ratio checks, the verification loop and the SRS self-check of the Aleo
powers-of-tau verifier, and of the copies of `eval` and `sanityCheck` in
`cmd/main.go` (namespace `Cmd`), together with the properties proved about them.

Conventions of the embedding.

* A Go `for i := 0; i < n; i++ { body }` loop is `forRange n body`.
* A run-time panic (index out of range, negative `make`, `panic(err)`) is the
  value `none` of an `Option` result.
* The group arithmetic, the pairing and the multi-scalar multiplication come
  from gnark-crypto, which is not part of the repository.  They enter as the
  algebraic structure of the point types: `G1` and `G2` are additive
  commutative groups and modules over the scalar field `ZMod r`, the target
  group `GT` is a multiplicative commutative group, and the pairing is a
  bi-additive map packaged in `Pairing`.
* Go `int` values that are never negative on the paths modelled are `Nat`.
-/

namespace Aleo

/-! ## Loops -/

/-- The loop `for i := 0; i < n; i++ { s = body i s }`. -/
def forRange {σ : Type} (n : Nat) (body : Nat → σ → σ) (s : σ) : σ :=
  (List.range n).foldl (fun acc i => body i acc) s

/-! ## The pairing primitives (gnark-crypto contract) -/

/-- Modelled from the spec: the bilinear pairing `e : G1 × G2 → GT` supplied by the
primitives library (gnark-crypto, not under `src/`).  Only bi-additivity is assumed. -/
structure Pairing (G1 G2 GT : Type) [AddCommGroup G1] [AddCommGroup G2] [CommGroup GT] where
  /-- The pairing map. -/
  e : G1 → G2 → GT
  /-- Additivity in the first argument. -/
  add_left : ∀ a b c, e (a + b) c = e a c * e b c
  /-- Additivity in the second argument. -/
  add_right : ∀ a b c, e a (b + c) = e a b * e a c

/-- The product `∏ e(Pᵢ, Qᵢ)` of a batched pairing evaluation. -/
def pairProduct {G1 G2 GT : Type} [AddCommGroup G1] [AddCommGroup G2] [CommGroup GT]
    (E : Pairing G1 G2 GT) (P : List G1) (Q : List G2) : GT :=
  (List.zipWith E.e P Q).prod

/-- Modelled from the spec: the library's batched pairing check `PairingCheck(P, Q)`
(gnark-crypto, not under `src/`).  It fails on empty or mismatched inputs and
otherwise reports whether `∏ e(Pᵢ, Qᵢ) = 1`. -/
def PairingCheck {G1 G2 GT : Type} [AddCommGroup G1] [AddCommGroup G2] [CommGroup GT]
    [DecidableEq GT] (E : Pairing G1 G2 GT) (P : List G1) (Q : List G2) : Except String Bool :=
  if P.length = 0 ∨ P.length ≠ Q.length then
    .error "invalid inputs sizes"
  else
    .ok (decide (pairProduct E P Q = 1))

/-- Modelled from the spec: the library's multi-scalar multiplication
`L.MultiExp(points, scalars, cfg)` (gnark-crypto, not under `src/`), as used by
`linearCombinationG1`: the receiver starts as the zero value (the identity) and the
returned error is dropped, so on mismatched lengths the result is `0`, otherwise it is
`Σ scalarsᵢ · pointsᵢ`. -/
def MultiExp {F G : Type} [Zero G] [Add G] [SMul F G]
    (points : List G) (scalars : List F) : G :=
  if points.length ≠ scalars.length then 0
  else (List.zipWith (fun s p => s • p) scalars points).sum

/-! ## `sameRatio` -/

/-- Source `sameRatio`: negate `a2`, run one batched pairing check on `[a1, b1]`,
`[-a2, b2]`, and panic on a library error. -/
def sameRatio {G1 G2 GT : Type} [AddCommGroup G1] [AddCommGroup G2] [CommGroup GT]
    [DecidableEq GT] (E : Pairing G1 G2 GT) (a1 b1 : G1) (a2 b2 : G2) : Option Bool :=
  let na2 := -a2
  match PairingCheck E [a1, b1] [na2, b2] with
  | .ok res => some res
  | .error _ => none

/-! ## Constants -/

/-- The constants of the program: `nbTauG1`, `nbTauG2`, `nbAlphaG1`, `nbChunks` of
`main.go`, and the two constants of the base-field package that `ReadFrom` relies on,
`fp.Bytes` and the field modulus (gnark-crypto, not under `src/`; `fpBytes` is
positive for every field). -/
structure Params where
  /-- Constant `nbTauG1` -/
  nbTauG1 : Nat
  /-- Constant `nbTauG2` -/
  nbTauG2 : Nat
  /-- Constant `nbAlphaG1` -/
  nbAlphaG1 : Nat
  /-- Constant `nbChunks` -/
  nbChunks : Nat
  /-- Constant `fp.Bytes`, the size of an encoded base-field element -/
  fpBytes : Nat
  /-- The modulus of the base field -/
  fpModulus : Nat

/-- The modulus of the BLS12-377 base field. -/
def bls12377FpModulus : Nat :=
  258664426012969094010652733694893533536393512754914660539884262666720468348340822774968888139573360124440321458177

/-- The values the program is compiled with. -/
def aleo : Params where
  nbTauG1 := 65536
  nbTauG2 := 30
  nbAlphaG1 := 87
  nbChunks := 4096
  fpBytes := 48
  fpModulus := bls12377FpModulus

/-! ## Decoded points and chunks -/

/-- A byte of a file. -/
abbrev Byte := Fin 256

/-- The struct `bls12377.G1Affine`: two base-field elements, held by their canonical
value. The zero value is `⟨0, 0⟩`. -/
structure G1Affine where
  /-- X coordinate -/
  X : Nat
  /-- Y coordinate -/
  Y : Nat
deriving DecidableEq

/-- An element of the quadratic extension, `A0 + A1·u`. -/
structure E2 where
  /-- First coefficient -/
  A0 : Nat
  /-- Second coefficient -/
  A1 : Nat
deriving DecidableEq

/-- The struct `bls12377.G2Affine`. -/
structure G2Affine where
  /-- X coordinate -/
  X : E2
  /-- Y coordinate -/
  Y : E2
deriving DecidableEq

/-- The zero value `bls12377.G1Affine{}`. -/
def G1Affine.zero : G1Affine := ⟨0, 0⟩

/-- The zero value `bls12377.G2Affine{}`. -/
def G2Affine.zero : G2Affine := ⟨⟨0, 0⟩, ⟨0, 0⟩⟩

/-- Variable `snarkVMG1Gen`, set in `init`. -/
def snarkVMG1Gen : G1Affine where
  X := 89363714989903307245735717098563574705733591463163614225748337416674727625843187853442697973404985688481508350822
  Y := 3702177272937190650578065972808860481433820514072818216637796320125658674906330993856598323293086021583822603349

/-- Variable `snarkVMG2Gen`, set in `init`. -/
def snarkVMG2Gen : G2Affine where
  X := ⟨170590608266080109581922461902299092015242589883741236963254737235977648828052995125541529645051927918098146183295,
        83407003718128594709087171351153471074446327721872642659202721143408712182996929763094113874399921859453255070254⟩
  Y := ⟨1843833842842620867708835993770650838640642469700861403869757682057607397502738488921663703124647238454792872005,
        33145532013610981697337930729788870077912093258611421158732879580766461459275194744385880708057348608045241477209⟩

/-- The struct `Chunk`, over the types of its G1 and G2 points: the decoder works on
the coordinate structs, the pairing checks on group elements. -/
structure Chunk (G1 G2 : Type) where
  /-- Field `Hash [64]byte` -/
  Hash : List Byte
  /-- Field `TauG1` -/
  TauG1 : List G1
  /-- Field `TauG2`, set only for chunk 0 -/
  TauG2 : List G2
  /-- Field `AlphaG1`, set only for chunk 0 -/
  AlphaG1 : List G1
  /-- Field `isFirst` -/
  isFirst : Bool

/-- Source `newChunk`: empty slices, zeroed hash, `isFirst = false`. -/
def newChunk {G1 G2 : Type} : Chunk G1 G2 where
  Hash := List.replicate 64 0
  TauG1 := []
  TauG2 := []
  AlphaG1 := []
  isFirst := false

/-- The same chunk with every point read through `f1`, `f2`. -/
def Chunk.map {G1 G2 H1 H2 : Type} (f1 : G1 → H1) (f2 : G2 → H2) (c : Chunk G1 G2) :
    Chunk H1 H2 where
  Hash := c.Hash
  TauG1 := c.TauG1.map f1
  TauG2 := c.TauG2.map f2
  AlphaG1 := c.AlphaG1.map f1
  isFirst := c.isFirst

/-! ## `Chunk.ReadFrom` -/

/-- The errors `ReadFrom` can return. -/
inductive ReadError where
  /-- Failure of `os.Open` -/
  | openFailed
  /-- Error `io.EOF` -/
  | EOF
  /-- Error `io.ErrUnexpectedEOF` (from `io.ReadFull` on the header) -/
  | unexpectedEOF
  /-- Error of `fp.LittleEndian.Element`: the value is not below the modulus -/
  | invalidEncoding
deriving DecidableEq

/-- The value of a little-endian byte string. -/
def leValue : List Byte → Nat
  | [] => 0
  | b :: bs => b.val + 256 * leValue bs

/-- The state the closure `tryReadElement` works on: the unread bytes of the file,
the buffer `buf` and the sticky `tryReadErr`. -/
structure Reader where
  /-- The bytes of the file not yet read -/
  rest : List Byte
  /-- Buffer `buf [fp.Bytes]byte` -/
  buf : List Byte
  /-- Variable `tryReadErr` -/
  tryReadErr : Option ReadError

/-- Source `tryReadElement`. Once `tryReadErr` is set nothing is read and the zero
element is returned. Otherwise one `f.Read(buf[:])` is issued: at end of file it
returns `io.EOF`; else it copies the `n = min(fp.Bytes, remaining)` next bytes over
the start of `buf`, leaving the other bytes of `buf` as they were, and reports no
error. The buffer is then decoded as a little-endian integer, which is an error
when it is not below the modulus. -/
def tryReadElement (P : Params) (s : Reader) : Nat × Reader :=
  match s.tryReadErr with
  | some _ => (0, s)
  | none =>
    if s.rest.length = 0 then
      (0, { s with tryReadErr := some ReadError.EOF })
    else
      let n := min P.fpBytes s.rest.length
      let buf := s.rest.take n ++ s.buf.drop n
      let s1 : Reader := { rest := s.rest.drop n, buf := buf, tryReadErr := none }
      let v := leValue (buf.take P.fpBytes)
      if v < P.fpModulus then (v, s1)
      else (0, { s1 with tryReadErr := some ReadError.invalidEncoding })

/-- The assignment `l[i].field = v` through `f`; the index is in range wherever the
program does this, the slice having just been extended by `append`. -/
def updateAt {α : Type} (l : List α) (i : Nat) (f : α → α) : List α :=
  match l[i]? with
  | some x => l.set i (f x)
  | none => l

/-- One iteration of the loop over `TauG1` in `ReadFrom`: read `X`, read `Y`, append
the point. -/
def tauG1Body (P : Params) (_i : Nat) (st : Reader × List G1Affine) :
    Reader × List G1Affine :=
  let x := tryReadElement P st.1
  let y := tryReadElement P x.2
  (y.2, st.2 ++ [{ X := x.1, Y := y.1 }])

/-- The loop over `TauG1` in `ReadFrom`. -/
def readTauG1 (P : Params) (s : Reader) (tauG1 : List G1Affine) : Reader × List G1Affine :=
  forRange P.nbTauG1 (tauG1Body P) (s, tauG1)

/-- One iteration of the loop over `TauG2` in `ReadFrom`: append a zero point, then
assign the four coordinates of the point at index `i`. -/
def tauG2Body (P : Params) (i : Nat) (st : Reader × List G2Affine) :
    Reader × List G2Affine :=
  let t0 := st.2 ++ [G2Affine.zero]
  let a := tryReadElement P st.1
  let t1 := updateAt t0 i (fun p => { p with X := { p.X with A0 := a.1 } })
  let b := tryReadElement P a.2
  let t2 := updateAt t1 i (fun p => { p with X := { p.X with A1 := b.1 } })
  let c := tryReadElement P b.2
  let t3 := updateAt t2 i (fun p => { p with Y := { p.Y with A0 := c.1 } })
  let d := tryReadElement P c.2
  let t4 := updateAt t3 i (fun p => { p with Y := { p.Y with A1 := d.1 } })
  (d.2, t4)

/-- The loop over `TauG2` in `ReadFrom`. -/
def readTauG2 (P : Params) (s : Reader) (tauG2 : List G2Affine) : Reader × List G2Affine :=
  forRange P.nbTauG2 (tauG2Body P) (s, tauG2)

/-- One iteration of the loop over `AlphaG1` in `ReadFrom`: append a zero point, then
assign the two coordinates of the point at index `i`. -/
def alphaG1Body (P : Params) (i : Nat) (st : Reader × List G1Affine) :
    Reader × List G1Affine :=
  let t0 := st.2 ++ [G1Affine.zero]
  let x := tryReadElement P st.1
  let t1 := updateAt t0 i (fun p => { p with X := x.1 })
  let y := tryReadElement P x.2
  let t2 := updateAt t1 i (fun p => { p with Y := y.1 })
  (y.2, t2)

/-- The loop over `AlphaG1` in `ReadFrom`. -/
def readAlphaG1 (P : Params) (s : Reader) (alphaG1 : List G1Affine) :
    Reader × List G1Affine :=
  forRange P.nbAlphaG1 (alphaG1Body P) (s, alphaG1)

/-- The reader state with which `ReadFrom` starts decoding, after the header: the
bytes after the first 64, a zeroed buffer and no error. -/
def reader0 (P : Params) (bytes : List Byte) : Reader :=
  { rest := bytes.drop 64, buf := List.replicate P.fpBytes 0, tryReadErr := none }

/-- Source `Chunk.ReadFrom`. `file` is what `os.Open(path)` finds: `none` when the
file cannot be opened. The result is the returned error (`none` for `nil`) and the
chunk as the call leaves it. `TauG1` is truncated on entry; `TauG2` and `AlphaG1` are
not. -/
def ReadFrom (P : Params) (c : Chunk G1Affine G2Affine) (file : Option (List Byte))
    (isFirst : Bool) : Option ReadError × Chunk G1Affine G2Affine :=
  let c0 := { c with TauG1 := [], isFirst := isFirst }
  match file with
  | none => (some ReadError.openFailed, c0)
  | some bytes =>
    -- io.ReadFull(f, c.Hash[:])
    let c1 := { c0 with Hash := bytes.take 64 ++ c0.Hash.drop (min 64 bytes.length) }
    if bytes.length < 64 then
      (some (if bytes.length = 0 then ReadError.EOF else ReadError.unexpectedEOF), c1)
    else
      let s0 : Reader := reader0 P bytes
      let r1 := readTauG1 P s0 c1.TauG1
      let c2 := { c1 with TauG1 := r1.2 }
      if r1.1.tryReadErr ≠ none then (r1.1.tryReadErr, c2)
      else if isFirst then
        let r2 := readTauG2 P r1.1 c2.TauG2
        let c3 := { c2 with TauG2 := r2.2 }
        if r2.1.tryReadErr ≠ none then (r2.1.tryReadErr, c3)
        else
          let r3 := readAlphaG1 P r2.1 c3.AlphaG1
          (r3.1.tryReadErr, { c3 with AlphaG1 := r3.2 })
      else (r1.1.tryReadErr, c2)

/-- The number of field elements `ReadFrom` needs. -/
def requiredElements (P : Params) (isFirst : Bool) : Nat :=
  2 * P.nbTauG1 + (if isFirst then 4 * P.nbTauG2 + 2 * P.nbAlphaG1 else 0)

/-- The length in bytes of a file holding exactly the header and the required
elements. -/
def requiredLength (P : Params) (isFirst : Bool) : Nat :=
  64 + requiredElements P isFirst * P.fpBytes

/-- The value encoded by the `j`-th field element after the header. -/
def elementAt (P : Params) (bytes : List Byte) (j : Nat) : Nat :=
  leValue ((bytes.drop (64 + j * P.fpBytes)).take P.fpBytes)

/-- The values and the final reader state of `m` consecutive calls of
`tryReadElement`; the loops of `ReadFrom` are folds over such sequences. -/
def readElems (P : Params) : Nat → Reader → List Nat × Reader
  | 0, s => ([], s)
  | m + 1, s =>
    let r := tryReadElement P s
    let rs := readElems P m r.2
    (r.1 :: rs.1, rs.2)

/-- Consecutive values grouped two by two into G1 points. -/
def pairG1 : List Nat → List G1Affine
  | x :: y :: t => { X := x, Y := y } :: pairG1 t
  | _ => []

/-- Consecutive values grouped four by four into G2 points. -/
def quadG2 : List Nat → List G2Affine
  | a :: b :: c :: d :: t => { X := { A0 := a, A1 := b }, Y := { A0 := c, A1 := d } } :: quadG2 t
  | _ => []

/-- Two reader states that agree on the buffer and the error and, as long as no error
is set, on the next `m` unread bytes: the second one sees the file cut after them. -/
def SameUpTo (m : Nat) (s s' : Reader) : Prop :=
  s.buf = s'.buf ∧ s.tryReadErr = s'.tryReadErr ∧
    (s.tryReadErr = none → s'.rest = s.rest.take m)

/-! ## `execute` and `Chunk.VerifyPoints` -/

/-- The `(start, end)` pairs source `execute` hands to `work`, in task order, for
`nbTasks` workers (`runtime.NumCPU()`); `none` is the division by zero. -/
def executeRanges (nbIterations nbTasks : Nat) : Option (List (Nat × Nat)) :=
  if nbTasks = 0 then none
  else
    let nbIterationsPerCpus0 := nbIterations / nbTasks
    let nbIterationsPerCpus := if nbIterationsPerCpus0 < 1 then 1 else nbIterationsPerCpus0
    let nbTasks1 := if nbIterationsPerCpus0 < 1 then nbIterations else nbTasks
    let extraTasks := nbIterations - nbTasks1 * nbIterationsPerCpus
    let out := forRange nbTasks1 (fun i (st : Nat × Nat × List (Nat × Nat)) =>
      let extra := st.1
      let extraTasksOffset := st.2.1
      let start := i * nbIterationsPerCpus + extraTasksOffset
      let stop := start + nbIterationsPerCpus
      if extra > 0 then (extra - 1, extraTasksOffset + 1, st.2.2 ++ [(start, stop + 1)])
      else (extra, extraTasksOffset, st.2.2 ++ [(start, stop)])) (extraTasks, 0, [])
    some out.2.2

/-- The start of the `i`-th range of `execute`, for ranges of `per` elements of which
the first `extra` have one more; the `i`-th range ends where the next one starts. -/
def rangeStart (per extra i : Nat) : Nat :=
  i * per + min i extra

/-- The value of `nbIterationsPerCpus` when the loop of `execute` starts. -/
def execPer (n w : Nat) : Nat := if n / w < 1 then 1 else n / w

/-- The value of `nbTasks` when the loop of `execute` starts. -/
def execTasks (n w : Nat) : Nat := if n / w < 1 then n else w

/-- The value of `extraTasks` when the loop of `execute` starts. -/
def execExtra (n w : Nat) : Nat := n - execTasks n w * execPer n w

/-- Source `execute`: run `work` on every range; the results are listed in task
order (the order in which the goroutines finish is not modelled). -/
def execute {α : Type} (nbIterations : Nat) (work : Nat → Nat → α) (nbTasks : Nat) :
    Option (List α) :=
  (executeRanges nbIterations nbTasks).map (fun rs => rs.map (fun r => work r.1 r.2))

/-- The worker `VerifyPoints` passes to `execute`, from index `i` with `fuel` indices
left: it stops at the first point that is not in the subgroup and reports its index.
The outer `none` is an index out of range. -/
def scanRange {G : Type} (inSub : G → Bool) (pts : List G) : Nat → Nat → Option (Option Nat)
  | 0, _ => some none
  | fuel + 1, i =>
    match pts[i]? with
    | none => none
    | some p => if !inSub p then some (some i) else scanRange inSub pts fuel (i + 1)

/-- Index `i` is the first index of the range `[start, stop)` whose point is not in the
subgroup. -/
def FirstOffending {G : Type} (inSub : G → Bool) (pts : List G) (start stop i : Nat) : Prop :=
  start ≤ i ∧ i < stop ∧ (∃ p, pts[i]? = some p ∧ inSub p = false) ∧
    ∀ j, start ≤ j → j < i → ∃ p, pts[j]? = some p ∧ inSub p = true

/-- One parallel subgroup pass of `VerifyPoints` over `n` indices of `pts`: the
indices appended to `errors`. -/
def subgroupPass {G : Type} (inSub : G → Bool) (pts : List G) (n nbTasks : Nat) :
    Option (List Nat) := do
  let results ← execute n (fun start stop => scanRange inSub pts (stop - start) start) nbTasks
  let found ← results.mapM id
  pure found.reduceOption

/-- The errors `VerifyPoints` can return, with the indices they list. -/
inductive VerifyError where
  /-- Error `TauG1: [...]` -/
  | TauG1 (indices : List Nat)
  /-- Error `TauG2[0] is not the prime subgroup generator` -/
  | TauG2NotGenerator
  /-- Error `TauG1[0] is not the prime subgroup generator` -/
  | TauG1NotGenerator
  /-- Error `TauG2: [...]` -/
  | TauG2 (indices : List Nat)
  /-- Error `AlphaG1: [...]` -/
  | AlphaG1 (indices : List Nat)
deriving DecidableEq

/-- Source `Chunk.VerifyPoints`, with `nbTasks = runtime.NumCPU()` workers. The inner
`none` is the `nil` error, the outer `none` a panic. The slice `errors` is shared by
the three passes; a pass is reached only while it is empty. -/
def VerifyPoints {G1 G2 : Type} [DecidableEq G1] [DecidableEq G2] (P : Params)
    (inSubG1 : G1 → Bool) (inSubG2 : G2 → Bool) (g1Gen : G1) (g2Gen : G2) (nbTasks : Nat)
    (c : Chunk G1 G2) : Option (Option VerifyError) :=
  match subgroupPass inSubG1 c.TauG1 P.nbTauG1 nbTasks with
  | none => none
  | some found1 =>
    let errors1 : List Nat := [] ++ found1
    if errors1.length > 0 then some (some (VerifyError.TauG1 errors1))
    else if c.isFirst then
      match c.TauG2[0]? with
      | none => none
      | some t0 =>
        if t0 ≠ g2Gen then some (some VerifyError.TauG2NotGenerator)
        else
          match c.TauG1[0]? with
          | none => none
          | some a0 =>
            if a0 ≠ g1Gen then some (some VerifyError.TauG1NotGenerator)
            else
              match subgroupPass inSubG2 c.TauG2 c.TauG2.length nbTasks with
              | none => none
              | some found2 =>
                let errors2 := errors1 ++ found2
                if errors2.length > 0 then some (some (VerifyError.TauG2 errors2))
                else
                  match subgroupPass inSubG1 c.AlphaG1 c.AlphaG1.length nbTasks with
                  | none => none
                  | some found3 =>
                    let errors3 := errors2 ++ found3
                    if errors3.length > 0 then some (some (VerifyError.AlphaG1 errors3))
                    else some none
    else some none

/-! ## `linearCombinationG1` and `Chunk.IsValid` -/

/-- The package-level state of `linearCombinationG1`: `rVector`, which is `none`
until `initROnce` has fired, and the random source `SetRandom` draws from, as a
stream with the number of scalars drawn so far. -/
structure RState (F : Type) where
  /-- Variable `rVector` -/
  rVector : Option (List F)
  /-- The random source -/
  entropy : Nat → F
  /-- The number of scalars drawn -/
  drawn : Nat

/-- The body of `initROnce.Do`: `make` a vector of `m` scalars and `SetRandom` each. -/
def sampleRVector {F : Type} [Zero F] (st : RState F) (m : Nat) : RState F :=
  let r := forRange m (fun i (acc : List F × Nat) =>
    (acc.1.set i (st.entropy acc.2), acc.2 + 1)) (List.replicate m 0, st.drawn)
  { st with rVector := some r.1, drawn := r.2 }

/-- The call `initROnce.Do(...)`: the body runs only if it has not run before. -/
def initROnce {F : Type} [Zero F] (st : RState F) (m : Nat) : RState F :=
  match st.rVector with
  | some _ => st
  | none => sampleRVector st m

/-- Source `linearCombinationG1`: `L1 = Σ rᵢAᵢ`, `L2 = Σ rᵢAᵢ₊₁`. On the first call
`rVector` is sampled with `len(A) - 1` entries; on every call the two sums are
taken against the stored `rVector`. The empty input panics (`none`). The two
`MultiExp` run concurrently on disjoint outputs, which is not modelled. -/
def linearCombinationG1 {F G1 : Type} [Zero F] [Zero G1] [Add G1] [SMul F G1]
    (st : RState F) (A : List G1) : Option ((G1 × G1) × RState F) :=
  let n := A.length
  if n = 0 then none
  else
    let st1 := initROnce st (n - 1)
    let rVector := st1.rVector.getD []
    let L1 : G1 := MultiExp (A.take (n - 1)) rVector
    let L2 : G1 := MultiExp (A.drop 1) rVector
    some ((L1, L2), st1)

/-- Source `Chunk.IsValid`, with `g2Gen` for `snarkVMG2Gen`. -/
def IsValid {F G1 G2 GT : Type} [Zero F] [AddCommGroup G1] [AddCommGroup G2] [CommGroup GT]
    [SMul F G1] [DecidableEq GT] (E : Pairing G1 G2 GT) (g2Gen : G2)
    (st : RState F) (c : Chunk G1 G2) : Option (Bool × RState F) := do
  let (l, st1) ← linearCombinationG1 st c.TauG1
  let t ← c.TauG2[1]?
  let res ← sameRatio E l.1 l.2 t g2Gen
  pure (res, st1)

/-! ## The verification loop of `main` -/

/-- The part of `kzg.SRS` the loop fills: `Pk.G1`, `Vk.G1` and the two entries of
`Vk.G2`. The precomputed lines `Vk.Lines` are derived from `Vk.G2` by the library
and are left out. -/
structure SRS where
  /-- Field `Pk.G1` -/
  PkG1 : List G1Affine
  /-- Field `Vk.G1` -/
  VkG1 : G1Affine
  /-- Field `Vk.G2`, an array of two points -/
  VkG2 : G2Affine × G2Affine

/-- The ways an iteration of the loop ends the program: one constructor for each
`log.Fatalf` of the loop, and one for a panic. -/
inductive Fatal where
  /-- Message `failed to read chunk %d of last round` -/
  | readLast (i : Nat) (err : ReadError)
  /-- Message `failed to read chunk %d of prev round` -/
  | readPrev (i : Nat) (err : ReadError)
  /-- Message `failed to verify chunk %d of last round` -/
  | verifyLast (i : Nat) (err : VerifyError)
  /-- Message `failed to verify chunk %d of prev round` -/
  | verifyPrev (i : Nat) (err : VerifyError)
  /-- Message `TauG1[1] for chunk %d not computed well.` -/
  | ratio (i : Nat)
  /-- Message `chunk %d of last round is not valid (the aztec way)` -/
  | notValid (i : Nat)
  /-- A run-time panic -/
  | panic
deriving DecidableEq

/-- What the primitives library contributes to the loop: the group element each
coordinate struct stands for (`pt1`, `pt2`), the pairing, and the two subgroup
predicates `IsInSubGroup`. -/
structure Library (G1 G2 GT : Type) [AddCommGroup G1] [AddCommGroup G2] [CommGroup GT] where
  /-- The G1 element a `G1Affine` struct stands for -/
  pt1 : G1Affine → G1
  /-- The G2 element a `G2Affine` struct stands for -/
  pt2 : G2Affine → G2
  /-- The pairing -/
  E : Pairing G1 G2 GT
  /-- Method `G1Affine.IsInSubGroup` -/
  IsInSubGroupG1 : G1Affine → Bool
  /-- Method `G2Affine.IsInSubGroup` -/
  IsInSubGroupG2 : G2Affine → Bool

/-- What the run reads from its environment: the contribution file of each chunk of
the two rounds (`none` when it cannot be opened), the flag `-no-subgroup-checks` and
`runtime.NumCPU()`. -/
structure Inputs where
  /-- File `round_139/chunk_i/contribution_0.verified` -/
  lastRound : Nat → Option (List Byte)
  /-- File `round_138/chunk_i/contribution_0.verified` -/
  prevRound : Nat → Option (List Byte)
  /-- Flag `-no-subgroup-checks` -/
  noSubgroupChecks : Bool
  /-- Value of `runtime.NumCPU()` -/
  numCPU : Nat

/-- The variables the loop of `main` carries from one chunk to the next. -/
structure MainState (F : Type) where
  /-- Variable `currChunk` -/
  currChunk : Chunk G1Affine G2Affine
  /-- Variable `prevChunk` -/
  prevChunk : Chunk G1Affine G2Affine
  /-- Variable `srs`, `none` for the nil pointer -/
  srs : Option SRS
  /-- The state of the challenge vector -/
  rnd : RState F

/-- The state before the first iteration; `outputSRS` tells whether the flag `-srs`
is set. -/
def initialState {F : Type} (outputSRS : Bool) (rnd : RState F) : MainState F where
  currChunk := newChunk
  prevChunk := newChunk
  srs := if outputSRS then
      some { PkG1 := [], VkG1 := snarkVMG1Gen, VkG2 := (snarkVMG2Gen, G2Affine.zero) }
    else none
  rnd := rnd

section Loop

variable {G1 G2 GT : Type} [AddCommGroup G1] [AddCommGroup G2] [CommGroup GT]

/-- The block `if !*noSubgroupChecks { ... }` of the loop. -/
def verifyStep (P : Params) (L : Library G1 G2 GT) (inp : Inputs) (i : Nat)
    (curr prev : Chunk G1Affine G2Affine) : Except Fatal Unit :=
  if inp.noSubgroupChecks then .ok ()
  else
    match VerifyPoints P L.IsInSubGroupG1 L.IsInSubGroupG2 snarkVMG1Gen snarkVMG2Gen
        inp.numCPU curr with
    | none => .error Fatal.panic
    | some (some err) => .error (Fatal.verifyLast i err)
    | some none =>
      match VerifyPoints P L.IsInSubGroupG1 L.IsInSubGroupG2 snarkVMG1Gen snarkVMG2Gen
          inp.numCPU prev with
      | none => .error Fatal.panic
      | some (some err) => .error (Fatal.verifyPrev i err)
      | some none => .ok ()

/-- The block `if i == 0 { if !sameRatio(currChunk.TauG1[1], prevChunk.TauG1[1],
prevChunk.TauG2[1], currChunk.TauG2[1]) { log.Fatalf(...) } }` of the loop. -/
def continuityStep [DecidableEq GT] (L : Library G1 G2 GT) (i : Nat)
    (curr prev : Chunk G1Affine G2Affine) : Except Fatal Unit :=
  if i = 0 then
    match curr.TauG1[1]?, prev.TauG1[1]?, prev.TauG2[1]?, curr.TauG2[1]? with
    | some a1, some b1, some a2, some b2 =>
      match sameRatio L.E (L.pt1 a1) (L.pt1 b1) (L.pt2 a2) (L.pt2 b2) with
      | some true => .ok ()
      | some false => .error (Fatal.ratio i)
      | none => .error Fatal.panic
    | _, _, _, _ => .error Fatal.panic
  else .ok ()

/-- The block `if !currChunk.IsValid() { log.Fatalf(...) }` of the loop. -/
def validStep {r : ℕ} [Module (ZMod r) G1] [DecidableEq GT] (L : Library G1 G2 GT) (i : Nat)
    (curr : Chunk G1Affine G2Affine) (rnd : RState (ZMod r)) :
    Except Fatal (RState (ZMod r)) :=
  match IsValid L.E (L.pt2 snarkVMG2Gen) rnd (curr.map L.pt1 L.pt2) with
  | none => .error Fatal.panic
  | some (false, _) => .error (Fatal.notValid i)
  | some (true, rnd1) => .ok rnd1

/-- The block `if srs != nil { ... }` of the loop. -/
def assembleStep (i : Nat) (curr : Chunk G1Affine G2Affine) (srs : Option SRS) :
    Except Fatal (Option SRS) :=
  match srs with
  | none => .ok none
  | some s =>
    let s1 := { s with PkG1 := s.PkG1 ++ curr.TauG1 }
    if i = 0 then
      match curr.TauG2[1]? with
      | none => .error Fatal.panic
      | some t => .ok (some { s1 with VkG2 := (s1.VkG2.1, t) })
    else .ok (some s1)

/-- One iteration of the loop `for i := 0; i < nbChunks; i++` of `main`; a
`log.Fatalf` ends the run with the corresponding `Fatal`. -/
def loopBody {r : ℕ} [Module (ZMod r) G1] [DecidableEq GT] (P : Params)
    (L : Library G1 G2 GT) (inp : Inputs) (i : Nat) (st : MainState (ZMod r)) :
    Except Fatal (MainState (ZMod r)) :=
  let rc := ReadFrom P st.currChunk (inp.lastRound i) (i == 0)
  match rc.1 with
  | some err => .error (Fatal.readLast i err)
  | none =>
    let rp := ReadFrom P st.prevChunk (inp.prevRound i) (i == 0)
    match rp.1 with
    | some err => .error (Fatal.readPrev i err)
    | none => do
      verifyStep P L inp i rc.2 rp.2
      continuityStep L i rc.2 rp.2
      let rnd1 ← validStep L i rc.2 st.rnd
      let srs1 ← assembleStep i rc.2 st.srs
      pure { currChunk := rc.2, prevChunk := rp.2, srs := srs1, rnd := rnd1 }

/-- The loop of `main` over the chunks. -/
def mainLoop {r : ℕ} [Module (ZMod r) G1] [DecidableEq GT] (P : Params)
    (L : Library G1 G2 GT) (inp : Inputs) (st : MainState (ZMod r)) :
    Except Fatal (MainState (ZMod r)) :=
  forRange P.nbChunks (fun i acc => acc.bind (loopBody P L inp i)) (.ok st)

end Loop

/-! ## The self-check of the SRS: `randomPolynomial`, `eval`, `srsSanityCheck` -/

/-- The loop `for i := n - 1; i >= 0; i-- { s = body i s }`. -/
def forRangeDown {σ : Type} (n : Nat) (body : Nat → σ → σ) (s : σ) : σ :=
  (List.range n).reverse.foldl (fun acc i => body i acc) s

/-- The modulus of the BLS12-377 scalar field, the field of `fr.Element` in
`aleo/main.go`. -/
def bls12377FrModulus : Nat :=
  8444461749428370424248824938781546531375899335154063827935233455917409239041

/-- The modulus of the BN254 scalar field, the field of `fr.Element` in `cmd/main.go`. -/
def bn254FrModulus : Nat :=
  21888242871839275222246405745257275088548364400416034343698204186575808495617

/-- The scalars of `aleo/main.go`. -/
abbrev Fr377 : Type := ZMod bls12377FrModulus

/-- The scalars of `cmd/main.go`. -/
abbrev FrBN254 : Type := ZMod bn254FrModulus

/-- Source `randomPolynomial` of `aleo/main.go`: `make` a slice of `size` scalars and
`SetRandom` each, drawing from the random source `entropy` at position `drawn`. The
result is the slice and the new position. -/
def randomPolynomial {F : Type} [Zero F] (size : Nat) (entropy : Nat → F) (drawn : Nat) :
    List F × Nat :=
  forRange size (fun i (acc : List F × Nat) =>
    (acc.1.set i (entropy acc.2), acc.2 + 1)) (List.replicate size 0, drawn)

/-- Source `eval` of `aleo/main.go`: `res = p[n-1]`, then for `i` from `n - 2` down to
`0`, `res = res·point + p[i]`. The empty slice panics (`none`); the indices of the
loop are in range. -/
def eval {F : Type} [CommRing F] (p : List F) (point : F) : Option F :=
  let n := p.length
  if n = 0 then none
  else
    let res := p.getD (n - 1) 0
    some (forRangeDown (n - 1) (fun i res => res * point + p.getD i 0) res)

/-- Modelled from the spec: the polynomial commitment of the primitives library
(gnark-crypto `kzg`, not under `src/`): commit, open, the claimed value of an opening
proof, and verify. `none` and `false` stand for a returned error. -/
structure KzgLib (F PK VK Digest Proof : Type) where
  /-- Function `kzg.Commit` -/
  Commit : List F → PK → Option Digest
  /-- Function `kzg.Open` -/
  Open : List F → F → PK → Option Proof
  /-- Field `OpeningProof.ClaimedValue` -/
  ClaimedValue : Proof → F
  /-- Function `kzg.Verify`, `true` for a nil error -/
  Verify : Digest → Proof → F → VK → Bool

/-- The ways the self-check ends the program. -/
inductive SanityFatal where
  /-- Message `failed to commit polynomial` -/
  | commitFailed
  /-- Message `failed to open polynomial` -/
  | openFailed
  /-- Message `inconsistent claimed value` -/
  | inconsistentClaimedValue
  /-- Message `failed to verify proof` -/
  | verifyFailed
  /-- A run-time panic -/
  | panic
deriving DecidableEq

/-- What a run of the self-check does: the polynomial it samples, the point at which
it opens it, the position of the random source afterwards, and the outcome. -/
structure SanityRun (F : Type) where
  /-- The polynomial `f` -/
  f : List F
  /-- The variable `point` -/
  point : F
  /-- The position of the random source after the run -/
  drawn : Nat
  /-- The outcome: `ok` when the function returns -/
  outcome : Except SanityFatal Unit

/-- Source `srsSanityCheck` of `aleo/main.go`: sample `f := randomPolynomial(60)`,
commit, set `point` with `point.SetString("4321")`, open at `point`, compare the
claimed value with `eval(f, point)`, verify. -/
def srsSanityCheck {F PK VK Digest Proof : Type} [CommRing F] [DecidableEq F]
    (K : KzgLib F PK VK Digest Proof) (pk : PK) (vk : VK) (entropy : Nat → F) (drawn : Nat) :
    SanityRun F :=
  let fr := randomPolynomial 60 entropy drawn
  let f := fr.1
  let point : F := 4321
  let outcome : Except SanityFatal Unit :=
    match K.Commit f pk with
    | none => .error SanityFatal.commitFailed
    | some digest =>
      match K.Open f point pk with
      | none => .error SanityFatal.openFailed
      | some proof =>
        match eval f point with
        | none => .error SanityFatal.panic
        | some expected =>
          if K.ClaimedValue proof ≠ expected then .error SanityFatal.inconsistentClaimedValue
          else if K.Verify digest proof point vk then .ok ()
          else .error SanityFatal.verifyFailed
  { f := f, point := point, drawn := fr.2, outcome := outcome }

end Aleo

namespace Cmd

/-- Source `randomPolynomial` of `cmd/main.go`. -/
def randomPolynomial {F : Type} [Zero F] (size : Nat) (entropy : Nat → F) (drawn : Nat) :
    List F × Nat :=
  Aleo.forRange size (fun i (acc : List F × Nat) =>
    (acc.1.set i (entropy acc.2), acc.2 + 1)) (List.replicate size 0, drawn)

/-- Source `eval` of `cmd/main.go`, the same text as in `aleo/main.go` over the scalars
of BN254. -/
def eval {F : Type} [CommRing F] (p : List F) (point : F) : Option F :=
  let n := p.length
  if n = 0 then none
  else
    let res := p.getD (n - 1) 0
    some (Aleo.forRangeDown (n - 1) (fun i res => res * point + p.getD i 0) res)

/-- Source `sanityCheck` of `cmd/main.go`: the same steps as `srsSanityCheck`, with
`point.SetString("4321")`. -/
def sanityCheck {F PK VK Digest Proof : Type} [CommRing F] [DecidableEq F]
    (K : Aleo.KzgLib F PK VK Digest Proof) (pk : PK) (vk : VK) (entropy : Nat → F)
    (drawn : Nat) : Aleo.SanityRun F :=
  let fr := randomPolynomial 60 entropy drawn
  let f := fr.1
  let point : F := 4321
  let outcome : Except Aleo.SanityFatal Unit :=
    match K.Commit f pk with
    | none => .error Aleo.SanityFatal.commitFailed
    | some digest =>
      match K.Open f point pk with
      | none => .error Aleo.SanityFatal.openFailed
      | some proof =>
        match eval f point with
        | none => .error Aleo.SanityFatal.panic
        | some expected =>
          if K.ClaimedValue proof ≠ expected then
            .error Aleo.SanityFatal.inconsistentClaimedValue
          else if K.Verify digest proof point vk then .ok ()
          else .error Aleo.SanityFatal.verifyFailed
  { f := f, point := point, drawn := fr.2, outcome := outcome }

end Cmd

namespace Aleo

/-! ## Runs of the loop -/

section LoopRuns

variable {G1 G2 GT : Type} [AddCommGroup G1] [AddCommGroup G2] [CommGroup GT]

/-- The first `k` iterations of the loop of `main`, chunks `0` to `k - 1`; `mainLoop`
is `loopPrefix` at `k = nbChunks`. -/
def loopPrefix {r : ℕ} [Module (ZMod r) G1] [DecidableEq GT] (P : Params)
    (L : Library G1 G2 GT) (inp : Inputs) (k : Nat) (st : MainState (ZMod r)) :
    Except Fatal (MainState (ZMod r)) :=
  forRange k (fun i acc => acc.bind (loopBody P L inp i)) (.ok st)

end LoopRuns

/-- The `TauG1` that `ReadFrom` decodes from a file; it depends neither on the chunk
the file is read into nor on `isFirst`. -/
def decodedTauG1 (P : Params) (file : Option (List Byte)) : List G1Affine :=
  (ReadFrom P newChunk file false).2.TauG1

/-- The `TauG2` that `ReadFrom` decodes from the file of chunk 0, read into a fresh
chunk with `isFirst = true`. -/
def decodedTauG2 (P : Params) (file : Option (List Byte)) : List G2Affine :=
  (ReadFrom P newChunk file true).2.TauG2

/-! ## A small concrete instance -/

/-- A pairing on the group of order 3: `e(a, b) = a·b`, written multiplicatively.
It is the concrete instance at which the hypotheses of the theorems are exhibited. -/
def smallPairing : Pairing (ZMod 3) (ZMod 3) (Multiplicative (ZMod 3)) where
  e a b := Multiplicative.ofAdd (a * b)
  add_left a b c := by simp [add_mul]
  add_right a b c := by simp [mul_add]

/-- A state of the challenge vector in which `[1, 2]` is stored. -/
def smallState : RState (ZMod 3) := ⟨some [1, 2], fun _ => 0, 0⟩

/-- A chunk over the group of order 3 with `TauG1 = [1, 2, 4]` (powers of `tau = 2`)
and `TauG2 = [1, 2]`. -/
def smallChunk : Chunk (ZMod 3) (ZMod 3) := ⟨[], [1, 2, 1], [1, 2], [], false⟩

/-- A chunk over the group of order 3 whose `TauG1 = [1, 1]` is not a sequence of
powers of `tau = 2`, while `TauG2[1] = 2`. -/
def smallBadChunk : Chunk (ZMod 3) (ZMod 3) := ⟨[], [1, 1], [1, 2], [], false⟩

/-- A library over the group of order 3: a struct stands for its first coordinate
modulo 3, and every point is in the subgroup. -/
def smallLibrary : Library (ZMod 3) (ZMod 3) (Multiplicative (ZMod 3)) where
  pt1 p := (p.X : ZMod 3)
  pt2 q := (q.X.A0 : ZMod 3)
  E := smallPairing
  IsInSubGroupG1 _ := true
  IsInSubGroupG2 _ := true

/-- Two decoded chunks with `TauG1[1] = 2`, `TauG2[1] = 2` for the last round and
`TauG1[1] = 1`, `TauG2[1] = 1` for the previous one. -/
def smallCurr : Chunk G1Affine G2Affine :=
  ⟨[], [⟨1, 0⟩, ⟨2, 0⟩], [⟨⟨1, 0⟩, ⟨0, 0⟩⟩, ⟨⟨2, 0⟩, ⟨0, 0⟩⟩], [], true⟩

/-- The chunk of the previous round that goes with `smallCurr`. -/
def smallPrev : Chunk G1Affine G2Affine :=
  ⟨[], [⟨1, 0⟩, ⟨1, 0⟩], [⟨⟨1, 0⟩, ⟨0, 0⟩⟩, ⟨⟨1, 0⟩, ⟨0, 0⟩⟩], [], true⟩

/-- Small constants for the decoder: two `TauG1` points, two `TauG2` points, one
`AlphaG1` point, elements of two bytes and the modulus 300. -/
def smallParams : Params where
  nbTauG1 := 2
  nbTauG2 := 2
  nbAlphaG1 := 1
  nbChunks := 2
  fpBytes := 2
  fpModulus := 300

/-- A well-formed file for `smallParams` and `isFirst = true`: a header of 64 bytes and
14 elements, the `j`-th one being `j + 256` in little-endian order. -/
def smallFile : List Byte :=
  List.replicate 64 7 ++ [0, 1, 1, 1, 2, 1, 3, 1, 4, 1, 5, 1, 6, 1, 7, 1, 8, 1, 9, 1, 10, 1,
    11, 1, 12, 1, 13, 1]

/-- The file `smallFile` with its element 1 replaced by `0xffff`, which is not below the
modulus. -/
def smallBadFile : List Byte :=
  List.replicate 64 7 ++ [0, 1, 255, 255, 2, 1, 3, 1, 4, 1, 5, 1, 6, 1, 7, 1, 8, 1, 9, 1,
    10, 1, 11, 1, 12, 1, 13, 1]

/-- The decode of chunk 0 for the constants of the program: `ReadFrom` with
`isFirst = true` on a fresh chunk and the file made of the header and the `131366`
required elements, all bytes zero. -/
def firstRead : Option ReadError × Chunk G1Affine G2Affine :=
  ReadFrom aleo newChunk (some (List.replicate 6305632 0)) true

/-- A chunk of `nbTauG1 = 65536` points none of which is in the subgroup: the point
`(1, 1)` is not on the curve `y² = x³ + 1`. -/
def offCurveChunk : Chunk G1Affine G2Affine :=
  { Hash := List.replicate 64 0, TauG1 := List.replicate 65536 ⟨1, 1⟩, TauG2 := [],
    AlphaG1 := [], isFirst := false }

/-- A subgroup predicate that knows one point of the subgroup, the generator. -/
def onlyG1Gen (p : G1Affine) : Bool := decide (p = snarkVMG1Gen)

/-- A subgroup predicate that knows one point of the subgroup, the generator. -/
def onlyG2Gen (q : G2Affine) : Bool := decide (q = snarkVMG2Gen)

/-- A chunk 0 for `smallParams` all of whose points are the generators. -/
def genChunk : Chunk G1Affine G2Affine :=
  { Hash := List.replicate 64 0, TauG1 := [snarkVMG1Gen, snarkVMG1Gen],
    TauG2 := [snarkVMG2Gen, snarkVMG2Gen], AlphaG1 := [snarkVMG1Gen], isFirst := true }

/-- A run environment for `smallParams`: every contribution file is the header and the
required elements, all bytes zero (92 bytes for chunk 0, 72 for the others), the
subgroup checks are switched off and there is one CPU. -/
def zeroInputs : Inputs where
  lastRound := fun i => some (List.replicate (if i = 0 then 92 else 72) 0)
  prevRound := fun i => some (List.replicate (if i = 0 then 92 else 72) 0)
  noSubgroupChecks := true
  numCPU := 1

/-- A state of the challenge vector before the first call of `linearCombinationG1`,
with a random source that yields `0, 1, 2, ...`. -/
def freshState : RState (ZMod 3) := ⟨none, fun i => (i : ZMod 3), 0⟩

/-! ## Pairing lemmas -/

section PairingLemmas

variable {G1 G2 GT : Type} [AddCommGroup G1] [AddCommGroup G2] [CommGroup GT]

theorem Pairing.map_zero_right (E : Pairing G1 G2 GT) (a : G1) : E.e a 0 = 1 := by
  have h := E.add_right a 0 0
  rw [add_zero] at h
  exact (mul_right_eq_self.mp h.symm)

theorem Pairing.map_zero_left (E : Pairing G1 G2 GT) (b : G2) : E.e 0 b = 1 := by
  have h := E.add_left 0 0 b
  rw [add_zero] at h
  exact (mul_right_eq_self.mp h.symm)

theorem Pairing.map_neg_right (E : Pairing G1 G2 GT) (a : G1) (b : G2) :
    E.e a (-b) = (E.e a b)⁻¹ := by
  have h := E.add_right a b (-b)
  rw [add_neg_cancel, E.map_zero_right] at h
  exact eq_inv_of_mul_eq_one_right h.symm

theorem Pairing.map_neg_left (E : Pairing G1 G2 GT) (a : G1) (b : G2) :
    E.e (-a) b = (E.e a b)⁻¹ := by
  have h := E.add_left a (-a) b
  rw [add_neg_cancel, E.map_zero_left] at h
  exact eq_inv_of_mul_eq_one_right h.symm

theorem sameRatio_eq [DecidableEq GT] (E : Pairing G1 G2 GT) (a1 b1 : G1) (a2 b2 : G2) :
    sameRatio E a1 b1 a2 b2 = some (decide (E.e a1 (-a2) * E.e b1 b2 = 1)) := by
  simp [sameRatio, PairingCheck, pairProduct]

theorem sameRatio_true_iff [DecidableEq GT] (E : Pairing G1 G2 GT) (a1 b1 : G1) (a2 b2 : G2) :
    sameRatio E a1 b1 a2 b2 = some true ↔ E.e a1 a2 = E.e b1 b2 := by
  rw [sameRatio_eq, E.map_neg_right]
  simp only [Option.some.injEq, decide_eq_true_eq]
  rw [inv_mul_eq_one]

end PairingLemmas

/-! ## Scalars and the linear combinations -/

section Scalars

variable {G1 G2 GT : Type} [AddCommGroup G1] [AddCommGroup G2] [CommGroup GT]
variable {r : ℕ} [Module (ZMod r) G1] [Module (ZMod r) G2]

omit [Module (ZMod r) G1] [Module (ZMod r) G2] in
theorem Pairing.map_zsmul_left (E : Pairing G1 G2 GT) (k : ℤ) (a : G1) (b : G2) :
    E.e (k • a) b = E.e a b ^ k := by
  let f : G1 →+ Additive GT := AddMonoidHom.mk' (fun x => Additive.ofMul (E.e x b))
    (fun x y => by simp [E.add_left])
  have h := map_zsmul f k a
  exact h

omit [Module (ZMod r) G1] [Module (ZMod r) G2] in
theorem Pairing.map_zsmul_right (E : Pairing G1 G2 GT) (k : ℤ) (a : G1) (b : G2) :
    E.e a (k • b) = E.e a b ^ k := by
  let f : G2 →+ Additive GT := AddMonoidHom.mk' (fun x => Additive.ofMul (E.e a x))
    (fun x y => by simp [E.add_right])
  have h := map_zsmul f k b
  exact h

theorem Pairing.smul_swap (E : Pairing G1 G2 GT) (s : ZMod r) (a : G1) (b : G2) :
    E.e (s • a) b = E.e a (s • b) := by
  obtain ⟨k, rfl⟩ := ZMod.intCast_surjective s
  rw [Int.cast_smul_eq_zsmul, Int.cast_smul_eq_zsmul, E.map_zsmul_left, E.map_zsmul_right]

omit [AddCommGroup G2] [CommGroup GT] [Module (ZMod r) G2] in
theorem zipWith_smul_map_sum (tau : ZMod r) (rv : List (ZMod r)) (X : List G1) :
    (List.zipWith (fun s p => s • p) rv (X.map (fun p => tau • p))).sum
      = tau • (List.zipWith (fun s p => s • p) rv X).sum := by
  induction rv generalizing X with
  | nil => simp
  | cons s rv ih =>
    cases X with
    | nil => simp
    | cons x X =>
      simp only [List.map_cons, List.zipWith_cons_cons, List.sum_cons, smul_add, ih]
      rw [smul_comm]

omit [AddCommGroup G2] [CommGroup GT] [Module (ZMod r) G2] in
theorem drop_one_eq_map_take (tau : ZMod r) (A : List G1)
    (h : ∀ i a b, A[i]? = some a → A[i + 1]? = some b → b = tau • a) :
    A.drop 1 = (A.take (A.length - 1)).map (fun p => tau • p) := by
  apply List.ext_getElem?
  intro i
  simp only [List.getElem?_drop, List.getElem?_map, List.getElem?_take]
  by_cases hi : i < A.length - 1
  · have h1 : i < A.length := by omega
    have h2 : 1 + i < A.length := by omega
    simp only [hi, if_true, List.getElem?_eq_getElem h1, List.getElem?_eq_getElem h2, Option.map_some']
    congr 1
    apply h i
    · exact List.getElem?_eq_getElem h1
    · rw [add_comm]; exact List.getElem?_eq_getElem h2
  · have h2 : A.length ≤ 1 + i := by omega
    simp [hi, List.getElem?_eq_none h2]

omit [AddCommGroup G2] [CommGroup GT] [Module (ZMod r) G2] in
theorem MultiExp_shift (tau : ZMod r) (A : List G1) (rv : List (ZMod r))
    (h : ∀ i a b, A[i]? = some a → A[i + 1]? = some b → b = tau • a) (hA : A ≠ []) :
    (MultiExp (A.drop 1) rv : G1) = tau • MultiExp (A.take (A.length - 1)) rv := by
  have hl : A.length ≠ 0 := by simpa using hA
  unfold MultiExp
  have e1 : (A.drop 1).length = (A.take (A.length - 1)).length := by
    simp only [List.length_drop, List.length_take]; omega
  rw [e1]
  split
  · simp
  · rw [drop_one_eq_map_take tau A h, zipWith_smul_map_sum]

omit [Module (ZMod r) G2] in
theorem IsValid_eq [DecidableEq GT] (E : Pairing G1 G2 GT) (g2Gen : G2)
    (st : RState (ZMod r)) (c : Chunk G1 G2) (t : G2) (hA : c.TauG1 ≠ [])
    (hT : c.TauG2[1]? = some t) :
    IsValid E g2Gen st c =
      some (decide (E.e (MultiExp (c.TauG1.take (c.TauG1.length - 1))
              ((initROnce st (c.TauG1.length - 1)).rVector.getD [])) t
            = E.e (MultiExp (c.TauG1.drop 1)
              ((initROnce st (c.TauG1.length - 1)).rVector.getD [])) g2Gen),
            initROnce st (c.TauG1.length - 1)) := by
  have hl : c.TauG1.length ≠ 0 := by simpa using hA
  simp only [IsValid, linearCombinationG1, hl, if_false, hT, sameRatio_eq, Option.bind_eq_bind,
    Option.some_bind, Option.pure_def, E.map_neg_right, inv_mul_eq_one]

end Scalars

/-! ## Counting the accepted challenge vectors -/

section Count
variable {F V : Type} [Ring F] [AddCommGroup V] [Module F V]

theorem zipWith_ofFn_sum {m : ℕ} (rv : Fin m → F) (pts : List V) (h : pts.length = m) :
    (List.zipWith (fun s p => s • p) (List.ofFn rv) pts).sum
      = ∑ i : Fin m, rv i • pts.getD i 0 := by
  subst h
  have e : List.zipWith (fun s p => s • p) (List.ofFn rv) pts
      = List.ofFn (fun i : Fin pts.length => rv i • pts.getD i 0) := by
    apply List.ext_getElem
    · simp
    · intro i h1 h2
      have h3 : i < pts.length := by simpa using h2
      simp [List.getD_eq_getElem _ _ h3]
  rw [e, List.sum_ofFn]

theorem MultiExp_ofFn {m : ℕ} (rv : Fin m → F) (pts : List V) (h : pts.length = m) :
    MultiExp pts (List.ofFn rv) = ∑ i : Fin m, rv i • pts.getD i 0 := by
  unfold MultiExp
  rw [if_neg (by simp [h]), zipWith_ofFn_sum rv pts h]

end Count

section Kernel
variable (F : Type) {V : Type} [Field F] [AddCommGroup V] [Module F V]

theorem card_kernel_mul_le [Fintype F] {m : ℕ} (D : Fin m → V) (k : Fin m) (hk : D k ≠ 0)
    [DecidablePred (fun rv : Fin m → F => ∑ i, rv i • D i = 0)] :
    (Finset.univ.filter (fun rv : Fin m → F => ∑ i, rv i • D i = 0)).card * Fintype.card F
      ≤ Fintype.card F ^ m := by
  classical
  let ψ : (Fin m → F) → V := fun rv => ∑ i, rv i • D i
  have hadd : ∀ x y, ψ (x + y) = ψ x + ψ y := by
    intro x y
    simp only [ψ, Pi.add_apply, add_smul, Finset.sum_add_distrib]
  have hsingle : ∀ c : F, ψ (Pi.single k c) = c • D k := by
    intro c
    simp only [ψ]
    rw [Finset.sum_eq_single k]
    · simp
    · intro b _ hb
      simp [Pi.single_eq_of_ne hb]
    · intro h
      exact absurd (Finset.mem_univ k) h
  let g : {rv : Fin m → F // ψ rv = 0} × F → (Fin m → F) := fun p => p.1.1 + Pi.single k p.2
  have hg : Function.Injective g := by
    rintro ⟨⟨x, hx⟩, c⟩ ⟨⟨y, hy⟩, d⟩ hxy
    simp only [g] at hxy
    have h1 := congrArg ψ hxy
    rw [hadd, hadd, hsingle, hsingle, hx, hy, zero_add, zero_add] at h1
    have h2 : (c - d) • D k = 0 := by rw [sub_smul, h1, sub_self]
    have h3 : c = d := by
      rcases smul_eq_zero.mp h2 with h | h
      · exact sub_eq_zero.mp h
      · exact absurd h hk
    subst h3
    have h4 : x = y := add_right_cancel hxy
    subst h4
    rfl
  have hc := Fintype.card_le_of_injective g hg
  rw [Fintype.card_prod, Fintype.card_fun, Fintype.card_fin, Fintype.card_subtype] at hc
  convert hc using 2
end Kernel

section Sound
variable {G1 G2 GT : Type} [AddCommGroup G1] [AddCommGroup G2] [CommGroup GT]
variable {r : ℕ} [Module (ZMod r) G1] [Module (ZMod r) G2]

omit [Module (ZMod r) G1] [Module (ZMod r) G2] in
theorem Pairing.map_sub_left (E : Pairing G1 G2 GT) (a b : G1) (c : G2) :
    E.e (a - b) c = E.e a c / E.e b c := by
  rw [sub_eq_add_neg, E.add_left, E.map_neg_left, div_eq_mul_inv]

/-- With a stored challenge vector `rv`, `IsValid` accepts exactly when the linear form
`Σ rvᵢ · (Aᵢ₊₁ - tau · Aᵢ)` vanishes, provided the pairing against `g2Gen` is
non-degenerate. -/
theorem IsValid_ofFn_iff [DecidableEq GT] (E : Pairing G1 G2 GT) (g2Gen : G2)
    (hnd : ∀ Q : G1, E.e Q g2Gen = 1 → Q = 0) (tau : ZMod r) (n : ℕ) (c : Chunk G1 G2)
    (ent : ℕ → ZMod r) (d : ℕ) (hn : 2 ≤ n) (hlen : c.TauG1.length = n)
    (hT : c.TauG2[1]? = some (tau • g2Gen)) (rv : Fin (n - 1) → ZMod r) :
    (IsValid E g2Gen ⟨some (List.ofFn rv), ent, d⟩ c).map Prod.fst = some true ↔
      ∑ i : Fin (n - 1), rv i • (c.TauG1.getD (i + 1) 0 - tau • c.TauG1.getD i 0) = 0 := by
  have hne : c.TauG1 ≠ [] := by
    intro h
    rw [h] at hlen
    simp at hlen
    omega
  have h1 : (c.TauG1.take (n - 1)).length = n - 1 := by simp [hlen]
  have h2 : (c.TauG1.drop 1).length = n - 1 := by simp [hlen]
  rw [IsValid_eq E g2Gen _ c (tau • g2Gen) hne hT]
  simp only [initROnce, Option.getD_some, Option.map_some', Option.some.injEq,
    decide_eq_true_eq, hlen]
  rw [MultiExp_ofFn rv _ h1, MultiExp_ofFn rv _ h2, ← E.smul_swap]
  have e1 : ∀ i : Fin (n - 1), (c.TauG1.take (n - 1)).getD i 0 = c.TauG1.getD i 0 := by
    intro i
    simp [List.getD_eq_getElem?_getD, List.getElem?_take, i.2]
  have e2 : ∀ i : Fin (n - 1), (c.TauG1.drop 1).getD i 0 = c.TauG1.getD (i + 1) 0 := by
    intro i
    simp [List.getD_eq_getElem?_getD, List.getElem?_drop, add_comm]
  simp only [e1, e2, smul_sub, Finset.sum_sub_distrib]
  have e3 : ∑ x : Fin (n - 1), rv x • tau • c.TauG1.getD x 0
      = tau • ∑ x : Fin (n - 1), rv x • c.TauG1.getD x 0 := by
    rw [Finset.smul_sum]
    apply Finset.sum_congr rfl
    intro i _
    rw [smul_comm]
  rw [e3]
  constructor
  · intro h
    apply hnd
    rw [E.map_sub_left, ← h, div_self']
  · intro h
    rw [sub_eq_zero.mp h]

end Sound

/-! ## The claims on `sameRatio` and `Chunk.IsValid` -/

section RatioClaims

variable {G1 G2 GT : Type} [AddCommGroup G1] [AddCommGroup G2] [CommGroup GT]
variable {r : ℕ} [Module (ZMod r) G1] [Module (ZMod r) G2]

omit [Module (ZMod r) G1] [Module (ZMod r) G2] in
/-- C1: for all G1 points `a1`, `b1` and G2 points `a2`, `b2`, `sameRatio` returns (it
never panics) the outcome of the single product check `e(a1, -a2) · e(b1, b2) = 1`,
and it returns `true` if and only if `e(a1, a2) = e(b1, b2)`. -/
theorem sameRatio_iff_pairing_eq [DecidableEq GT] (E : Pairing G1 G2 GT)
    (a1 b1 : G1) (a2 b2 : G2) :
    sameRatio E a1 b1 a2 b2 = some (decide (E.e a1 (-a2) * E.e b1 b2 = 1)) ∧
    (sameRatio E a1 b1 a2 b2 = some true ↔ E.e a1 a2 = E.e b1 b2) :=
  ⟨sameRatio_eq E a1 b1 a2 b2, sameRatio_true_iff E a1 b1 a2 b2⟩

/-- C2: completeness of the intra-chunk check. For every scalar `tau`, every G1 point
`P`, every length `n ≥ 2` and every state of the challenge vector (any stored vector,
or none yet, in which case it is sampled now), if `TauG1[i] = tau^i · P` for all
`i < n` and `TauG2[1] = tau · g2Gen`, then `Chunk.IsValid` returns `true`. -/
theorem IsValid_complete [DecidableEq GT] (E : Pairing G1 G2 GT) (g2Gen : G2)
    (tau : ZMod r) (P : G1) (n : ℕ) (st : RState (ZMod r)) (c : Chunk G1 G2)
    (hn : 2 ≤ n) (hlen : c.TauG1.length = n)
    (hA : ∀ i, i < n → c.TauG1[i]? = some (tau ^ i • P))
    (hT : c.TauG2[1]? = some (tau • g2Gen)) :
    IsValid E g2Gen st c = some (true, initROnce st (n - 1)) := by
  have hne : c.TauG1 ≠ [] := by
    intro h
    rw [h] at hlen
    simp at hlen
    omega
  have hstep : ∀ i a b, c.TauG1[i]? = some a → c.TauG1[i + 1]? = some b → b = tau • a := by
    intro i a b ha hb
    have hi : i + 1 < n := by
      rw [← hlen]
      exact (List.getElem?_eq_some.mp hb).1
    rw [hA i (by omega)] at ha
    rw [hA (i + 1) hi] at hb
    cases ha
    cases hb
    rw [pow_succ, mul_comm, mul_smul]
  rw [IsValid_eq E g2Gen st c (tau • g2Gen) hne hT, MultiExp_shift tau c.TauG1 _ hstep hne,
    E.smul_swap, hlen]
  simp

/-- The hypotheses of `IsValid_complete` hold for `tau = 2`, `P = 1`, `n = 3` in the
group of order 3, with the stored challenge vector `[1, 2]`. -/
theorem IsValid_complete_witness :
    IsValid smallPairing 1 smallState smallChunk = some (true, initROnce smallState (3 - 1)) :=
  IsValid_complete smallPairing (1 : ZMod 3) (2 : ZMod 3) (1 : ZMod 3) 3 smallState smallChunk
    (by decide) rfl (by decide) (by decide)

/-- The fraction of challenge vectors accepted for a sequence that is not geometric is
at most `(n - 1) / |F|`: the accepted vectors form the kernel of a non-zero linear
form. -/
theorem IsValid_accept_fraction_le [Fact r.Prime] [DecidableEq GT] (E : Pairing G1 G2 GT) (g2Gen : G2)
    (hnd : ∀ Q : G1, E.e Q g2Gen = 1 → Q = 0) (tau : ZMod r) (n : ℕ) (c : Chunk G1 G2)
    (ent : ℕ → ZMod r) (d : ℕ) (hn : 2 ≤ n) (hlen : c.TauG1.length = n)
    (hT : c.TauG2[1]? = some (tau • g2Gen))
    (k : ℕ) (a b : G1) (hk : c.TauG1[k]? = some a) (hk1 : c.TauG1[k + 1]? = some b)
    (hbad : b ≠ tau • a) :
    ((Finset.univ.filter (fun rv : Fin (n - 1) → ZMod r =>
        (IsValid E g2Gen ⟨some (List.ofFn rv), ent, d⟩ c).map Prod.fst = some true)).card : ℚ)
      / (r : ℚ) ^ (n - 1) ≤ ((n : ℚ) - 1) / (r : ℚ) := by
  classical
  have hkn : k + 1 < n := by
    rw [← hlen]
    exact (List.getElem?_eq_some.mp hk1).1
  have hD : (fun i : Fin (n - 1) => c.TauG1.getD (i + 1) 0 - tau • c.TauG1.getD i 0)
      ⟨k, by omega⟩ ≠ 0 := by
    simp only [List.getD_eq_getElem?_getD, hk, hk1, Option.getD_some]
    exact sub_ne_zero.mpr hbad
  have hcount := card_kernel_mul_le (ZMod r)
    (fun i : Fin (n - 1) => c.TauG1.getD (i + 1) 0 - tau • c.TauG1.getD i 0) ⟨k, by omega⟩ hD
  have hfilter : (Finset.univ.filter (fun rv : Fin (n - 1) → ZMod r =>
        (IsValid E g2Gen ⟨some (List.ofFn rv), ent, d⟩ c).map Prod.fst = some true))
      = Finset.univ.filter (fun rv : Fin (n - 1) → ZMod r =>
        ∑ i : Fin (n - 1), rv i • (c.TauG1.getD (i + 1) 0 - tau • c.TauG1.getD i 0) = 0) := by
    apply Finset.filter_congr
    intro rv _
    exact IsValid_ofFn_iff E g2Gen hnd tau n c ent d hn hlen hT rv
  rw [hfilter]
  rw [ZMod.card r] at hcount
  have hr : (0 : ℚ) < (r : ℚ) := by
    exact_mod_cast (Fact.out : r.Prime).pos
  have hrm : (0 : ℚ) < (r : ℚ) ^ (n - 1) := pow_pos hr _
  rw [div_le_div_iff₀ hrm hr]
  have hq : ((Finset.univ.filter (fun rv : Fin (n - 1) → ZMod r =>
        ∑ i : Fin (n - 1), rv i • (c.TauG1.getD (i + 1) 0 - tau • c.TauG1.getD i 0) = 0)).card
      : ℚ) * (r : ℚ) ≤ (r : ℚ) ^ (n - 1) := by
    exact_mod_cast hcount
  have hn1 : (1 : ℚ) ≤ (n : ℚ) - 1 := by
    have : (2 : ℚ) ≤ (n : ℚ) := by exact_mod_cast hn
    linarith
  calc _ ≤ (r : ℚ) ^ (n - 1) := hq
    _ = 1 * (r : ℚ) ^ (n - 1) := (one_mul _).symm
    _ ≤ ((n : ℚ) - 1) * (r : ℚ) ^ (n - 1) := by
      apply mul_le_mul_of_nonneg_right hn1 (le_of_lt hrm)

/-- C3: soundness of the intra-chunk check. Let `TauG1` have length `n ≥ 2`, let
`TauG2[1] = tau · g2Gen`, and let the pairing against `g2Gen` be non-degenerate (the
groups have prime order `r`). If `TauG1[k+1] ≠ tau · TauG1[k]` for some `k < n - 1`,
then the fraction of the challenge vectors `rv ∈ F^(n-1)`, `F = ZMod r`, for which
`Chunk.IsValid` returns `true` is at most `(n - 1) / |F|`. -/
theorem IsValid_sound [Fact r.Prime] [DecidableEq GT] (E : Pairing G1 G2 GT) (g2Gen : G2)
    (hnd : ∀ Q : G1, E.e Q g2Gen = 1 → Q = 0) (tau : ZMod r) (n : ℕ) (c : Chunk G1 G2)
    (ent : ℕ → ZMod r) (d : ℕ) (hn : 2 ≤ n) (hlen : c.TauG1.length = n)
    (hT : c.TauG2[1]? = some (tau • g2Gen))
    (k : ℕ) (a b : G1) (hk : c.TauG1[k]? = some a) (hk1 : c.TauG1[k + 1]? = some b)
    (hbad : b ≠ tau • a) :
    ((Finset.univ.filter (fun rv : Fin (n - 1) → ZMod r =>
        (IsValid E g2Gen ⟨some (List.ofFn rv), ent, d⟩ c).map Prod.fst = some true)).card : ℚ)
      / (r : ℚ) ^ (n - 1) ≤ ((n : ℚ) - 1) / (r : ℚ) :=
  IsValid_accept_fraction_le E g2Gen hnd tau n c ent d hn hlen hT k a b hk hk1 hbad

/-- The hypotheses of `IsValid_sound` hold in the group of order 3 for `tau = 2` and
`TauG1 = [1, 1]`, where `TauG1[1] ≠ tau · TauG1[0]`. -/
theorem IsValid_sound_witness :
    ((Finset.univ.filter (fun rv : Fin (2 - 1) → ZMod 3 =>
        (IsValid smallPairing 1 ⟨some (List.ofFn rv), fun _ => 0, 0⟩ smallBadChunk).map
          Prod.fst = some true)).card : ℚ)
      / ((3 : ℕ) : ℚ) ^ (2 - 1) ≤ (((2 : ℕ) : ℚ) - 1) / ((3 : ℕ) : ℚ) :=
  IsValid_sound smallPairing (1 : ZMod 3) (by decide) (2 : ZMod 3) 2 smallBadChunk
    (fun _ => 0) 0 (by decide) rfl (by decide) 0 (1 : ZMod 3) (1 : ZMod 3)
    (by decide) (by decide) (by decide)

omit [Module (ZMod r) G1] [Module (ZMod r) G2] in
/-- C4: at chunk index 0 the loop passes the cross-round continuity step if and only
if `e(curr.TauG1[1], prev.TauG2[1]) = e(prev.TauG1[1], curr.TauG2[1])`, and ends with
the fatal `TauG1[1] for chunk 0 not computed well.` otherwise; at every other chunk
index the step passes whatever the two chunks hold, the check not being run. -/
theorem continuityStep_iff [DecidableEq GT] (L : Library G1 G2 GT)
    (curr prev : Chunk G1Affine G2Affine) (a1 b1 : G1Affine) (a2 b2 : G2Affine)
    (h1 : curr.TauG1[1]? = some a1) (h2 : prev.TauG1[1]? = some b1)
    (h3 : prev.TauG2[1]? = some a2) (h4 : curr.TauG2[1]? = some b2) :
    (continuityStep L 0 curr prev = .ok () ↔
        L.E.e (L.pt1 a1) (L.pt2 a2) = L.E.e (L.pt1 b1) (L.pt2 b2)) ∧
    (continuityStep L 0 curr prev ≠ .ok () → continuityStep L 0 curr prev = .error (Fatal.ratio 0)) ∧
    (∀ (i : Nat) (c p : Chunk G1Affine G2Affine), i ≠ 0 → continuityStep L i c p = .ok ()) := by
  have hs := sameRatio_eq L.E (L.pt1 a1) (L.pt1 b1) (L.pt2 a2) (L.pt2 b2)
  have hiff := sameRatio_true_iff L.E (L.pt1 a1) (L.pt1 b1) (L.pt2 a2) (L.pt2 b2)
  refine ⟨?_, ?_, ?_⟩
  · rw [← hiff]
    simp only [continuityStep, if_true, h1, h2, h3, h4]
    rw [hs]
    by_cases hd : L.E.e (L.pt1 a1) (-L.pt2 a2) * L.E.e (L.pt1 b1) (L.pt2 b2) = 1
    · simp [hd]
    · simp [hd]
  · simp only [continuityStep, if_true, h1, h2, h3, h4]
    rw [hs]
    by_cases hd : L.E.e (L.pt1 a1) (-L.pt2 a2) * L.E.e (L.pt1 b1) (L.pt2 b2) = 1
    · simp [hd]
    · simp [hd]
  · intro i c p hi
    simp [continuityStep, hi]

/-- The hypotheses of `continuityStep_iff` hold for two decoded chunks. -/
theorem continuityStep_iff_witness :
    (continuityStep smallLibrary 0 smallCurr smallPrev = .ok () ↔
        smallLibrary.E.e (smallLibrary.pt1 ⟨2, 0⟩) (smallLibrary.pt2 ⟨⟨1, 0⟩, ⟨0, 0⟩⟩)
          = smallLibrary.E.e (smallLibrary.pt1 ⟨1, 0⟩) (smallLibrary.pt2 ⟨⟨2, 0⟩, ⟨0, 0⟩⟩)) :=
  (continuityStep_iff smallLibrary smallCurr smallPrev ⟨2, 0⟩ ⟨1, 0⟩ ⟨⟨1, 0⟩, ⟨0, 0⟩⟩
    ⟨⟨2, 0⟩, ⟨0, 0⟩⟩ rfl rfl rfl rfl).1

end RatioClaims

/-! ## Loops -/

theorem forRange_zero {σ : Type} (body : Nat → σ → σ) (s : σ) : forRange 0 body s = s := rfl

theorem forRange_succ_last {σ : Type} (n : Nat) (body : Nat → σ → σ) (s : σ) :
    forRange (n + 1) body s = body n (forRange n body s) := by
  simp [forRange, List.range_succ]

theorem forRange_succ_first {σ : Type} (n : Nat) (body : Nat → σ → σ) (s : σ) :
    forRange (n + 1) body s = forRange n (fun i => body (i + 1)) (body 0 s) := by
  simp [forRange, List.range_succ_eq_map, List.foldl_map]

/-! ## The decoder -/

theorem tryReadElement_of_err (P : Params) (s : Reader) (h : s.tryReadErr ≠ none) :
    tryReadElement P s = (0, s) := by
  unfold tryReadElement
  cases he : s.tryReadErr with
  | none => exact absurd he h
  | some e => rfl

theorem readElems_of_err (P : Params) (m : Nat) (s : Reader) (h : s.tryReadErr ≠ none) :
    (readElems P m s).2 = s := by
  induction m with
  | zero => rfl
  | succ m ih =>
    simp only [readElems, tryReadElement_of_err P s h]
    exact ih

theorem readElems_length (P : Params) (m : Nat) (s : Reader) :
    (readElems P m s).1.length = m := by
  induction m generalizing s with
  | zero => rfl
  | succ m ih => simp [readElems, ih]

theorem readElems_add (P : Params) (a b : Nat) (s : Reader) :
    readElems P (a + b) s =
      ((readElems P a s).1 ++ (readElems P b (readElems P a s).2).1,
        (readElems P b (readElems P a s).2).2) := by
  induction a generalizing s with
  | zero => simp [readElems]
  | succ a ih =>
    rw [Nat.succ_add]
    simp only [readElems, ih, List.cons_append]

theorem readElems_err_mono (P : Params) (a b : Nat) (s : Reader)
    (h : (readElems P a s).2.tryReadErr ≠ none) :
    (readElems P (a + b) s).2 = (readElems P a s).2 := by
  rw [readElems_add]
  exact readElems_of_err P b _ h

/-- The reader state after the `TauG1` loop is that of `2 · nbTauG1` reads, and the
points appended are the values read, two by two. -/
theorem readTauG1_loop (P : Params) (n : Nat) (s : Reader) (acc : List G1Affine) :
    forRange n (tauG1Body P) (s, acc)
    = ((readElems P (2 * n) s).2, acc ++ pairG1 (readElems P (2 * n) s).1) := by
  induction n generalizing s acc with
  | zero => simp [forRange_zero, readElems, pairG1]
  | succ n ih =>
    have hb : (fun i => tauG1Body P (i + 1)) = tauG1Body P := rfl
    rw [forRange_succ_first, hb]
    simp only [tauG1Body]
    rw [ih]
    have e : 2 * (n + 1) = (2 * n + 1) + 1 := by ring
    rw [e]
    simp only [readElems, pairG1, List.append_assoc, List.singleton_append]

theorem readTauG1_eq (P : Params) (s : Reader) (acc : List G1Affine) :
    readTauG1 P s acc
      = ((readElems P (2 * P.nbTauG1) s).2, acc ++ pairG1 (readElems P (2 * P.nbTauG1) s).1) :=
  readTauG1_loop P P.nbTauG1 s acc

theorem updateAt_length {α : Type} (l : List α) (i : Nat) (f : α → α) :
    (updateAt l i f).length = l.length := by
  unfold updateAt
  split <;> simp

theorem updateAt_append_length {α : Type} (l : List α) (x : α) (f : α → α) :
    updateAt (l ++ [x]) l.length f = l ++ [f x] := by
  unfold updateAt
  simp

theorem shift_body {σ : Type} (body : Nat → σ → σ) (off : Nat) :
    (fun i => (fun j => body (j + off)) (i + 1)) = (fun i => body (i + (off + 1))) := by
  funext i
  have e : i + 1 + off = i + (off + 1) := by omega
  show body (i + 1 + off) = body (i + (off + 1))
  rw [e]

theorem readTauG2_reader (P : Params) (n off : Nat) (s : Reader) (t : List G2Affine) :
    (forRange n (fun i => tauG2Body P (i + off)) (s, t)).1 = (readElems P (4 * n) s).2 := by
  induction n generalizing s t off with
  | zero => simp [forRange_zero, readElems]
  | succ n ih =>
    rw [forRange_succ_first, shift_body, ih]
    have e : 4 * (n + 1) = (4 * n + 3) + 1 := by ring
    rw [e]
    simp only [readElems, tauG2Body]

theorem readTauG2_length (P : Params) (n off : Nat) (s : Reader) (t : List G2Affine) :
    (forRange n (fun i => tauG2Body P (i + off)) (s, t)).2.length = t.length + n := by
  induction n generalizing s t off with
  | zero => simp [forRange_zero]
  | succ n ih =>
    rw [forRange_succ_first, shift_body, ih]
    simp only [tauG2Body, updateAt_length, List.length_append, List.length_singleton]
    omega

theorem readTauG2_fresh (P : Params) (n off : Nat) (s : Reader) (t : List G2Affine)
    (h : t.length = off) :
    (forRange n (fun i => tauG2Body P (i + off)) (s, t)).2
      = t ++ quadG2 (readElems P (4 * n) s).1 := by
  induction n generalizing s t off with
  | zero => simp [forRange_zero, readElems, quadG2]
  | succ n ih =>
    rw [forRange_succ_first, shift_body]
    subst h
    have e : 4 * (n + 1) = (4 * n + 3) + 1 := by ring
    rw [e]
    simp only [tauG2Body, Nat.zero_add, updateAt_append_length]
    rw [ih]
    · simp only [readElems, quadG2, List.append_assoc, List.singleton_append, G2Affine.zero]
    · simp

theorem readTauG2_congr (P : Params) (n off : Nat) (s s' : Reader) (t : List G2Affine)
    (h : (readElems P (4 * n) s).1 = (readElems P (4 * n) s').1) :
    (forRange n (fun i => tauG2Body P (i + off)) (s, t)).2
      = (forRange n (fun i => tauG2Body P (i + off)) (s', t)).2 := by
  induction n generalizing s s' t off with
  | zero => simp [forRange_zero]
  | succ n ih =>
    rw [forRange_succ_first, forRange_succ_first, shift_body]
    have e : 4 * (n + 1) = (4 * n + 3) + 1 := by ring
    rw [e] at h
    simp only [readElems, List.cons.injEq] at h
    obtain ⟨ha, hb, hc, hd, hrest⟩ := h
    simp only [tauG2Body, Nat.zero_add, ha, hb, hc, hd]
    exact ih _ _ _ _ hrest
theorem readTauG2_eq_reader (P : Params) (s : Reader) (t : List G2Affine) :
    (readTauG2 P s t).1 = (readElems P (4 * P.nbTauG2) s).2 :=
  readTauG2_reader P P.nbTauG2 0 s t

theorem readTauG2_eq_length (P : Params) (s : Reader) (t : List G2Affine) :
    (readTauG2 P s t).2.length = t.length + P.nbTauG2 :=
  readTauG2_length P P.nbTauG2 0 s t

theorem readTauG2_eq_fresh (P : Params) (s : Reader) :
    (readTauG2 P s []).2 = quadG2 (readElems P (4 * P.nbTauG2) s).1 := by
  have h := readTauG2_fresh P P.nbTauG2 0 s [] rfl
  simpa using h

theorem readTauG2_eq_congr (P : Params) (s s' : Reader) (t : List G2Affine)
    (h : (readElems P (4 * P.nbTauG2) s).1 = (readElems P (4 * P.nbTauG2) s').1) :
    (readTauG2 P s t).2 = (readTauG2 P s' t).2 :=
  readTauG2_congr P P.nbTauG2 0 s s' t h

theorem readAlphaG1_reader (P : Params) (n off : Nat) (s : Reader) (t : List G1Affine) :
    (forRange n (fun i => alphaG1Body P (i + off)) (s, t)).1 = (readElems P (2 * n) s).2 := by
  induction n generalizing s t off with
  | zero => simp [forRange_zero, readElems]
  | succ n ih =>
    rw [forRange_succ_first, shift_body, ih]
    have e : 2 * (n + 1) = (2 * n + 1) + 1 := by ring
    rw [e]
    simp only [readElems, alphaG1Body]

theorem readAlphaG1_length (P : Params) (n off : Nat) (s : Reader) (t : List G1Affine) :
    (forRange n (fun i => alphaG1Body P (i + off)) (s, t)).2.length = t.length + n := by
  induction n generalizing s t off with
  | zero => simp [forRange_zero]
  | succ n ih =>
    rw [forRange_succ_first, shift_body, ih]
    simp only [alphaG1Body, updateAt_length, List.length_append, List.length_singleton]
    omega

theorem readAlphaG1_fresh (P : Params) (n off : Nat) (s : Reader) (t : List G1Affine)
    (h : t.length = off) :
    (forRange n (fun i => alphaG1Body P (i + off)) (s, t)).2
      = t ++ pairG1 (readElems P (2 * n) s).1 := by
  induction n generalizing s t off with
  | zero => simp [forRange_zero, readElems, pairG1]
  | succ n ih =>
    rw [forRange_succ_first, shift_body]
    subst h
    have e : 2 * (n + 1) = (2 * n + 1) + 1 := by ring
    rw [e]
    simp only [alphaG1Body, Nat.zero_add, updateAt_append_length]
    rw [ih]
    · simp only [readElems, pairG1, List.append_assoc, List.singleton_append, G1Affine.zero]
    · simp

theorem readAlphaG1_congr (P : Params) (n off : Nat) (s s' : Reader) (t : List G1Affine)
    (h : (readElems P (2 * n) s).1 = (readElems P (2 * n) s').1) :
    (forRange n (fun i => alphaG1Body P (i + off)) (s, t)).2
      = (forRange n (fun i => alphaG1Body P (i + off)) (s', t)).2 := by
  induction n generalizing s s' t off with
  | zero => simp [forRange_zero]
  | succ n ih =>
    rw [forRange_succ_first, forRange_succ_first, shift_body]
    have e : 2 * (n + 1) = (2 * n + 1) + 1 := by ring
    rw [e] at h
    simp only [readElems, List.cons.injEq] at h
    obtain ⟨ha, hb, hrest⟩ := h
    simp only [alphaG1Body, Nat.zero_add, ha, hb]
    exact ih _ _ _ _ hrest

theorem readAlphaG1_eq_reader (P : Params) (s : Reader) (t : List G1Affine) :
    (readAlphaG1 P s t).1 = (readElems P (2 * P.nbAlphaG1) s).2 :=
  readAlphaG1_reader P P.nbAlphaG1 0 s t

theorem readAlphaG1_eq_length (P : Params) (s : Reader) (t : List G1Affine) :
    (readAlphaG1 P s t).2.length = t.length + P.nbAlphaG1 :=
  readAlphaG1_length P P.nbAlphaG1 0 s t

theorem readAlphaG1_eq_fresh (P : Params) (s : Reader) :
    (readAlphaG1 P s []).2 = pairG1 (readElems P (2 * P.nbAlphaG1) s).1 := by
  have h := readAlphaG1_fresh P P.nbAlphaG1 0 s [] rfl
  simpa using h

theorem readAlphaG1_eq_congr (P : Params) (s s' : Reader) (t : List G1Affine)
    (h : (readElems P (2 * P.nbAlphaG1) s).1 = (readElems P (2 * P.nbAlphaG1) s').1) :
    (readAlphaG1 P s t).2 = (readAlphaG1 P s' t).2 :=
  readAlphaG1_congr P P.nbAlphaG1 0 s s' t h

/-- The shape of `ReadFrom` on a file that holds at least the header, in terms of
the sequence of element reads. -/
theorem ReadFrom_of_header (P : Params) (c : Chunk G1Affine G2Affine) (f : List Byte)
    (isFirst : Bool) (h : 64 ≤ f.length) :
    ReadFrom P c (some f) isFirst =
      if (readElems P (2 * P.nbTauG1) (reader0 P f)).2.tryReadErr ≠ none ∨ isFirst = false then
        ((readElems P (2 * P.nbTauG1) (reader0 P f)).2.tryReadErr,
          { Hash := f.take 64 ++ c.Hash.drop 64,
            TauG1 := pairG1 (readElems P (2 * P.nbTauG1) (reader0 P f)).1,
            TauG2 := c.TauG2, AlphaG1 := c.AlphaG1, isFirst := isFirst })
      else if (readElems P (4 * P.nbTauG2)
          (readElems P (2 * P.nbTauG1) (reader0 P f)).2).2.tryReadErr ≠ none then
        ((readElems P (4 * P.nbTauG2)
            (readElems P (2 * P.nbTauG1) (reader0 P f)).2).2.tryReadErr,
          { Hash := f.take 64 ++ c.Hash.drop 64,
            TauG1 := pairG1 (readElems P (2 * P.nbTauG1) (reader0 P f)).1,
            TauG2 := (readTauG2 P (readElems P (2 * P.nbTauG1) (reader0 P f)).2 c.TauG2).2,
            AlphaG1 := c.AlphaG1, isFirst := isFirst })
      else
        ((readElems P (2 * P.nbAlphaG1) (readElems P (4 * P.nbTauG2)
            (readElems P (2 * P.nbTauG1) (reader0 P f)).2).2).2.tryReadErr,
          { Hash := f.take 64 ++ c.Hash.drop 64,
            TauG1 := pairG1 (readElems P (2 * P.nbTauG1) (reader0 P f)).1,
            TauG2 := (readTauG2 P (readElems P (2 * P.nbTauG1) (reader0 P f)).2 c.TauG2).2,
            AlphaG1 := (readAlphaG1 P (readElems P (4 * P.nbTauG2)
              (readElems P (2 * P.nbTauG1) (reader0 P f)).2).2 c.AlphaG1).2,
            isFirst := isFirst }) := by
  have h64 : ¬ f.length < 64 := by omega
  have hmin : min 64 f.length = 64 := by omega
  simp only [ReadFrom, h64, if_false, hmin, readTauG1_eq, List.nil_append,
    readTauG2_eq_reader, readAlphaG1_eq_reader]
  by_cases h1 : (readElems P (2 * P.nbTauG1) (reader0 P f)).2.tryReadErr = none
  · cases isFirst with
    | false => simp [h1]
    | true =>
      by_cases h2 : (readElems P (4 * P.nbTauG2)
          (readElems P (2 * P.nbTauG1) (reader0 P f)).2).2.tryReadErr = none
      · simp [h1, h2]
      · simp [h1, h2]
  · simp [h1]

theorem tryReadElement_full (P : Params) (s : Reader) (h : s.tryReadErr = none)
    (hB : 0 < P.fpBytes) (hlen : P.fpBytes ≤ s.rest.length) :
    tryReadElement P s =
      if leValue (s.rest.take P.fpBytes) < P.fpModulus then
        (leValue (s.rest.take P.fpBytes),
          { rest := s.rest.drop P.fpBytes,
            buf := s.rest.take P.fpBytes ++ s.buf.drop P.fpBytes, tryReadErr := none })
      else
        (0, { rest := s.rest.drop P.fpBytes,
              buf := s.rest.take P.fpBytes ++ s.buf.drop P.fpBytes,
              tryReadErr := some ReadError.invalidEncoding }) := by
  have h0 : s.rest.length ≠ 0 := by omega
  have hmin : min P.fpBytes s.rest.length = P.fpBytes := by omega
  have htake : (s.rest.take P.fpBytes ++ s.buf.drop P.fpBytes).take P.fpBytes
      = s.rest.take P.fpBytes := by
    rw [List.take_append_of_le_length (by simp [hlen])]
    simp
  simp only [tryReadElement, h, h0, if_false, hmin, htake]

theorem elementAt_eq_of_rest (P : Params) (f : List Byte) (o : Nat) (rest : List Byte)
    (h : rest = f.drop (64 + o * P.fpBytes)) :
    leValue (rest.take P.fpBytes) = elementAt P f o := by
  rw [h, elementAt]

/-- Reading `k` canonical elements that are all present: the values are those of the
file, no error is raised, and the reader has advanced by `k` elements. -/
theorem readElems_at (P : Params) (f : List Byte) (hB : 0 < P.fpBytes) (k : Nat) :
    ∀ (o : Nat) (s : Reader), s.tryReadErr = none → s.rest = f.drop (64 + o * P.fpBytes) →
      64 + (o + k) * P.fpBytes ≤ f.length →
      (∀ j, j < k → elementAt P f (o + j) < P.fpModulus) →
      (readElems P k s).1 = (List.range k).map (fun j => elementAt P f (o + j)) ∧
      (readElems P k s).2.tryReadErr = none ∧
      (readElems P k s).2.rest = f.drop (64 + (o + k) * P.fpBytes) := by
  induction k with
  | zero =>
    intro o s h hr _ _
    simp [readElems, h, hr]
  | succ k ih =>
    intro o s h hr hlen hcanon
    have hl : P.fpBytes ≤ s.rest.length := by
      rw [hr, List.length_drop]
      have : (o + (k + 1)) * P.fpBytes = o * P.fpBytes + k * P.fpBytes + P.fpBytes := by ring
      omega
    have hv : leValue (s.rest.take P.fpBytes) = elementAt P f o :=
      elementAt_eq_of_rest P f o s.rest hr
    have hlt : leValue (s.rest.take P.fpBytes) < P.fpModulus := by
      rw [hv]
      exact hcanon 0 (by omega)
    have hrest1 : s.rest.drop P.fpBytes = f.drop (64 + (o + 1) * P.fpBytes) := by
      rw [hr, List.drop_drop]
      congr 1
      ring
    have hstep := tryReadElement_full P s h hB hl
    rw [if_pos hlt] at hstep
    have ih1 := ih (o + 1) (tryReadElement P s).2 (by rw [hstep]) (by rw [hstep]; exact hrest1)
      (by
        have : (o + 1 + k) = (o + (k + 1)) := by omega
        rw [this]
        exact hlen)
      (by
        intro j hj
        have : (o + 1 + j) = (o + (j + 1)) := by omega
        rw [this]
        exact hcanon (j + 1) (by omega))
    obtain ⟨i1, i2, i3⟩ := ih1
    refine ⟨?_, ?_, ?_⟩
    · simp only [readElems, i1, List.range_succ_eq_map, List.map_cons, List.map_map]
      rw [hstep, hv]
      simp only [Nat.add_zero, List.cons.injEq, true_and]
      apply List.map_congr_left
      intro j _
      simp only [Function.comp, Nat.succ_eq_add_one]
      congr 1
      omega
    · simp only [readElems, i2]
    · simp only [readElems, i3]
      congr 2
      ring

theorem pairG1_map_range (n : Nat) (g : Nat → Nat) :
    pairG1 ((List.range (2 * n)).map g)
      = (List.range n).map (fun i => { X := g (2 * i), Y := g (2 * i + 1) }) := by
  induction n generalizing g with
  | zero => simp [pairG1]
  | succ n ih =>
    have e : 2 * (n + 1) = (2 * n + 1) + 1 := by ring
    rw [e, List.range_succ_eq_map, List.range_succ_eq_map (2 * n)]
    simp only [List.map_cons, List.map_map, pairG1]
    rw [List.range_succ_eq_map n]
    simp only [List.map_cons, List.map_map, Nat.mul_zero, Nat.zero_add]
    have := ih (fun j => g (j + 2))
    simp only [Function.comp_def, Nat.succ_eq_add_one] at this ⊢
    rw [this]
    congr 1

theorem quadG2_map_range (n : Nat) (g : Nat → Nat) :
    quadG2 ((List.range (4 * n)).map g)
      = (List.range n).map (fun i => { X := { A0 := g (4 * i), A1 := g (4 * i + 1) },
                                       Y := { A0 := g (4 * i + 2), A1 := g (4 * i + 3) } }) := by
  induction n generalizing g with
  | zero => simp [quadG2]
  | succ n ih =>
    have e : 4 * (n + 1) = (4 * n + 3) + 1 := by ring
    rw [e, List.range_succ_eq_map, List.range_succ_eq_map (4 * n + 2),
      List.range_succ_eq_map (4 * n + 1), List.range_succ_eq_map (4 * n)]
    simp only [List.map_cons, List.map_map, quadG2]
    rw [List.range_succ_eq_map n]
    simp only [List.map_cons, List.map_map, Nat.mul_zero, Nat.zero_add]
    have := ih (fun j => g (j + 4))
    simp only [Function.comp_def, Nat.succ_eq_add_one] at this ⊢
    rw [this]
    congr 1

/-- C5: decoder correctness on well-formed input. For a fresh chunk and a file made of
a 64-byte header followed by exactly the required field elements, each encoded on
`fp.Bytes` bytes in little-endian order with a value below the modulus, `ReadFrom`
returns no error, `Hash` is the header, `TauG1[i]` is the pair of elements `2i`,
`2i+1`, and when `isFirst` holds `TauG2[i]` is made of the next elements four by four
(`X.A0, X.A1, Y.A0, Y.A1`) and `AlphaG1[i]` of the following ones two by two. Nothing
is assumed about the curve or the subgroup. -/
theorem ReadFrom_wellformed (P : Params) (f : List Byte) (isFirst : Bool)
    (hB : 0 < P.fpBytes) (hlen : f.length = requiredLength P isFirst)
    (hcanon : ∀ j, j < requiredElements P isFirst → elementAt P f j < P.fpModulus) :
    ReadFrom P newChunk (some f) isFirst =
      (none,
        { Hash := f.take 64,
          TauG1 := (List.range P.nbTauG1).map (fun i =>
            { X := elementAt P f (2 * i), Y := elementAt P f (2 * i + 1) }),
          TauG2 := if isFirst then (List.range P.nbTauG2).map (fun i =>
              { X := { A0 := elementAt P f (2 * P.nbTauG1 + 4 * i),
                       A1 := elementAt P f (2 * P.nbTauG1 + 4 * i + 1) },
                Y := { A0 := elementAt P f (2 * P.nbTauG1 + 4 * i + 2),
                       A1 := elementAt P f (2 * P.nbTauG1 + 4 * i + 3) } })
            else [],
          AlphaG1 := if isFirst then (List.range P.nbAlphaG1).map (fun i =>
              { X := elementAt P f (2 * P.nbTauG1 + 4 * P.nbTauG2 + 2 * i),
                Y := elementAt P f (2 * P.nbTauG1 + 4 * P.nbTauG2 + 2 * i + 1) })
            else [],
          isFirst := isFirst }) := by
  have h64 : 64 ≤ f.length := by
    rw [hlen, requiredLength]
    omega
  have hreq : 2 * P.nbTauG1 ≤ requiredElements P isFirst := by
    simp only [requiredElements]
    omega
  have hlen1 : 64 + (0 + 2 * P.nbTauG1) * P.fpBytes ≤ f.length := by
    rw [hlen, requiredLength, Nat.zero_add]
    exact Nat.add_le_add_left (Nat.mul_le_mul_right _ hreq) _
  obtain ⟨a1, a2, a3⟩ := readElems_at P f hB (2 * P.nbTauG1) 0 (reader0 P f) rfl
    (by simp [reader0]) hlen1 (fun j hj => by
      rw [Nat.zero_add]
      exact hcanon j (by omega))
  simp only [Nat.zero_add] at a1 a3
  rw [ReadFrom_of_header P newChunk f isFirst h64]
  have hhash : f.take 64 ++ (newChunk : Chunk G1Affine G2Affine).Hash.drop 64 = f.take 64 := by
    simp [newChunk]
  cases isFirst with
  | false =>
    simp only [a2, ne_eq, not_true_eq_false, or_true, if_true, hhash, a1, pairG1_map_range]
    simp [newChunk]
  | true =>
    have hreqE : requiredElements P true = 2 * P.nbTauG1 + 4 * P.nbTauG2 + 2 * P.nbAlphaG1 := by
      simp [requiredElements]
      omega
    have hlen2 : 64 + (2 * P.nbTauG1 + 4 * P.nbTauG2) * P.fpBytes ≤ f.length := by
      rw [hlen, requiredLength, hreqE]
      exact Nat.add_le_add_left (Nat.mul_le_mul_right _ (by omega)) _
    obtain ⟨b1, b2, b3⟩ := readElems_at P f hB (4 * P.nbTauG2) (2 * P.nbTauG1)
      (readElems P (2 * P.nbTauG1) (reader0 P f)).2 a2 a3 hlen2 (fun j hj => by
        exact hcanon _ (by rw [hreqE]; omega))
    have hlen3 : 64 + (2 * P.nbTauG1 + 4 * P.nbTauG2 + 2 * P.nbAlphaG1) * P.fpBytes
        ≤ f.length := by
      rw [hlen, requiredLength, hreqE]
    obtain ⟨c1, c2, _⟩ := readElems_at P f hB (2 * P.nbAlphaG1)
      (2 * P.nbTauG1 + 4 * P.nbTauG2)
      (readElems P (4 * P.nbTauG2) (readElems P (2 * P.nbTauG1) (reader0 P f)).2).2 b2 b3 hlen3
      (fun j hj => by
        exact hcanon _ (by rw [hreqE]; omega))
    have e2 : (newChunk : Chunk G1Affine G2Affine).TauG2 = [] := rfl
    have e3 : (newChunk : Chunk G1Affine G2Affine).AlphaG1 = [] := rfl
    simp only [a2, b2, c2, ne_eq, not_true_eq_false, or_self, if_false, hhash, a1,
      pairG1_map_range, e2, e3, readTauG2_eq_fresh, readAlphaG1_eq_fresh, b1, c1,
      quadG2_map_range, if_true, Bool.true_eq_false]
    simp only [Nat.add_assoc]

/-- The error `ReadFrom` returns on a file that holds at least the header is the
error state after reading the required number of elements. -/
theorem ReadFrom_err (P : Params) (c : Chunk G1Affine G2Affine) (f : List Byte)
    (isFirst : Bool) (h : 64 ≤ f.length) :
    (ReadFrom P c (some f) isFirst).1
      = (readElems P (requiredElements P isFirst) (reader0 P f)).2.tryReadErr := by
  rw [ReadFrom_of_header P c f isFirst h]
  cases isFirst with
  | false => simp [requiredElements]
  | true =>
    have e : requiredElements P true = 2 * P.nbTauG1 + 4 * P.nbTauG2 + 2 * P.nbAlphaG1 := by
      simp [requiredElements]
      omega
    rw [e]
    by_cases h1 : (readElems P (2 * P.nbTauG1) (reader0 P f)).2.tryReadErr = none
    · have e12 : (readElems P (2 * P.nbTauG1 + 4 * P.nbTauG2) (reader0 P f)).2
          = (readElems P (4 * P.nbTauG2) (readElems P (2 * P.nbTauG1) (reader0 P f)).2).2 := by
        rw [readElems_add]
      by_cases h2 : (readElems P (4 * P.nbTauG2)
          (readElems P (2 * P.nbTauG1) (reader0 P f)).2).2.tryReadErr = none
      · simp only [h1, h2, ne_eq, not_true_eq_false, Bool.true_eq_false, or_self, if_false]
        rw [readElems_add P (2 * P.nbTauG1 + 4 * P.nbTauG2), e12]
      · simp only [h1, h2, ne_eq, not_true_eq_false, Bool.true_eq_false, or_self, if_false,
          not_false_eq_true, if_true]
        rw [readElems_err_mono P (2 * P.nbTauG1 + 4 * P.nbTauG2) _ _ (by rw [e12]; exact h2),
          e12]
    · simp only [h1, ne_eq, not_false_eq_true, true_or, if_true]
      rw [Nat.add_assoc, readElems_err_mono P (2 * P.nbTauG1) _ _ h1]

theorem leValue_replicate_zero (n : Nat) : leValue (List.replicate n 0) = 0 := by
  induction n with
  | zero => rfl
  | succ n ih => simp [List.replicate_succ, leValue, ih]

/-- On a file of zero bytes, `k` elements are read without error as soon as the file
holds at least one byte of the last of them. -/
theorem readElems_zeros (P : Params) (hq : 0 < P.fpModulus) (hB : 0 < P.fpBytes) (k : Nat) :
    ∀ (L : Nat) (s : Reader), s.tryReadErr = none → s.rest = List.replicate L 0 →
      s.buf = List.replicate P.fpBytes 0 → k * P.fpBytes < L + P.fpBytes →
      (readElems P k s).2.tryReadErr = none := by
  induction k with
  | zero =>
    intro L s h _ _ _
    simpa [readElems] using h
  | succ k ih =>
    intro L s h hr hb hk
    have hk1 : (k + 1) * P.fpBytes = k * P.fpBytes + P.fpBytes := by ring
    have hL : s.rest.length ≠ 0 := by
      rw [hr, List.length_replicate]
      omega
    have hbuf : s.rest.take (min P.fpBytes s.rest.length)
        ++ s.buf.drop (min P.fpBytes s.rest.length) = List.replicate P.fpBytes 0 := by
      rw [hr, hb, List.length_replicate, List.take_replicate, List.drop_replicate,
        ← List.replicate_add]
      congr 1
      omega
    have hv : leValue ((List.replicate P.fpBytes (0 : Byte)).take P.fpBytes) < P.fpModulus := by
      rw [List.take_replicate, leValue_replicate_zero]
      exact hq
    have hstep : (tryReadElement P s).2 =
        { rest := s.rest.drop (min P.fpBytes s.rest.length),
          buf := List.replicate P.fpBytes 0, tryReadErr := none } := by
      simp only [tryReadElement, h, hL, if_false, hbuf, hv, if_true]
    simp only [readElems]
    apply ih (L - min P.fpBytes L) (tryReadElement P s).2
    · rw [hstep]
    · rw [hstep, hr, List.length_replicate, List.drop_replicate]
    · rw [hstep]
    · by_cases hk0 : k = 0
      · subst hk0
        omega
      · have : P.fpBytes ≤ k * P.fpBytes := Nat.le_mul_of_pos_left _ (by omega)
        omega

/-- A file of zero bytes is decoded without error by `ReadFrom` as soon as it holds the
header and at least one byte of the last required element. -/
theorem ReadFrom_zeros (P : Params) (c : Chunk G1Affine G2Affine) (L : Nat) (isFirst : Bool)
    (hq : 0 < P.fpModulus) (hB : 0 < P.fpBytes) (h64 : 64 ≤ L)
    (hL : requiredElements P isFirst * P.fpBytes < (L - 64) + P.fpBytes) :
    (ReadFrom P c (some (List.replicate L 0)) isFirst).1 = none := by
  rw [ReadFrom_err P c _ isFirst (by simpa using h64)]
  exact readElems_zeros P hq hB _ (L - 64) (reader0 P (List.replicate L 0)) rfl
    (by simp [reader0]) rfl hL

/-- C6, evaluated on the code: the file made of 6291519 zero bytes is one byte shorter
than the `64 + nbTauG1·2·48 = 6291520` bytes required for `isFirst = false`, so that
its last field element is cut short, and `ReadFrom` returns no error on it. -/
theorem ReadFrom_truncated_accepted :
    6291519 < requiredLength aleo false ∧
    (ReadFrom aleo newChunk (some (List.replicate 6291519 0)) false).1 = none := by
  refine ⟨by decide, ?_⟩
  exact ReadFrom_zeros aleo newChunk 6291519 false (by decide) (by decide) (by decide)
    (by decide)

/-- C7 fails as stated: the file made of 6291521 zero bytes is one byte longer than the
`64 + nbTauG1·2·48 = 6291520` bytes required for `isFirst = false`, and `ReadFrom`
returns no error on it. -/
theorem ReadFrom_trailing_accepted :
    requiredLength aleo false < 6291521 ∧
    (ReadFrom aleo newChunk (some (List.replicate 6291521 0)) false).1 = none := by
  refine ⟨by decide, ?_⟩
  exact ReadFrom_zeros aleo newChunk 6291521 false (by decide) (by decide) (by decide)
    (by decide)

theorem tryReadElement_sameUpTo (P : Params) (hB : 0 < P.fpBytes) (m : Nat) (s s' : Reader)
    (h : SameUpTo m s s') (hm : P.fpBytes ≤ m) :
    (tryReadElement P s).1 = (tryReadElement P s').1 ∧
      SameUpTo (m - P.fpBytes) (tryReadElement P s).2 (tryReadElement P s').2 := by
  obtain ⟨hb, he, hr⟩ := h
  cases hs : s.tryReadErr with
  | some e =>
    have hs' : s'.tryReadErr = some e := by rw [← he, hs]
    rw [tryReadElement_of_err P s (by simp [hs]), tryReadElement_of_err P s' (by simp [hs'])]
    exact ⟨rfl, hb, he, fun h0 => by simp [hs] at h0⟩
  | none =>
    have hs' : s'.tryReadErr = none := by rw [← he, hs]
    have hrest := hr hs
    by_cases hl : s.rest.length = 0
    · have hl' : s'.rest.length = 0 := by
        rw [hrest, List.length_take]
        omega
      simp only [tryReadElement, hs, hs', hl, hl', if_true]
      refine ⟨by simp, ?_⟩
      exact ⟨hb, rfl, fun h0 => by simp at h0⟩
    · have hl' : s'.rest.length ≠ 0 := by
        rw [hrest, List.length_take]
        omega
      have hn : min P.fpBytes s'.rest.length = min P.fpBytes s.rest.length := by
        rw [hrest, List.length_take]
        omega
      have htake : s'.rest.take (min P.fpBytes s.rest.length)
          = s.rest.take (min P.fpBytes s.rest.length) := by
        rw [hrest, List.take_take]
        congr 1
        omega
      have hdrop : s'.rest.drop (min P.fpBytes s.rest.length)
          = (s.rest.drop (min P.fpBytes s.rest.length)).take (m - P.fpBytes) := by
        rw [hrest, List.drop_take]
        by_cases hfull : P.fpBytes ≤ s.rest.length
        · have : min P.fpBytes s.rest.length = P.fpBytes := by omega
          rw [this]
        · have : min P.fpBytes s.rest.length = s.rest.length := by omega
          rw [this]
          simp
      simp only [tryReadElement, hs, hs', hl, hl', if_false, hn, htake, hb]
      split
      · exact ⟨rfl, rfl, rfl, fun _ => hdrop⟩
      · exact ⟨rfl, rfl, rfl, fun h0 => by simp at h0⟩

theorem readElems_sameUpTo (P : Params) (hB : 0 < P.fpBytes) (k : Nat) :
    ∀ (m : Nat) (s s' : Reader), SameUpTo m s s' → k * P.fpBytes ≤ m →
      (readElems P k s).1 = (readElems P k s').1 ∧
        SameUpTo (m - k * P.fpBytes) (readElems P k s).2 (readElems P k s').2 := by
  induction k with
  | zero =>
    intro m s s' h _
    simpa [readElems] using h
  | succ k ih =>
    intro m s s' h hm
    have hk1 : (k + 1) * P.fpBytes = k * P.fpBytes + P.fpBytes := by ring
    obtain ⟨h1, h2⟩ := tryReadElement_sameUpTo P hB m s s' h (by omega)
    obtain ⟨h3, h4⟩ := ih (m - P.fpBytes) _ _ h2 (by omega)
    refine ⟨?_, ?_⟩
    · simp only [readElems, h1, h3]
    · simp only [readElems]
      have : m - (k + 1) * P.fpBytes = m - P.fpBytes - k * P.fpBytes := by omega
      rw [this]
      exact h4

theorem reader0_sameUpTo (P : Params) (f : List Byte) (R : Nat) :
    SameUpTo (R - 64) (reader0 P f) (reader0 P (f.take R)) := by
  refine ⟨rfl, rfl, fun _ => ?_⟩
  simp only [reader0]
  rw [List.drop_take]
/-- C7, as the code has it: `ReadFrom` never looks past the required length. Whatever
the chunk, the file and `isFirst`, it returns the same error and leaves the same chunk
as on the file cut down to its first `requiredLength` bytes; trailing bytes are
ignored and are not a decode error. -/
theorem ReadFrom_ignores_trailing (P : Params) (c : Chunk G1Affine G2Affine)
    (f : List Byte) (isFirst : Bool) (hB : 0 < P.fpBytes) :
    ReadFrom P c (some f) isFirst
      = ReadFrom P c (some (f.take (requiredLength P isFirst))) isFirst := by
  by_cases h64 : 64 ≤ f.length
  · have hR : 64 ≤ requiredLength P isFirst := by
      simp [requiredLength]
    have h64' : 64 ≤ (f.take (requiredLength P isFirst)).length := by
      rw [List.length_take]
      omega
    have hhash : (f.take (requiredLength P isFirst)).take 64 = f.take 64 := by
      rw [List.take_take]
      congr 1
      omega
    have h0 : SameUpTo (requiredElements P isFirst * P.fpBytes) (reader0 P f)
        (reader0 P (f.take (requiredLength P isFirst))) := by
      have := reader0_sameUpTo P f (requiredLength P isFirst)
      simpa [requiredLength] using this
    rw [ReadFrom_of_header P c f isFirst h64,
      ReadFrom_of_header P c (f.take (requiredLength P isFirst)) isFirst h64', hhash]
    cases isFirst with
    | false =>
      obtain ⟨a1, a2⟩ := readElems_sameUpTo P hB (2 * P.nbTauG1) _ _ _ h0
        (by simp [requiredElements])
      simp only [or_true, if_true, a1, a2.2.1]
    | true =>
      have e : requiredElements P true = 2 * P.nbTauG1 + 4 * P.nbTauG2 + 2 * P.nbAlphaG1 := by
        simp [requiredElements]
        omega
      rw [e] at h0
      have hm : (2 * P.nbTauG1 + 4 * P.nbTauG2 + 2 * P.nbAlphaG1) * P.fpBytes
          = 2 * P.nbTauG1 * P.fpBytes + 4 * P.nbTauG2 * P.fpBytes
            + 2 * P.nbAlphaG1 * P.fpBytes := by ring
      obtain ⟨a1, a2⟩ := readElems_sameUpTo P hB (2 * P.nbTauG1) _ _ _ h0 (by omega)
      obtain ⟨b1, b2⟩ := readElems_sameUpTo P hB (4 * P.nbTauG2) _ _ _ a2 (by omega)
      obtain ⟨c1, c2⟩ := readElems_sameUpTo P hB (2 * P.nbAlphaG1) _ _ _ b2 (by omega)
      have t2 := readTauG2_eq_congr P _ _ c.TauG2 b1
      have t3 := readAlphaG1_eq_congr P _ _ c.AlphaG1 c1
      simp only [a1, a2.2.1, b2.2.1, c2.2.1, t2, t3]
  · have hR : f.length ≤ requiredLength P isFirst := by
      simp only [requiredLength]
      omega
    rw [List.take_of_length_le hR]

/-- The hypothesis of `ReadFrom_ignores_trailing` holds for the constants of the
program, here on a file one byte longer than required. -/
theorem ReadFrom_ignores_trailing_witness :
    ReadFrom aleo newChunk (some (List.replicate 6291521 0)) false
      = ReadFrom aleo newChunk
          (some ((List.replicate 6291521 0).take (requiredLength aleo false))) false :=
  ReadFrom_ignores_trailing aleo newChunk (List.replicate 6291521 0) false (by decide)

/-- The hypotheses of `ReadFrom_wellformed` hold for `smallFile`. -/
theorem ReadFrom_wellformed_witness :
    ReadFrom smallParams newChunk (some smallFile) true =
      (none,
        { Hash := List.replicate 64 7,
          TauG1 := [⟨256, 257⟩, ⟨258, 259⟩],
          TauG2 := [⟨⟨260, 261⟩, ⟨262, 263⟩⟩, ⟨⟨264, 265⟩, ⟨266, 267⟩⟩],
          AlphaG1 := [⟨268, 269⟩],
          isFirst := true }) :=
  (ReadFrom_wellformed smallParams smallFile true (by decide) (by decide) (by decide)).trans
    rfl

theorem readElems_noncanonical (P : Params) (hB : 0 < P.fpBytes) (k : Nat) :
    ∀ (j : Nat) (s : Reader), j < k → (j + 1) * P.fpBytes ≤ s.rest.length →
      P.fpModulus ≤ leValue ((s.rest.drop (j * P.fpBytes)).take P.fpBytes) →
      (readElems P k s).2.tryReadErr ≠ none := by
  induction k with
  | zero =>
    intro j s hj
    omega
  | succ k ih =>
    intro j s hj hlen hbad
    by_cases hs : s.tryReadErr = none
    · have hj1 : (j + 1) * P.fpBytes = j * P.fpBytes + P.fpBytes := by ring
      have hl : P.fpBytes ≤ s.rest.length := by omega
      have hstep := tryReadElement_full P s hs hB hl
      simp only [readElems]
      by_cases hv : leValue (s.rest.take P.fpBytes) < P.fpModulus
      · rw [if_pos hv] at hstep
        cases j with
        | zero =>
          simp only [Nat.zero_mul, List.drop_zero] at hbad
          omega
        | succ j =>
          apply ih j (tryReadElement P s).2 (by omega)
          · rw [hstep]
            simp only [List.length_drop]
            have : (j + 1 + 1) * P.fpBytes = (j + 1) * P.fpBytes + P.fpBytes := by ring
            omega
          · rw [hstep]
            simp only [List.drop_drop]
            have : P.fpBytes + j * P.fpBytes = (j + 1) * P.fpBytes := by ring
            rw [this]
            exact hbad
      · rw [if_neg hv] at hstep
        rw [readElems_of_err P k _ (by rw [hstep]; simp), hstep]
        simp
    · rw [readElems_of_err P (k + 1) s hs]
      exact hs

/-- C8: if a required field element of the file (element `j` after the header, with
`j` below the number of elements required for this `isFirst`) is present and encodes
a value that is not below the modulus, `ReadFrom` returns an error, whatever the
chunk and whatever the rest of the file. -/
theorem ReadFrom_noncanonical (P : Params) (c : Chunk G1Affine G2Affine) (f : List Byte)
    (isFirst : Bool) (j : Nat) (hB : 0 < P.fpBytes) (hj : j < requiredElements P isFirst)
    (hlen : 64 + (j + 1) * P.fpBytes ≤ f.length) (hbad : P.fpModulus ≤ elementAt P f j) :
    (ReadFrom P c (some f) isFirst).1 ≠ none := by
  rw [ReadFrom_err P c f isFirst (by omega)]
  apply readElems_noncanonical P hB _ j (reader0 P f) hj
  · simp only [reader0, List.length_drop]
    omega
  · simp only [reader0, List.drop_drop]
    exact hbad

/-- The hypotheses of `ReadFrom_noncanonical` hold for `smallBadFile`, whose element 1
is `0xffff`. -/
theorem ReadFrom_noncanonical_witness :
    (ReadFrom smallParams newChunk (some smallBadFile) true).1 ≠ none :=
  ReadFrom_noncanonical smallParams newChunk smallBadFile true 1 (by decide) (by decide)
    (by decide) (by decide)

theorem pairG1_length (n : Nat) : ∀ l : List Nat, l.length = 2 * n → (pairG1 l).length = n := by
  induction n with
  | zero =>
    intro l hl
    have : l = [] := List.length_eq_zero.mp (by omega)
    subst this
    rfl
  | succ n ih =>
    intro l hl
    match l, hl with
    | x :: y :: t, hl =>
      simp only [pairG1, List.length_cons]
      rw [ih t (by simp only [List.length_cons] at hl; omega)]

/-- A call of `ReadFrom` with `isFirst = false` leaves `TauG2` and `AlphaG1` as they
were, whatever the file and the outcome. -/
theorem ReadFrom_frame (P : Params) (c : Chunk G1Affine G2Affine) (file : Option (List Byte)) :
    (ReadFrom P c file false).2.TauG2 = c.TauG2 ∧
      (ReadFrom P c file false).2.AlphaG1 = c.AlphaG1 := by
  cases file with
  | none => simp [ReadFrom]
  | some f =>
    by_cases h : 64 ≤ f.length
    · rw [ReadFrom_of_header P c f false h]
      simp
    · have h1 : f.length < 64 := by omega
      simp [ReadFrom, h1]

/-- A call of `ReadFrom` that returns no error has read a file with a full header. -/
theorem ReadFrom_ok_header (P : Params) (c : Chunk G1Affine G2Affine)
    (file : Option (List Byte)) (isFirst : Bool) (hok : (ReadFrom P c file isFirst).1 = none) :
    ∃ f, file = some f ∧ 64 ≤ f.length := by
  cases file with
  | none => simp [ReadFrom] at hok
  | some f =>
    refine ⟨f, rfl, ?_⟩
    by_contra h
    have h1 : f.length < 64 := by omega
    simp only [ReadFrom, h1, if_true] at hok
    split at hok <;> simp at hok

/-- What a successful `ReadFrom` leaves in the chunk. -/
theorem ReadFrom_ok_shape (P : Params) (c : Chunk G1Affine G2Affine)
    (file : Option (List Byte)) (isFirst : Bool)
    (hok : (ReadFrom P c file isFirst).1 = none) :
    (ReadFrom P c file isFirst).2.TauG1.length = P.nbTauG1 ∧
    (ReadFrom P c file isFirst).2.isFirst = isFirst ∧
    (isFirst = true →
      (ReadFrom P c file isFirst).2.TauG2.length = c.TauG2.length + P.nbTauG2 ∧
      (ReadFrom P c file isFirst).2.AlphaG1.length = c.AlphaG1.length + P.nbAlphaG1) ∧
    (isFirst = false →
      (ReadFrom P c file isFirst).2.TauG2 = c.TauG2 ∧
      (ReadFrom P c file isFirst).2.AlphaG1 = c.AlphaG1) := by
  obtain ⟨f, rfl, h64⟩ := ReadFrom_ok_header P c file isFirst hok
  have hT1 : (pairG1 (readElems P (2 * P.nbTauG1) (reader0 P f)).1).length = P.nbTauG1 :=
    pairG1_length _ _ (readElems_length P _ _)
  refine ⟨?_, ?_, ?_, ?_⟩
  · rw [ReadFrom_of_header P c f isFirst h64]
    split
    · exact hT1
    · split
      · exact hT1
      · exact hT1
  · rw [ReadFrom_of_header P c f isFirst h64]
    split_ifs <;> rfl
  · intro hf
    subst hf
    rw [ReadFrom_of_header P c f true h64] at hok ⊢
    by_cases h1 : (readElems P (2 * P.nbTauG1) (reader0 P f)).2.tryReadErr = none
    · by_cases h2 : (readElems P (4 * P.nbTauG2)
          (readElems P (2 * P.nbTauG1) (reader0 P f)).2).2.tryReadErr = none
      · simp only [h1, h2, ne_eq, not_true_eq_false, Bool.true_eq_false, or_self, if_false]
        exact ⟨readTauG2_eq_length P _ _, readAlphaG1_eq_length P _ _⟩
      · simp only [h1, h2, ne_eq, not_true_eq_false, Bool.true_eq_false, or_self, if_false,
          not_false_eq_true, if_true] at hok
    · simp only [h1, ne_eq, not_false_eq_true, true_or, if_true] at hok
  · intro hf
    subst hf
    exact ReadFrom_frame P c (some f)

/-- C9, as the code has it: after every successful `ReadFrom`, on a fresh chunk or on one
used before, `len(TauG1) = nbTauG1` and `isFirst` is the flag passed; when the flag is
true `TauG2` and `AlphaG1` have received `nbTauG2` and `nbAlphaG1` points, and when it
is false they are exactly what they were before the call. -/
theorem ReadFrom_invariant (P : Params) (c : Chunk G1Affine G2Affine)
    (file : Option (List Byte)) (isFirst : Bool)
    (hok : (ReadFrom P c file isFirst).1 = none) :
    (ReadFrom P c file isFirst).2.TauG1.length = P.nbTauG1 ∧
    (ReadFrom P c file isFirst).2.isFirst = isFirst ∧
    (isFirst = true →
      (ReadFrom P c file isFirst).2.TauG2.length = c.TauG2.length + P.nbTauG2 ∧
      (ReadFrom P c file isFirst).2.AlphaG1.length = c.AlphaG1.length + P.nbAlphaG1) ∧
    (isFirst = false →
      (ReadFrom P c file isFirst).2.TauG2 = c.TauG2 ∧
      (ReadFrom P c file isFirst).2.AlphaG1 = c.AlphaG1) :=
  ReadFrom_ok_shape P c file isFirst hok

/-- The hypothesis of `ReadFrom_invariant` holds for `smallFile` read into a fresh
chunk with `isFirst = true`. -/
theorem ReadFrom_invariant_witness :
    (ReadFrom smallParams newChunk (some smallFile) true).2.TauG1.length = 2 ∧
    (ReadFrom smallParams newChunk (some smallFile) true).2.isFirst = true ∧
    (true = true →
      (ReadFrom smallParams newChunk (some smallFile) true).2.TauG2.length = 0 + 2 ∧
      (ReadFrom smallParams newChunk (some smallFile) true).2.AlphaG1.length = 0 + 1) ∧
    (true = false →
      (ReadFrom smallParams newChunk (some smallFile) true).2.TauG2 = [] ∧
      (ReadFrom smallParams newChunk (some smallFile) true).2.AlphaG1 = []) :=
  ReadFrom_invariant smallParams newChunk (some smallFile) true (by decide)

/-- C9 fails as stated: `firstRead` is a successful `ReadFrom` with `isFirst = true` on
a fresh chunk; a second `ReadFrom` on the chunk it leaves, with `isFirst = false` and a
file of the required `6291520` bytes, succeeds, and afterwards `isFirst` is false while
`TauG2` still holds 30 points and `AlphaG1` 87, so that "non-empty iff `isFirst`" is
false. -/
theorem ReadFrom_reuse_keeps_TauG2 :
    firstRead.1 = none ∧
    (ReadFrom aleo firstRead.2 (some (List.replicate 6291520 0)) false).1 = none ∧
    (ReadFrom aleo firstRead.2 (some (List.replicate 6291520 0)) false).2.isFirst = false ∧
    (ReadFrom aleo firstRead.2 (some (List.replicate 6291520 0)) false).2.TauG2.length = 30 ∧
    (ReadFrom aleo firstRead.2 (some (List.replicate 6291520 0)) false).2.AlphaG1.length = 87 ∧
    ¬ (((ReadFrom aleo firstRead.2 (some (List.replicate 6291520 0)) false).2.TauG2 ≠ [] ∧
        (ReadFrom aleo firstRead.2 (some (List.replicate 6291520 0)) false).2.AlphaG1 ≠ []) ↔
        (ReadFrom aleo firstRead.2 (some (List.replicate 6291520 0)) false).2.isFirst = true) := by
  have hu : firstRead = ReadFrom aleo newChunk (some (List.replicate 6305632 0)) true := rfl
  have h1 : firstRead.1 = none := by
    rw [hu]
    exact ReadFrom_zeros aleo newChunk 6305632 true (by decide) (by decide) (by decide)
      (by decide)
  have h2 : (ReadFrom aleo firstRead.2 (some (List.replicate 6291520 0)) false).1 = none :=
    ReadFrom_zeros aleo firstRead.2 6291520 false (by decide) (by decide) (by decide)
      (by decide)
  obtain ⟨_, _, hA, _⟩ := ReadFrom_ok_shape aleo newChunk
    (some (List.replicate 6305632 0)) true (by rw [← hu]; exact h1)
  obtain ⟨a1, a2⟩ := hA rfl
  rw [← hu] at a1 a2
  obtain ⟨_, hB, _, hC⟩ := ReadFrom_ok_shape aleo firstRead.2 _ false h2
  obtain ⟨c1, c2⟩ := hC rfl
  have e1 : (ReadFrom aleo firstRead.2 (some (List.replicate 6291520 0)) false).2.TauG2.length
      = 30 := by
    rw [c1, a1]
    rfl
  have e2 : (ReadFrom aleo firstRead.2 (some (List.replicate 6291520 0)) false).2.AlphaG1.length
      = 87 := by
    rw [c2, a2]
    rfl
  refine ⟨h1, h2, hB, e1, e2, ?_⟩
  rw [hB]
  intro h
  have := h.mp ⟨fun h0 => by rw [h0] at e1; simp at e1, fun h0 => by rw [h0] at e2; simp at e2⟩
  simp at this

/-! ## `execute` -/

theorem rangeStart_succ (per extra i : Nat) :
    rangeStart per extra (i + 1) = rangeStart per extra i + per + (if i < extra then 1 else 0) := by
  simp only [rangeStart]
  have : (i + 1) * per = i * per + per := by ring
  split <;> omega

/-- The state of the loop of `execute` after `k` iterations. -/
theorem execute_loop (per extra k : Nat) :
    forRange k (fun i (st : Nat × Nat × List (Nat × Nat)) =>
      if st.1 > 0 then
        (st.1 - 1, st.2.1 + 1, st.2.2 ++ [(i * per + st.2.1, i * per + st.2.1 + per + 1)])
      else (st.1, st.2.1, st.2.2 ++ [(i * per + st.2.1, i * per + st.2.1 + per)]))
      (extra, 0, [])
    = (extra - min k extra, min k extra,
        (List.range k).map (fun i => (rangeStart per extra i, rangeStart per extra (i + 1)))) := by
  induction k with
  | zero => simp [forRange_zero]
  | succ k ih =>
    rw [forRange_succ_last, ih]
    simp only [List.range_succ, List.map_append, List.map_cons, List.map_nil]
    have hs := rangeStart_succ per extra k
    by_cases hk : k < extra
    · have h1 : extra - min k extra > 0 := by omega
      simp only [h1, if_true, hk] at hs ⊢
      refine Prod.ext (by simp; omega) (Prod.ext (by simp; omega) ?_)
      simp only [rangeStart] at hs ⊢
      simp only [List.append_cancel_left_eq, List.cons.injEq, Prod.mk.injEq, and_true, true_and]
      omega
    · have h1 : ¬ extra - min k extra > 0 := by omega
      simp only [h1, if_false, hk] at hs ⊢
      refine Prod.ext (by simp; omega) (Prod.ext (by simp; omega) ?_)
      simp only [rangeStart] at hs ⊢
      simp only [List.append_cancel_left_eq, List.cons.injEq, Prod.mk.injEq, and_true, true_and]
      omega

/-- The ranges of `execute` in closed form: with `per = max 1 (n / w)` elements per
range, `tasks = w` ranges (or `n`, when `n < w`) and `extra = n - tasks · per`, the
`i`-th range is `[rangeStart i, rangeStart (i + 1))`. -/
theorem executeRanges_eq (n w : Nat) (hw : 1 ≤ w) :
    executeRanges n w = some ((List.range (execTasks n w)).map (fun i =>
      (rangeStart (execPer n w) (execExtra n w) i,
        rangeStart (execPer n w) (execExtra n w) (i + 1)))) := by
  have hw0 : w ≠ 0 := by omega
  simp only [executeRanges, hw0, if_false]
  have h := execute_loop (execPer n w) (execExtra n w) (execTasks n w)
  simp only [Nat.add_assoc, execPer, execExtra, execTasks] at h ⊢
  rw [h]

theorem execPer_pos (n w : Nat) : 1 ≤ execPer n w := by
  simp only [execPer]
  split <;> omega

theorem rangeStart_zero (per extra : Nat) : rangeStart per extra 0 = 0 := by
  simp [rangeStart]

theorem rangeStart_total (n w : Nat) (hw : 1 ≤ w) :
    rangeStart (execPer n w) (execExtra n w) (execTasks n w) = n := by
  simp only [rangeStart, execExtra, execPer, execTasks]
  by_cases h : n / w < 1
  · simp only [h, if_true]
    omega
  · simp only [h, if_false]
    have h1 := Nat.div_add_mod n w
    have h2 := Nat.mod_lt n (show w > 0 by omega)
    have h3 : n - w * (n / w) = n % w := by omega
    rw [h3, Nat.min_eq_right (by omega)]
    omega

theorem rangeStart_lt_succ (per extra i : Nat) (hper : 1 ≤ per) :
    rangeStart per extra i < rangeStart per extra (i + 1) := by
  rw [rangeStart_succ]
  omega

theorem rangeStart_mono (per extra : Nat) (hper : 1 ≤ per) {i k : Nat} (h : i ≤ k) :
    rangeStart per extra i ≤ rangeStart per extra k := by
  induction k with
  | zero =>
    have : i = 0 := by omega
    subst this
    exact Nat.le_refl _
  | succ k ih =>
    by_cases hik : i ≤ k
    · exact Nat.le_trans (ih hik) (Nat.le_of_lt (rangeStart_lt_succ per extra k hper))
    · have : i = k + 1 := by omega
      subst this
      exact Nat.le_refl _

/-- Every index below `rangeStart T` lies in one of the first `T` ranges. -/
theorem rangeStart_cover (per extra T : Nat) :
    ∀ i, i < rangeStart per extra T →
      ∃ k, k < T ∧ rangeStart per extra k ≤ i ∧ i < rangeStart per extra (k + 1) := by
  induction T with
  | zero =>
    intro i hi
    rw [rangeStart_zero] at hi
    omega
  | succ T ih =>
    intro i hi
    by_cases h : i < rangeStart per extra T
    · obtain ⟨k, hk, h1, h2⟩ := ih i h
      exact ⟨k, by omega, h1, h2⟩
    · exact ⟨T, by omega, by omega, hi⟩

/-- The ranges of `execute` lie within `[0, n)` and cover it. -/
theorem executeRanges_spec (n w : Nat) (hw : 1 ≤ w) :
    ∃ rs, executeRanges n w = some rs ∧
      (∀ r ∈ rs, r.1 ≤ r.2 ∧ r.2 ≤ n) ∧
      (∀ i, i < n → ∃ r ∈ rs, r.1 ≤ i ∧ i < r.2) := by
  refine ⟨_, executeRanges_eq n w hw, ?_, ?_⟩
  · intro r hr
    simp only [List.mem_map, List.mem_range] at hr
    obtain ⟨k, hk, rfl⟩ := hr
    refine ⟨Nat.le_of_lt (rangeStart_lt_succ _ _ k (execPer_pos n w)), ?_⟩
    have := rangeStart_mono (execPer n w) (execExtra n w) (execPer_pos n w)
      (show k + 1 ≤ execTasks n w by omega)
    rw [rangeStart_total n w hw] at this
    exact this
  · intro i hi
    rw [← rangeStart_total n w hw] at hi
    obtain ⟨k, hk, h1, h2⟩ := rangeStart_cover _ _ _ i hi
    exact ⟨_, List.mem_map.mpr ⟨k, List.mem_range.mpr hk, rfl⟩, h1, h2⟩

/-! ## `Chunk.VerifyPoints` -/

/-- The worker on a range that lies within the slice: it does not panic, and it
reports exactly the first offending index of the range, if there is one. -/
theorem scanRange_spec {G : Type} (inSub : G → Bool) (pts : List G) (fuel : Nat) :
    ∀ i, i + fuel ≤ pts.length →
      ∃ res, scanRange inSub pts fuel i = some res ∧
        ∀ k, res = some k ↔ FirstOffending inSub pts i (i + fuel) k := by
  induction fuel with
  | zero =>
    intro i _
    refine ⟨none, rfl, ?_⟩
    intro k
    simp only [FirstOffending]
    constructor
    · intro h
      cases h
    · rintro ⟨h1, h2, _⟩
      omega
  | succ fuel ih =>
    intro i hi
    have hlt : i < pts.length := by omega
    have hget : pts[i]? = some pts[i] := List.getElem?_eq_getElem hlt
    by_cases hin : inSub pts[i] = true
    · obtain ⟨res, h1, h2⟩ := ih (i + 1) (by omega)
      refine ⟨res, ?_, ?_⟩
      · simp only [scanRange, hget, hin, Bool.not_true, Bool.false_eq_true, if_false]
        exact h1
      · intro k
        rw [h2 k]
        simp only [FirstOffending]
        constructor
        · rintro ⟨a, b, c, d⟩
          refine ⟨by omega, by omega, c, ?_⟩
          intro j hj1 hj2
          by_cases hji : j = i
          · subst hji
            exact ⟨_, hget, hin⟩
          · exact d j (by omega) hj2
        · rintro ⟨a, b, c, d⟩
          have hki : k ≠ i := by
            intro hk
            subst hk
            obtain ⟨p, hp1, hp2⟩ := c
            rw [hget] at hp1
            cases hp1
            rw [hin] at hp2
            cases hp2
          exact ⟨by omega, by omega, c, fun j hj1 hj2 => d j (by omega) hj2⟩
    · have hin' : inSub pts[i] = false := by simpa using hin
      refine ⟨some i, ?_, ?_⟩
      · simp [scanRange, hget, hin']
      · intro k
        simp only [Option.some.injEq, FirstOffending]
        constructor
        · intro hk
          subst hk
          exact ⟨Nat.le_refl _, by omega, ⟨_, hget, hin'⟩, fun j h1 h2 => by omega⟩
        · rintro ⟨a, b, c, d⟩
          by_contra hne
          have hik : i < k := by omega
          obtain ⟨p, hp1, hp2⟩ := d i (Nat.le_refl _) hik
          rw [hget] at hp1
          cases hp1
          rw [hin'] at hp2
          cases hp2

theorem mapM_id_map {α β : Type} (f : α → Option β) (g : α → β) (l : List α)
    (h : ∀ x ∈ l, f x = some (g x)) : (l.map f).mapM id = some (l.map g) := by
  induction l with
  | nil => rfl
  | cons a l ih =>
    have ha := h a (List.mem_cons_self a l)
    have hl := ih (fun x hx => h x (List.mem_cons_of_mem a hx))
    simp only [List.map_cons, List.mapM_cons, id_eq, ha, hl, Option.pure_def, Option.bind_eq_bind,
      Option.some_bind]

/-- A subgroup pass over `n = len(pts)` indices does not panic, and the indices it
appends to `errors` are exactly the first offending index of each range of `execute`
that has one. -/
theorem subgroupPass_spec {G : Type} (inSub : G → Bool) (pts : List G) (n w : Nat)
    (hw : 1 ≤ w) (hn : pts.length = n) :
    ∃ l rs, subgroupPass inSub pts n w = some l ∧ executeRanges n w = some rs ∧
      ∀ i, i ∈ l ↔ ∃ r ∈ rs, FirstOffending inSub pts r.1 r.2 i := by
  obtain ⟨rs, hrs, hbound, _⟩ := executeRanges_spec n w hw
  have hscan : ∀ r ∈ rs, ∃ res, scanRange inSub pts (r.2 - r.1) r.1 = some res ∧
      ∀ k, res = some k ↔ FirstOffending inSub pts r.1 r.2 k := by
    intro r hr
    obtain ⟨h1, h2⟩ := hbound r hr
    have h3 : r.1 + (r.2 - r.1) = r.2 := by omega
    have := scanRange_spec inSub pts (r.2 - r.1) r.1 (by omega)
    rw [h3] at this
    exact this
  have hmap : (rs.map (fun r => scanRange inSub pts (r.2 - r.1) r.1)).mapM id
      = some (rs.map (fun r => (scanRange inSub pts (r.2 - r.1) r.1).getD none)) := by
    apply mapM_id_map
    intro r hr
    obtain ⟨res, h1, _⟩ := hscan r hr
    rw [h1]
    rfl
  refine ⟨(rs.map (fun r => (scanRange inSub pts (r.2 - r.1) r.1).getD none)).reduceOption,
    rs, ?_, hrs, ?_⟩
  · simp only [subgroupPass, execute, hrs, Option.map_some', Option.bind_eq_bind,
      Option.some_bind, hmap, Option.pure_def]
  · intro i
    rw [List.reduceOption_mem_iff]
    simp only [List.mem_map]
    constructor
    · rintro ⟨r, hr, hi⟩
      obtain ⟨res, h1, h2⟩ := hscan r hr
      rw [h1] at hi
      exact ⟨r, hr, (h2 i).mp hi⟩
    · rintro ⟨r, hr, hi⟩
      obtain ⟨res, h1, h2⟩ := hscan r hr
      refine ⟨r, hr, ?_⟩
      rw [h1]
      exact (h2 i).mpr hi

section VerifyLemmas

variable {G1 G2 : Type} [DecidableEq G1] [DecidableEq G2]

theorem VerifyPoints_of_pass (P : Params) (inSubG1 : G1 → Bool) (inSubG2 : G2 → Bool)
    (g1Gen : G1) (g2Gen : G2) (w : Nat) (c : Chunk G1 G2) (l : List Nat)
    (h : subgroupPass inSubG1 c.TauG1 P.nbTauG1 w = some l) (hl : l ≠ []) :
    VerifyPoints P inSubG1 inSubG2 g1Gen g2Gen w c = some (some (VerifyError.TauG1 l)) := by
  have hpos : l.length > 0 := List.length_pos.mpr hl
  simp only [VerifyPoints, h, List.nil_append, hpos, if_true]

theorem VerifyPoints_TauG1_inv (P : Params) (inSubG1 : G1 → Bool) (inSubG2 : G2 → Bool)
    (g1Gen : G1) (g2Gen : G2) (w : Nat) (c : Chunk G1 G2) (l : List Nat)
    (h : VerifyPoints P inSubG1 inSubG2 g1Gen g2Gen w c = some (some (VerifyError.TauG1 l))) :
    subgroupPass inSubG1 c.TauG1 P.nbTauG1 w = some l ∧ l ≠ [] := by
  unfold VerifyPoints at h
  split at h
  · cases h
  · rename_i found1 hf
    simp only [List.nil_append] at h
    split at h
    · rename_i hpos
      simp only [Option.some.injEq, VerifyError.TauG1.injEq] at h
      subst h
      exact ⟨hf, List.length_pos.mp hpos⟩
    · split at h
      · split at h
        · cases h
        · split at h
          · simp at h
          · split at h
            · cases h
            · split at h
              · simp at h
              · split at h
                · cases h
                · split at h
                  · simp at h
                  · split at h
                    · cases h
                    · split at h
                      · simp at h
                      · simp at h
      · simp at h

/-- In a range that lies within the slice and holds an offending index, some index is
the first offending one. -/
theorem exists_firstOffending {G : Type} (inSub : G → Bool) (pts : List G) (s e i : Nat)
    (he : e ≤ pts.length) (hs : s ≤ i) (hi : i < e)
    (hbad : ∃ p, pts[i]? = some p ∧ inSub p = false) :
    ∃ k, FirstOffending inSub pts s e k := by
  classical
  have hex : ∃ j, s ≤ j ∧ j < e ∧ ∃ p, pts[j]? = some p ∧ inSub p = false := ⟨i, hs, hi, hbad⟩
  refine ⟨Nat.find hex, (Nat.find_spec hex).1, (Nat.find_spec hex).2.1,
    (Nat.find_spec hex).2.2, ?_⟩
  intro j hj1 hj2
  have hje : j < e := Nat.lt_trans hj2 (Nat.find_spec hex).2.1
  have hjl : j < pts.length := by omega
  refine ⟨pts[j], List.getElem?_eq_getElem hjl, ?_⟩
  by_contra hne
  have hf : inSub pts[j] = false := by simpa using hne
  exact Nat.find_min hex hj2 ⟨hj1, hje, pts[j], List.getElem?_eq_getElem hjl, hf⟩

/-- C10, as the code has it: each worker stops at the first offending point of its
range. With `len(TauG1) = nbTauG1` and at least one worker, if some point of `TauG1` is
not in the subgroup then `VerifyPoints` returns the error `TauG1: [...]`; and whenever
it returns that error, the indices listed are exactly, for each range handed out by
`execute`, the first index of the range whose point is not in the subgroup. In
particular no index whose point is in the subgroup is listed. -/
theorem VerifyPoints_lists_first_offending (P : Params) (inSubG1 : G1 → Bool)
    (inSubG2 : G2 → Bool) (g1Gen : G1) (g2Gen : G2) (w : Nat) (c : Chunk G1 G2)
    (hw : 1 ≤ w) (hlen : c.TauG1.length = P.nbTauG1) :
    ∃ rs, executeRanges P.nbTauG1 w = some rs ∧
      ((∃ (i : Nat) (p : G1), c.TauG1[i]? = some p ∧ inSubG1 p = false) →
        ∃ l, VerifyPoints P inSubG1 inSubG2 g1Gen g2Gen w c
          = some (some (VerifyError.TauG1 l))) ∧
      (∀ l, VerifyPoints P inSubG1 inSubG2 g1Gen g2Gen w c
          = some (some (VerifyError.TauG1 l)) →
        (∀ i, i ∈ l ↔ ∃ r ∈ rs, FirstOffending inSubG1 c.TauG1 r.1 r.2 i) ∧
        (∀ i, i ∈ l → ∃ p, c.TauG1[i]? = some p ∧ inSubG1 p = false)) := by
  obtain ⟨l0, rs, hpass, hrs, hmem⟩ := subgroupPass_spec inSubG1 c.TauG1 P.nbTauG1 w hw hlen
  obtain ⟨rs', hrs', hbound, hcover⟩ := executeRanges_spec P.nbTauG1 w hw
  have hrr : rs' = rs := by
    rw [hrs] at hrs'
    exact (Option.some.inj hrs').symm
  subst hrr
  refine ⟨rs', hrs, ?_, ?_⟩
  · rintro ⟨i, p, hp, hbad⟩
    have hi : i < P.nbTauG1 := by
      rw [← hlen]
      exact (List.getElem?_eq_some.mp hp).1
    obtain ⟨r, hr, h1, h2⟩ := hcover i hi
    obtain ⟨k, hk⟩ := exists_firstOffending inSubG1 c.TauG1 r.1 r.2 i
      (by rw [hlen]; exact (hbound r hr).2) h1 h2 ⟨p, hp, hbad⟩
    have hk0 : k ∈ l0 := (hmem k).mpr ⟨r, hr, hk⟩
    exact ⟨l0, VerifyPoints_of_pass P inSubG1 inSubG2 g1Gen g2Gen w c l0 hpass
      (List.ne_nil_of_mem hk0)⟩
  · intro l hl
    obtain ⟨h1, _⟩ := VerifyPoints_TauG1_inv P inSubG1 inSubG2 g1Gen g2Gen w c l hl
    rw [hpass] at h1
    have hll : l0 = l := Option.some.inj h1
    subst hll
    refine ⟨hmem, ?_⟩
    intro i hi
    obtain ⟨r, _, hf⟩ := (hmem i).mp hi
    exact hf.2.2.1

end VerifyLemmas

theorem executeRanges_one : executeRanges 65536 1 = some [(0, 65536)] := by decide

theorem scanRange_offCurve :
    scanRange onlyG1Gen (List.replicate 65536 (⟨1, 1⟩ : G1Affine)) (65536 - 0) 0
      = some (some 0) := by
  have h0 : (List.replicate 65536 (⟨1, 1⟩ : G1Affine))[0]? = some ⟨1, 1⟩ := by
    rw [List.getElem?_replicate]
    decide
  have hb : onlyG1Gen ⟨1, 1⟩ = false := by decide
  have e : (65536 - 0 : Nat) = 65535 + 1 := by decide
  rw [e, scanRange, h0]
  simp only [hb, Bool.not_false, if_true]

theorem subgroupPass_offCurve :
    subgroupPass onlyG1Gen offCurveChunk.TauG1 aleo.nbTauG1 1 = some [0] := by
  show subgroupPass onlyG1Gen (List.replicate 65536 (⟨1, 1⟩ : G1Affine)) 65536 1 = some [0]
  simp only [subgroupPass, execute, executeRanges_one, Option.map_some', List.map_cons,
    List.map_nil, scanRange_offCurve, Option.bind_eq_bind, Option.some_bind]
  rfl

/-- C10 fails as stated: with one worker and a `TauG1` of 65536 points none of which is
in the subgroup, the error returned by `VerifyPoints` lists index 0 only, although the
point at index 1 is not in the subgroup either. -/
theorem VerifyPoints_first_only :
    offCurveChunk.TauG1.length = aleo.nbTauG1 ∧
    offCurveChunk.TauG1[1]? = some ⟨1, 1⟩ ∧ onlyG1Gen ⟨1, 1⟩ = false ∧
    VerifyPoints aleo onlyG1Gen onlyG2Gen snarkVMG1Gen snarkVMG2Gen 1 offCurveChunk
      = some (some (VerifyError.TauG1 [0])) := by
  refine ⟨List.length_replicate _ _, ?_, by decide, ?_⟩
  · show (List.replicate 65536 (⟨1, 1⟩ : G1Affine))[1]? = some ⟨1, 1⟩
    rw [List.getElem?_replicate]
    decide
  · exact VerifyPoints_of_pass aleo onlyG1Gen onlyG2Gen snarkVMG1Gen snarkVMG2Gen 1
      offCurveChunk [0] subgroupPass_offCurve (by decide)

/-- The hypotheses of `VerifyPoints_lists_first_offending` hold for the constants of the
program, one worker and a `TauG1` of 65536 points. -/
theorem VerifyPoints_lists_first_offending_witness :
    ∃ rs, executeRanges aleo.nbTauG1 1 = some rs ∧
      ((∃ (i : Nat) (p : G1Affine), offCurveChunk.TauG1[i]? = some p ∧ onlyG1Gen p = false) →
        ∃ l, VerifyPoints aleo onlyG1Gen onlyG2Gen snarkVMG1Gen snarkVMG2Gen 1 offCurveChunk
          = some (some (VerifyError.TauG1 l))) ∧
      (∀ l, VerifyPoints aleo onlyG1Gen onlyG2Gen snarkVMG1Gen snarkVMG2Gen 1 offCurveChunk
          = some (some (VerifyError.TauG1 l)) →
        (∀ i, i ∈ l ↔ ∃ r ∈ rs, FirstOffending onlyG1Gen offCurveChunk.TauG1 r.1 r.2 i) ∧
        (∀ i, i ∈ l → ∃ p, offCurveChunk.TauG1[i]? = some p ∧ onlyG1Gen p = false)) :=
  VerifyPoints_lists_first_offending aleo onlyG1Gen onlyG2Gen snarkVMG1Gen snarkVMG2Gen 1
    offCurveChunk (by decide) (List.length_replicate _ _)

/-- When the unread bytes stop before the first byte of the last of `k` elements, one
of the `k` reads fails. -/
theorem readElems_short (P : Params) (k : Nat) :
    ∀ s : Reader, s.rest.length ≤ k * P.fpBytes →
      (readElems P (k + 1) s).2.tryReadErr ≠ none := by
  induction k with
  | zero =>
    intro s hs
    have h0 : s.rest.length = 0 := by omega
    simp only [readElems]
    cases he : s.tryReadErr with
    | some e => simp [tryReadElement, he]
    | none => simp [tryReadElement, he, h0]
  | succ k ih =>
    intro s hs
    have hk1 : (k + 1) * P.fpBytes = k * P.fpBytes + P.fpBytes := by ring
    by_cases he : s.tryReadErr = none
    · by_cases h0 : s.rest.length = 0
      · have hstep : (tryReadElement P s).2.tryReadErr ≠ none := by
          simp [tryReadElement, he, h0]
        show (readElems P (k + 1 + 1) s).2.tryReadErr ≠ none
        simp only [readElems]
        have := readElems_of_err P (k + 1) _ hstep
        simp only [readElems] at this
        rw [this]
        exact hstep
      · show (readElems P (k + 1 + 1) s).2.tryReadErr ≠ none
        rw [readElems]
        by_cases hstep : (tryReadElement P s).2.tryReadErr = none
        · apply ih
          have hr : (tryReadElement P s).2.rest
              = s.rest.drop (min P.fpBytes s.rest.length) := by
            simp only [tryReadElement, he, h0, if_false]
            split <;> rfl
          rw [hr, List.length_drop]
          omega
        · rw [readElems_of_err P (k + 1) _ hstep]
          exact hstep
    · rw [readElems_of_err P (k + 1 + 1) s he]
      exact he

/-- A file that stops before the first byte of its last required element is
rejected: the decode error is missed only when the file ends inside that element. -/
theorem ReadFrom_short_rejected (P : Params) (c : Chunk G1Affine G2Affine) (f : List Byte)
    (isFirst : Bool) (hn : 1 ≤ requiredElements P isFirst)
    (hlen : f.length ≤ 64 + (requiredElements P isFirst - 1) * P.fpBytes) :
    (ReadFrom P c (some f) isFirst).1 ≠ none := by
  by_cases h64 : 64 ≤ f.length
  · rw [ReadFrom_err P c f isFirst h64]
    have e : requiredElements P isFirst = (requiredElements P isFirst - 1) + 1 := by omega
    rw [e]
    apply readElems_short
    simp only [reader0, List.length_drop]
    omega
  · have h1 : f.length < 64 := by omega
    simp only [ReadFrom, h1, if_true]
    split <;> simp

section Perturbed

variable {G1 G2 GT : Type} [AddCommGroup G1] [AddCommGroup G2] [CommGroup GT]
variable {r : ℕ} [Module (ZMod r) G1] [Module (ZMod r) G2]

/-- The instance of the soundness bound singled out by the specification: a sequence
of powers of `tau` in which the single entry `k > 0` has been shifted by a non-zero
multiple `delta · G` of a non-zero point is accepted for at most a fraction
`(n - 1) / |F|` of the challenge vectors. -/
theorem IsValid_sound_perturbed [Fact r.Prime] [DecidableEq GT] (E : Pairing G1 G2 GT)
    (g2Gen : G2) (hnd : ∀ Q : G1, E.e Q g2Gen = 1 → Q = 0) (tau delta : ZMod r) (P0 G : G1)
    (n k : ℕ) (c : Chunk G1 G2) (ent : ℕ → ZMod r) (d : ℕ) (hn : 2 ≤ n) (hk0 : 0 < k)
    (hkn : k < n) (hdelta : delta ≠ 0) (hG : G ≠ 0)
    (hA : c.TauG1
      = ((List.range n).map (fun i => tau ^ i • P0)).set k (tau ^ k • P0 + delta • G))
    (hT : c.TauG2[1]? = some (tau • g2Gen)) :
    ((Finset.univ.filter (fun rv : Fin (n - 1) → ZMod r =>
        (IsValid E g2Gen ⟨some (List.ofFn rv), ent, d⟩ c).map Prod.fst = some true)).card : ℚ)
      / (r : ℚ) ^ (n - 1) ≤ ((n : ℚ) - 1) / (r : ℚ) := by
  have hlen : c.TauG1.length = n := by
    rw [hA]
    simp
  have hk1 : k - 1 + 1 = k := by omega
  have ha : c.TauG1[k - 1]? = some (tau ^ (k - 1) • P0) := by
    rw [hA, List.getElem?_set_ne (by omega)]
    simp only [List.getElem?_map]
    rw [List.getElem?_range (by omega)]
    rfl
  have hb : c.TauG1[k - 1 + 1]? = some (tau ^ k • P0 + delta • G) := by
    rw [hk1, hA, List.getElem?_set_self]
    simp [hkn]
  apply IsValid_accept_fraction_le E g2Gen hnd tau n c ent d hn hlen hT (k - 1) _ _ ha hb
  intro h
  have hp : tau • tau ^ (k - 1) • P0 = tau ^ k • P0 := by
    rw [← mul_smul, ← pow_succ', hk1]
  rw [hp] at h
  have h0 : delta • G = 0 := by
    have := congrArg (fun x => x - tau ^ k • P0) h
    simpa using this
  exact (smul_ne_zero hdelta hG) h0

end Perturbed

/-! ## `Chunk.VerifyPoints` returns `nil` -/

/-- A subgroup pass over the whole slice appends nothing exactly when every point is
in the subgroup. -/
theorem subgroupPass_nil_iff {G : Type} (inSub : G → Bool) (pts : List G) (n w : Nat)
    (hw : 1 ≤ w) (hn : pts.length = n) :
    ∃ l, subgroupPass inSub pts n w = some l ∧ (l = [] ↔ ∀ p ∈ pts, inSub p = true) := by
  obtain ⟨l, rs, hpass, hrs, hmem⟩ := subgroupPass_spec inSub pts n w hw hn
  obtain ⟨rs', hrs', hbound, hcover⟩ := executeRanges_spec n w hw
  have hrr : rs' = rs := by
    rw [hrs] at hrs'
    exact (Option.some.inj hrs').symm
  subst hrr
  refine ⟨l, hpass, ?_, ?_⟩
  · intro hl p hp
    by_contra hne
    have hf : inSub p = false := by simpa using hne
    obtain ⟨i, hi, hpi⟩ := List.getElem_of_mem hp
    have hget : pts[i]? = some p := by
      rw [List.getElem?_eq_getElem hi, hpi]
    obtain ⟨r, hr, h1, h2⟩ := hcover i (by omega)
    obtain ⟨k, hk⟩ := exists_firstOffending inSub pts r.1 r.2 i
      (by rw [hn]; exact (hbound r hr).2) h1 h2 ⟨p, hget, hf⟩
    have hk0 : k ∈ l := (hmem k).mpr ⟨r, hr, hk⟩
    rw [hl] at hk0
    cases hk0
  · intro hall
    apply List.eq_nil_iff_forall_not_mem.mpr
    intro i hi
    obtain ⟨r, _, hf⟩ := (hmem i).mp hi
    obtain ⟨p, hp1, hp2⟩ := hf.2.2.1
    have hp : p ∈ pts := List.getElem?_mem hp1
    rw [hall p hp] at hp2
    cases hp2

section VerifyNil

variable {G1 G2 : Type} [DecidableEq G1] [DecidableEq G2]

/-- The outcome `nil` of `VerifyPoints`, characterised. -/
theorem VerifyPoints_nil_iff (P : Params) (inSubG1 : G1 → Bool) (inSubG2 : G2 → Bool)
    (g1Gen : G1) (g2Gen : G2) (w : Nat) (c : Chunk G1 G2) (hw : 1 ≤ w)
    (hlen : c.TauG1.length = P.nbTauG1) :
    VerifyPoints P inSubG1 inSubG2 g1Gen g2Gen w c = some none ↔
      (∀ p ∈ c.TauG1, inSubG1 p = true) ∧
      (c.isFirst = true →
        c.TauG1[0]? = some g1Gen ∧ c.TauG2[0]? = some g2Gen ∧
        (∀ q ∈ c.TauG2, inSubG2 q = true) ∧ (∀ p ∈ c.AlphaG1, inSubG1 p = true)) := by
  obtain ⟨l1, h1, n1⟩ := subgroupPass_nil_iff inSubG1 c.TauG1 P.nbTauG1 w hw hlen
  obtain ⟨l2, h2, n2⟩ := subgroupPass_nil_iff inSubG2 c.TauG2 c.TauG2.length w hw rfl
  obtain ⟨l3, h3, n3⟩ := subgroupPass_nil_iff inSubG1 c.AlphaG1 c.AlphaG1.length w hw rfl
  simp only [VerifyPoints, h1, h2, h3, List.nil_append]
  rw [← n1, ← n2, ← n3]
  by_cases e1 : l1 = []
  · subst e1
    simp only [List.length_nil, gt_iff_lt, Nat.lt_irrefl, if_false, true_and]
    by_cases hf : c.isFirst = true
    · simp only [hf, if_true, true_implies]
      cases ht : c.TauG2[0]? with
      | none => simp
      | some t0 =>
        by_cases htg : t0 = g2Gen
        · subst htg
          simp only [ne_eq, not_true_eq_false, if_false, true_and]
          cases ha : c.TauG1[0]? with
          | none => simp
          | some a0 =>
            by_cases hag : a0 = g1Gen
            · subst hag
              simp only [ne_eq, not_true_eq_false, if_false, true_and]
              by_cases e2 : l2 = []
              · subst e2
                simp only [List.length_nil, Nat.lt_irrefl, if_false, true_and, List.nil_append]
                by_cases e3 : l3 = []
                · subst e3
                  simp
                · have hpos : 0 < l3.length := List.length_pos.mpr e3
                  simp [hpos, e3]
              · have hpos : 0 < l2.length := List.length_pos.mpr e2
                simp [hpos, e2]
            · simp [hag]
        · simp [htg]
    · simp [hf]
  · have hpos : 0 < l1.length := List.length_pos.mpr e1
    simp [hpos, e1]

end VerifyNil

section VerifyNilClaim

variable {G1 G2 : Type} [DecidableEq G1] [DecidableEq G2]

/-- C11: with `len(TauG1) = nbTauG1` and at least one worker, `VerifyPoints` returns
`nil` if and only if every point of `TauG1` is in the subgroup and, when `isFirst` is
true, `TauG1[0]` is the G1 generator, `TauG2[0]` is the G2 generator, and every point
of `TauG2` and of `AlphaG1` is in its subgroup. -/
theorem VerifyPoints_nil_iff_valid (P : Params) (inSubG1 : G1 → Bool) (inSubG2 : G2 → Bool)
    (g1Gen : G1) (g2Gen : G2) (w : Nat) (c : Chunk G1 G2) (hw : 1 ≤ w)
    (hlen : c.TauG1.length = P.nbTauG1) :
    VerifyPoints P inSubG1 inSubG2 g1Gen g2Gen w c = some none ↔
      (∀ p ∈ c.TauG1, inSubG1 p = true) ∧
      (c.isFirst = true →
        c.TauG1[0]? = some g1Gen ∧ c.TauG2[0]? = some g2Gen ∧
        (∀ q ∈ c.TauG2, inSubG2 q = true) ∧ (∀ p ∈ c.AlphaG1, inSubG1 p = true)) :=
  VerifyPoints_nil_iff P inSubG1 inSubG2 g1Gen g2Gen w c hw hlen

end VerifyNilClaim

/-- The hypotheses of `VerifyPoints_nil_iff_valid` hold for `genChunk` and two workers. -/
theorem VerifyPoints_nil_iff_valid_witness :
    VerifyPoints smallParams onlyG1Gen onlyG2Gen snarkVMG1Gen snarkVMG2Gen 2 genChunk
        = some none ↔
      (∀ p ∈ genChunk.TauG1, onlyG1Gen p = true) ∧
      (genChunk.isFirst = true →
        genChunk.TauG1[0]? = some snarkVMG1Gen ∧ genChunk.TauG2[0]? = some snarkVMG2Gen ∧
        (∀ q ∈ genChunk.TauG2, onlyG2Gen q = true) ∧
        (∀ p ∈ genChunk.AlphaG1, onlyG1Gen p = true)) :=
  VerifyPoints_nil_iff_valid smallParams onlyG1Gen onlyG2Gen snarkVMG1Gen snarkVMG2Gen 2
    genChunk (by decide) (by decide)

/-! ## The ranges of `execute` partition the interval -/

theorem execTasks_eq_min (n w : Nat) (hw : 1 ≤ w) : execTasks n w = min w n := by
  simp only [execTasks]
  by_cases h : n < w
  · rw [Nat.div_eq_of_lt h]
    simp only [Nat.lt_one_iff, if_true]
    omega
  · have h1 : 1 ≤ n / w := (Nat.one_le_div_iff (by omega)).mpr (by omega)
    have h2 : ¬ n / w < 1 := by omega
    simp only [h2, if_false]
    omega

theorem rangeStart_size (n w i : Nat) (hw : 1 ≤ w) (hi : i < min w n) :
    rangeStart (execPer n w) (execExtra n w) (i + 1)
      - rangeStart (execPer n w) (execExtra n w) i
      = n / w + (if i < n % w then 1 else 0) := by
  rw [rangeStart_succ]
  simp only [execPer, execExtra, execTasks]
  by_cases h : n < w
  · have hd : n / w = 0 := Nat.div_eq_of_lt h
    have hm : n % w = n := Nat.mod_eq_of_lt h
    have hin : i < n := by omega
    simp only [hd, hm, Nat.lt_one_iff, if_true, hin]
    have h0 : ¬ i < n - n * 1 := by omega
    simp only [h0, if_false]
    omega
  · have h1 : 1 ≤ n / w := (Nat.one_le_div_iff (by omega)).mpr (by omega)
    have h2 : ¬ n / w < 1 := by omega
    have h3 := Nat.div_add_mod n w
    have h4 : n - w * (n / w) = n % w := by omega
    simp only [h2, if_false, h4]
    split <;> omega

/-- The ranges of `execute`, with their cut points `b 0 = 0 < b 1 < ... < b m = n`,
`m = min w n`. -/
theorem executeRanges_partition (n w : Nat) (hw : 1 ≤ w) :
    ∃ (rs : List (Nat × Nat)) (b : Nat → Nat),
      executeRanges n w = some rs ∧
      rs = (List.range (min w n)).map (fun i => (b i, b (i + 1))) ∧
      b 0 = 0 ∧ b (min w n) = n ∧
      (∀ i, i < min w n → b i < b (i + 1)) ∧
      (∀ x, x < n → ∃! i, i < min w n ∧ b i ≤ x ∧ x < b (i + 1)) ∧
      (∀ i, i < min w n → b (i + 1) - b i = n / w + (if i < n % w then 1 else 0)) ∧
      (∀ i j, i < min w n → j < min w n → b (i + 1) - b i ≤ (b (j + 1) - b j) + 1) := by
  have hT := execTasks_eq_min n w hw
  have hper := execPer_pos n w
  refine ⟨_, rangeStart (execPer n w) (execExtra n w), executeRanges_eq n w hw, ?_,
    rangeStart_zero _ _, ?_, ?_, ?_, ?_, ?_⟩
  · rw [hT]
  · rw [← hT]
    exact rangeStart_total n w hw
  · intro i _
    exact rangeStart_lt_succ _ _ i hper
  · intro x hx
    have hx' : x < rangeStart (execPer n w) (execExtra n w) (execTasks n w) := by
      rw [rangeStart_total n w hw]
      exact hx
    obtain ⟨k, hk, h1, h2⟩ := rangeStart_cover _ _ _ x hx'
    refine ⟨k, ⟨by omega, h1, h2⟩, ?_⟩
    rintro j ⟨_, hj1, hj2⟩
    by_contra hne
    rcases Nat.lt_or_gt_of_ne hne with hlt | hgt
    · have := rangeStart_mono (execPer n w) (execExtra n w) hper (show j + 1 ≤ k by omega)
      omega
    · have := rangeStart_mono (execPer n w) (execExtra n w) hper (show k + 1 ≤ j by omega)
      omega
  · intro i hi
    exact rangeStart_size n w i hw hi
  · intro i j hi hj
    rw [rangeStart_size n w i hw hi, rangeStart_size n w j hw hj]
    split <;> split <;> omega

/-- C12: for every `nbIterations = n` and every worker count `w ≥ 1`, the ranges that
`execute` passes to the worker are, in task order, the `min w n` half-open intervals
`[b i, b (i + 1))` between cut points `0 = b 0 < b 1 < ... < b (min w n) = n`: they are
contiguous and every index below `n` lies in exactly one of them. The `i`-th range
holds `n / w` elements, and one more when `i < n mod w`, so that any two sizes differ
by at most 1. -/
theorem execute_partition (n w : Nat) (hw : 1 ≤ w) :
    ∃ (rs : List (Nat × Nat)) (b : Nat → Nat),
      executeRanges n w = some rs ∧
      rs = (List.range (min w n)).map (fun i => (b i, b (i + 1))) ∧
      b 0 = 0 ∧ b (min w n) = n ∧
      (∀ i, i < min w n → b i < b (i + 1)) ∧
      (∀ x, x < n → ∃! i, i < min w n ∧ b i ≤ x ∧ x < b (i + 1)) ∧
      (∀ i, i < min w n → b (i + 1) - b i = n / w + (if i < n % w then 1 else 0)) ∧
      (∀ i j, i < min w n → j < min w n → b (i + 1) - b i ≤ (b (j + 1) - b j) + 1) :=
  executeRanges_partition n w hw

/-- The hypothesis of `execute_partition` holds for 10 iterations and 3 workers, where
the ranges are `[0, 4)`, `[4, 7)`, `[7, 10)`. -/
theorem execute_partition_witness :
    executeRanges 10 3 = some [(0, 4), (4, 7), (7, 10)] ∧
    ∃ (rs : List (Nat × Nat)) (b : Nat → Nat),
      executeRanges 10 3 = some rs ∧
      rs = (List.range (min 3 10)).map (fun i => (b i, b (i + 1))) ∧
      b 0 = 0 ∧ b (min 3 10) = 10 ∧
      (∀ i, i < min 3 10 → b i < b (i + 1)) ∧
      (∀ x, x < 10 → ∃! i, i < min 3 10 ∧ b i ≤ x ∧ x < b (i + 1)) ∧
      (∀ i, i < min 3 10 → b (i + 1) - b i = 10 / 3 + (if i < 10 % 3 then 1 else 0)) ∧
      (∀ i j, i < min 3 10 → j < min 3 10 → b (i + 1) - b i ≤ (b (j + 1) - b j) + 1) :=
  ⟨by decide, execute_partition 10 3 (by decide)⟩

/-! ## Further properties of `sameRatio` and `Chunk.IsValid` -/

section RatioMore

variable {G1 G2 GT : Type} [AddCommGroup G1] [AddCommGroup G2] [CommGroup GT]
variable {r : ℕ} [Module (ZMod r) G1] [Module (ZMod r) G2]

omit [Module (ZMod r) G1] [Module (ZMod r) G2] in
theorem sameRatio_decide [DecidableEq GT] (E : Pairing G1 G2 GT) (a1 b1 : G1) (a2 b2 : G2) :
    sameRatio E a1 b1 a2 b2 = some (decide (E.e a1 a2 = E.e b1 b2)) := by
  rw [sameRatio_eq, E.map_neg_right]
  congr 1
  apply decide_eq_decide.mpr
  exact inv_mul_eq_one

omit [Module (ZMod r) G1] [Module (ZMod r) G2] in
/-- C14: for all G1 points `a`, `b`, `p` and G2 points `x`, `y`, `q`,
`sameRatio(a, b, x, y) = sameRatio(b, a, y, x)` and `sameRatio(p, p, q, q)` is true. -/
theorem sameRatio_symm_refl [DecidableEq GT] (E : Pairing G1 G2 GT) (a b p : G1)
    (x y q : G2) :
    sameRatio E a b x y = sameRatio E b a y x ∧ sameRatio E p p q q = some true := by
  refine ⟨?_, ?_⟩
  · rw [sameRatio_decide, sameRatio_decide]
    congr 1
    apply decide_eq_decide.mpr
    exact eq_comm
  · rw [sameRatio_decide]
    simp

/-- C18: the cross-round check does not relate the secrets of the two rounds. For all
scalars `s` and `t` and all points `g1`, `g2`, with `curr.TauG1[1] = s·g1`,
`curr.TauG2[1] = s·g2`, `prev.TauG1[1] = t·g1` and `prev.TauG2[1] = t·g2`, the call
`sameRatio(curr.TauG1[1], prev.TauG1[1], prev.TauG2[1], curr.TauG2[1])` of the loop
returns `true`, whatever `s` and `t` are. -/
theorem sameRatio_cross_round_any [DecidableEq GT] (E : Pairing G1 G2 GT) (g1 : G1) (g2 : G2)
    (s t : ZMod r) :
    sameRatio E (s • g1) (t • g1) (t • g2) (s • g2) = some true := by
  rw [sameRatio_true_iff, E.smul_swap, E.smul_swap, ← mul_smul, ← mul_smul, mul_comm]

end RatioMore

section Scaling

variable {G1 G2 GT : Type} [AddCommGroup G1] [AddCommGroup G2] [CommGroup GT]
variable {r : ℕ} [Module (ZMod r) G1] [Module (ZMod r) G2]

omit [AddCommGroup G2] [CommGroup GT] [Module (ZMod r) G2] in
theorem MultiExp_map_smul (s : ZMod r) (A : List G1) (rv : List (ZMod r)) :
    (MultiExp (A.map (fun p => s • p)) rv : G1) = s • MultiExp A rv := by
  unfold MultiExp
  rw [List.length_map]
  split
  · simp
  · rw [zipWith_smul_map_sum]

omit [Module (ZMod r) G2] in
theorem Pairing.smul_left_congr (E : Pairing G1 G2 GT) (s : ZMod r) (a b : G1) (x y : G2)
    (h : E.e a x = E.e b y) : E.e (s • a) x = E.e (s • b) y := by
  obtain ⟨k, rfl⟩ := ZMod.intCast_surjective s
  rw [Int.cast_smul_eq_zsmul, Int.cast_smul_eq_zsmul, E.map_zsmul_left, E.map_zsmul_left, h]

omit [Module (ZMod r) G2] in
/-- A chunk that `IsValid` accepts is still accepted, with the same challenge vector,
after every point of `TauG1` has been multiplied by the same scalar. -/
theorem IsValid_map_smul [DecidableEq GT] (E : Pairing G1 G2 GT) (g2Gen : G2) (s : ZMod r)
    (st st' : RState (ZMod r)) (c : Chunk G1 G2)
    (h : IsValid E g2Gen st c = some (true, st')) :
    IsValid E g2Gen st { c with TauG1 := c.TauG1.map (fun p => s • p) } = some (true, st') := by
  have hne : c.TauG1 ≠ [] := by
    intro h0
    simp [IsValid, linearCombinationG1, h0] at h
  cases hT : c.TauG2[1]? with
  | none =>
    have hl : c.TauG1.length ≠ 0 := by simpa using hne
    simp [IsValid, linearCombinationG1, hl, hT] at h
  | some t =>
    rw [IsValid_eq E g2Gen st c t hne hT] at h
    have hne' : ({ c with TauG1 := c.TauG1.map (fun p => s • p) } : Chunk G1 G2).TauG1 ≠ [] := by
      simpa using hne
    rw [IsValid_eq E g2Gen st _ t hne' hT]
    simp only [Option.some.injEq, Prod.mk.injEq, decide_eq_true_eq] at h
    obtain ⟨h1, h2⟩ := h
    simp only [List.length_map, ← List.map_take, ← List.map_drop, MultiExp_map_smul,
      Option.some.injEq, Prod.mk.injEq, decide_eq_true_eq]
    exact ⟨E.smul_left_congr s _ _ _ _ h1, h2⟩

omit [Module (ZMod r) G2] in
/-- C19: the intra-chunk check is invariant under a common scaling of the chunk. For
every scalar `s`, every chunk (any `TauG1`, any `TauG2[1]`) and every state of the
challenge vector, if `Chunk.IsValid` accepts the chunk then it accepts, with the same
challenge vector, the chunk whose `TauG1` is `s·A[0], ..., s·A[n-1]`. -/
theorem IsValid_scale_invariant [DecidableEq GT] (E : Pairing G1 G2 GT) (g2Gen : G2)
    (s : ZMod r) (st st' : RState (ZMod r)) (c : Chunk G1 G2)
    (h : IsValid E g2Gen st c = some (true, st')) :
    IsValid E g2Gen st { c with TauG1 := c.TauG1.map (fun p => s • p) } = some (true, st') :=
  IsValid_map_smul E g2Gen s st st' c h

end Scaling

/-- The hypothesis of `IsValid_scale_invariant` holds for `smallChunk`, which is
accepted, and the scalar 2. -/
theorem IsValid_scale_invariant_witness :
    IsValid smallPairing 1 smallState
        { smallChunk with TauG1 := smallChunk.TauG1.map (fun p => (2 : ZMod 3) • p) }
      = some (true, smallState) :=
  IsValid_scale_invariant smallPairing 1 (2 : ZMod 3) smallState smallState smallChunk rfl

section LaterChunks

variable {G1 G2 GT : Type} [AddCommGroup G1] [AddCommGroup G2] [CommGroup GT]
variable {r : ℕ} [Module (ZMod r) G1]

theorem IsValid_congr [DecidableEq GT] (E : Pairing G1 G2 GT) (g2Gen : G2)
    (st : RState (ZMod r)) (c c' : Chunk G1 G2) (h1 : c.TauG1 = c'.TauG1)
    (h2 : c.TauG2 = c'.TauG2) : IsValid E g2Gen st c = IsValid E g2Gen st c' := by
  simp only [IsValid, h1, h2]

theorem validStep_ok_iff [DecidableEq GT] (L : Library G1 G2 GT) (i : Nat)
    (curr : Chunk G1Affine G2Affine) (rnd rnd' : RState (ZMod r)) :
    validStep L i curr rnd = .ok rnd' ↔
      IsValid L.E (L.pt2 snarkVMG2Gen) rnd (curr.map L.pt1 L.pt2) = some (true, rnd') := by
  unfold validStep
  split
  · rename_i h
    simp [h]
  · rename_i x h
    simp [h]
  · rename_i rnd1 h
    simp only [h, Except.ok.injEq, Option.some.injEq, Prod.mk.injEq, true_and]

omit [Module (ZMod r) G1] in
theorem verifyStep_ok_iff (P : Params) (L : Library G1 G2 GT) (inp : Inputs) (i : Nat)
    (curr prev : Chunk G1Affine G2Affine) :
    verifyStep P L inp i curr prev = .ok () ↔
      (inp.noSubgroupChecks = true ∨
        (VerifyPoints P L.IsInSubGroupG1 L.IsInSubGroupG2 snarkVMG1Gen snarkVMG2Gen
            inp.numCPU curr = some none ∧
          VerifyPoints P L.IsInSubGroupG1 L.IsInSubGroupG2 snarkVMG1Gen snarkVMG2Gen
            inp.numCPU prev = some none)) := by
  unfold verifyStep
  generalize VerifyPoints P L.IsInSubGroupG1 L.IsInSubGroupG2 snarkVMG1Gen snarkVMG2Gen
    inp.numCPU curr = a
  generalize VerifyPoints P L.IsInSubGroupG1 L.IsInSubGroupG2 snarkVMG1Gen snarkVMG2Gen
    inp.numCPU prev = b
  by_cases hn : inp.noSubgroupChecks = true
  · simp [hn]
  · simp only [hn, if_false, false_or]
    rcases a with _ | _ | e1
    · simp
    · rcases b with _ | _ | e2 <;> simp
    · simp

/-- For a chunk index `i > 0` the checks of the loop on the chunk of the last round are
the subgroup check of `TauG1` and `IsValid`: the first point of `TauG1` is compared with
nothing. If the chunk passes them, so does any chunk with the same `TauG2` whose
`TauG1` points are in the subgroup and stand for the same group elements multiplied by
one scalar `s`. -/
theorem later_chunk_checks_scale [DecidableEq GT] (P : Params) (L : Library G1 G2 GT)
    (inp : Inputs) (i : Nat) (curr curr' prev : Chunk G1Affine G2Affine)
    (rnd rnd' : RState (ZMod r)) (s : ZMod r) (hi : i ≠ 0) (hw : 1 ≤ inp.numCPU)
    (hF : curr'.isFirst = false) (hT : curr'.TauG2 = curr.TauG2)
    (hlen : curr'.TauG1.length = P.nbTauG1)
    (hscale : curr'.TauG1.map L.pt1 = (curr.TauG1.map L.pt1).map (fun p => s • p))
    (hsub : ∀ p ∈ curr'.TauG1, L.IsInSubGroupG1 p = true)
    (hv : verifyStep P L inp i curr prev = .ok ())
    (hval : validStep L i curr rnd = .ok rnd') :
    verifyStep P L inp i curr' prev = .ok () ∧ continuityStep L i curr' prev = .ok () ∧
      validStep L i curr' rnd = .ok rnd' := by
  refine ⟨?_, ?_, ?_⟩
  · rw [verifyStep_ok_iff] at hv ⊢
    rcases hv with hv | ⟨_, hv2⟩
    · exact Or.inl hv
    · refine Or.inr ⟨?_, hv2⟩
      rw [VerifyPoints_nil_iff P _ _ _ _ _ curr' hw hlen]
      exact ⟨hsub, fun h => by rw [hF] at h; cases h⟩
  · simp [continuityStep, hi]
  · rw [validStep_ok_iff] at hval ⊢
    have h := IsValid_map_smul L.E (L.pt2 snarkVMG2Gen) s rnd rnd' (curr.map L.pt1 L.pt2) hval
    rw [← h]
    apply IsValid_congr
    · simp only [Chunk.map]
      exact hscale
    · simp only [Chunk.map, hT]

end LaterChunks

/-! ## The self-check: `eval`, `randomPolynomial`, the opening point -/

theorem forRangeDown_succ {σ : Type} (n : Nat) (body : Nat → σ → σ) (s : σ) :
    forRangeDown (n + 1) body s = forRangeDown n body (body n s) := by
  simp [forRangeDown, List.range_succ]

/-- Horner's rule: running the loop of `eval` from index `m - 1` down to `0` on `res`
gives `res · x^m + Σ_{i < m} p[i] · x^i`. -/
theorem horner_loop {F : Type} [CommRing F] (p : List F) (x : F) (m : Nat) :
    ∀ res : F, forRangeDown m (fun i res => res * x + p.getD i 0) res
      = res * x ^ m + ∑ i in Finset.range m, p.getD i 0 * x ^ i := by
  induction m with
  | zero =>
    intro res
    simp [forRangeDown]
  | succ m ih =>
    intro res
    rw [forRangeDown_succ, ih, Finset.sum_range_succ]
    ring

theorem eval_eq_sum {F : Type} [CommRing F] (p : List F) (x : F) (hp : p ≠ []) :
    eval p x = some (∑ i in Finset.range p.length, p.getD i 0 * x ^ i) := by
  have hl : p.length ≠ 0 := by simpa using hp
  have hn : p.length = (p.length - 1) + 1 := by omega
  simp only [eval, hl, if_false, horner_loop]
  congr 1
  conv_rhs => rw [hn, Finset.sum_range_succ]
  ring

theorem cmd_eval_eq_sum {F : Type} [CommRing F] (p : List F) (x : F) (hp : p ≠ []) :
    Cmd.eval p x = some (∑ i in Finset.range p.length, p.getD i 0 * x ^ i) := by
  have hl : p.length ≠ 0 := by simpa using hp
  have hn : p.length = (p.length - 1) + 1 := by omega
  simp only [Cmd.eval, hl, if_false, horner_loop]
  congr 1
  conv_rhs => rw [hn, Finset.sum_range_succ]
  ring

/-- C15: for every non-empty coefficient slice `p` and every point `x`, `eval(p, x)`
returns `Σ_{i < len(p)} p[i]·x^i`, for the copy of `aleo/main.go` over the scalars of
BLS12-377 and for the copy of `cmd/main.go` over the scalars of BN254. -/
theorem eval_is_polynomial_value (p : List Fr377) (x : Fr377) (q : List FrBN254) (y : FrBN254)
    (hp : p ≠ []) (hq : q ≠ []) :
    eval p x = some (∑ i in Finset.range p.length, p.getD i 0 * x ^ i) ∧
    Cmd.eval q y = some (∑ i in Finset.range q.length, q.getD i 0 * y ^ i) :=
  ⟨eval_eq_sum p x hp, cmd_eval_eq_sum q y hq⟩

/-- The hypotheses of `eval_is_polynomial_value` hold for the polynomial `1 + 2X + 3X²`
at the point 2 in both fields. -/
theorem eval_is_polynomial_value_witness :
    eval ([1, 2, 3] : List Fr377) 2
        = some (∑ i in Finset.range ([1, 2, 3] : List Fr377).length,
            ([1, 2, 3] : List Fr377).getD i 0 * 2 ^ i) ∧
    Cmd.eval ([1, 2, 3] : List FrBN254) 2
        = some (∑ i in Finset.range ([1, 2, 3] : List FrBN254).length,
            ([1, 2, 3] : List FrBN254).getD i 0 * 2 ^ i) :=
  eval_is_polynomial_value [1, 2, 3] 2 [1, 2, 3] 2 (List.cons_ne_nil _ _) (List.cons_ne_nil _ _)

/-- The loop shared by `randomPolynomial` and the body of `initROnce.Do`: after `j` of
its `m` iterations the first `j` entries hold the next `j` values of the random
source. -/
theorem fill_loop {F : Type} [Zero F] (entropy : Nat → F) (d m j : Nat) (hj : j ≤ m) :
    forRange j (fun i (acc : List F × Nat) =>
      (acc.1.set i (entropy acc.2), acc.2 + 1)) (List.replicate m 0, d)
    = ((List.range j).map (fun i => entropy (d + i)) ++ List.replicate (m - j) 0, d + j) := by
  induction j with
  | zero => simp [forRange_zero]
  | succ j ih =>
    rw [forRange_succ_last, ih (by omega)]
    have hm : m - j = (m - (j + 1)) + 1 := by omega
    simp only [Prod.mk.injEq]
    refine ⟨?_, by omega⟩
    rw [List.set_append_right _ _ (by simp), hm, List.replicate_succ]
    simp [List.range_succ]

theorem fill_loop_full {F : Type} [Zero F] (entropy : Nat → F) (d m : Nat) :
    forRange m (fun i (acc : List F × Nat) =>
      (acc.1.set i (entropy acc.2), acc.2 + 1)) (List.replicate m 0, d)
    = ((List.range m).map (fun i => entropy (d + i)), d + m) := by
  rw [fill_loop entropy d m m (Nat.le_refl m)]
  simp

theorem randomPolynomial_eq {F : Type} [Zero F] (size : Nat) (entropy : Nat → F) (d : Nat) :
    randomPolynomial size entropy d
      = ((List.range size).map (fun i => entropy (d + i)), d + size) :=
  fill_loop_full entropy d size

theorem cmd_randomPolynomial_eq {F : Type} [Zero F] (size : Nat) (entropy : Nat → F)
    (d : Nat) :
    Cmd.randomPolynomial size entropy d
      = ((List.range size).map (fun i => entropy (d + i)), d + size) :=
  fill_loop_full entropy d size

theorem sampleRVector_eq {F : Type} [Zero F] (st : RState F) (m : Nat) :
    sampleRVector st m
      = { st with rVector := some ((List.range m).map (fun i => st.entropy (st.drawn + i))),
                  drawn := st.drawn + m } := by
  simp only [sampleRVector, fill_loop_full]

/-- C16, evaluated on the code: whatever the library, the keys and the random source,
the self-check of `aleo/main.go` and that of `cmd/main.go` open the polynomial at the
point 4321. The polynomial is made of the next 60 values of the random source, and
these 60 values are all that is drawn: two runs with different random sources open at
the same point. -/
theorem sanityCheck_point_is_fixed {F PK VK Digest Proof : Type} [CommRing F] [DecidableEq F]
    (K : KzgLib F PK VK Digest Proof) (pk : PK) (vk : VK) (entropy entropy' : Nat → F)
    (d d' : Nat) :
    (srsSanityCheck K pk vk entropy d).point = 4321 ∧
    (srsSanityCheck K pk vk entropy d).point = (srsSanityCheck K pk vk entropy' d').point ∧
    (srsSanityCheck K pk vk entropy d).f = (List.range 60).map (fun i => entropy (d + i)) ∧
    (srsSanityCheck K pk vk entropy d).drawn = d + 60 ∧
    (Cmd.sanityCheck K pk vk entropy d).point = 4321 ∧
    (Cmd.sanityCheck K pk vk entropy d).point = (Cmd.sanityCheck K pk vk entropy' d').point ∧
    (Cmd.sanityCheck K pk vk entropy d).f = (List.range 60).map (fun i => entropy (d + i)) ∧
    (Cmd.sanityCheck K pk vk entropy d).drawn = d + 60 := by
  refine ⟨rfl, rfl, ?_, ?_, rfl, rfl, ?_, ?_⟩
  · simp only [srsSanityCheck, randomPolynomial_eq]
  · simp only [srsSanityCheck, randomPolynomial_eq]
  · simp only [Cmd.sanityCheck, cmd_randomPolynomial_eq]
  · simp only [Cmd.sanityCheck, cmd_randomPolynomial_eq]

/-! ## The challenge vector is sampled once -/

section Once

variable {F G1 : Type} [Zero F] [Zero G1] [Add G1] [SMul F G1]

theorem linearCombinationG1_fresh (st : RState F) (A : List G1) (hA : A ≠ [])
    (hst : st.rVector = none) :
    linearCombinationG1 st A =
      some ((MultiExp (A.take (A.length - 1))
                ((List.range (A.length - 1)).map (fun i => st.entropy (st.drawn + i))),
             MultiExp (A.drop 1)
                ((List.range (A.length - 1)).map (fun i => st.entropy (st.drawn + i)))),
            { st with
              rVector := some ((List.range (A.length - 1)).map
                (fun i => st.entropy (st.drawn + i))),
              drawn := st.drawn + (A.length - 1) }) := by
  have hl : A.length ≠ 0 := by simpa using hA
  simp only [linearCombinationG1, hl, if_false, initROnce, hst, sampleRVector_eq,
    Option.getD_some]

theorem linearCombinationG1_stored (st : RState F) (A : List G1) (hA : A ≠ [])
    (v : List F) (hst : st.rVector = some v) :
    linearCombinationG1 st A =
      some ((MultiExp (A.take (A.length - 1)) v, MultiExp (A.drop 1) v), st) := by
  have hl : A.length ≠ 0 := by simpa using hA
  simp only [linearCombinationG1, hl, if_false, initROnce, hst, Option.getD_some]

theorem linearCombinationG1_once (st : RState F) (A : List G1) (hA : A ≠ []) :
    (st.rVector = none →
      linearCombinationG1 st A =
        some ((MultiExp (A.take (A.length - 1))
                  ((List.range (A.length - 1)).map (fun i => st.entropy (st.drawn + i))),
               MultiExp (A.drop 1)
                  ((List.range (A.length - 1)).map (fun i => st.entropy (st.drawn + i)))),
              { st with
                rVector := some ((List.range (A.length - 1)).map
                  (fun i => st.entropy (st.drawn + i))),
                drawn := st.drawn + (A.length - 1) }) ∧
      ((List.range (A.length - 1)).map (fun i => st.entropy (st.drawn + i))).length
        = A.length - 1) ∧
    (∀ v, st.rVector = some v →
      linearCombinationG1 st A =
        some ((MultiExp (A.take (A.length - 1)) v, MultiExp (A.drop 1) v), st)) ∧
    (∀ L st1, linearCombinationG1 st A = some (L, st1) →
      ∃ v, st1.rVector = some v ∧
        ∀ B : List G1, B ≠ [] →
          linearCombinationG1 st1 B =
            some ((MultiExp (B.take (B.length - 1)) v, MultiExp (B.drop 1) v), st1)) := by
  refine ⟨fun hst => ⟨linearCombinationG1_fresh st A hA hst, by simp⟩,
    fun v hst => linearCombinationG1_stored st A hA v hst, ?_⟩
  intro L st1 h
  cases hst : st.rVector with
  | none =>
    rw [linearCombinationG1_fresh st A hA hst] at h
    simp only [Option.some.injEq, Prod.mk.injEq] at h
    obtain ⟨_, h2⟩ := h
    subst h2
    exact ⟨_, rfl, fun B hB => linearCombinationG1_stored _ B hB _ rfl⟩
  | some v =>
    rw [linearCombinationG1_stored st A hA v hst] at h
    simp only [Option.some.injEq, Prod.mk.injEq] at h
    obtain ⟨_, h2⟩ := h
    subst h2
    exact ⟨v, hst, fun B hB => linearCombinationG1_stored _ B hB v hst⟩

/-- C17: the challenge vector is sampled exactly once. On a non-empty input `A` of
length `n`: if `rVector` has not been sampled yet, the call fills it with the next
`n - 1` values of the random source and uses it for `L1` and `L2`; if it holds `v`, the
call draws nothing, leaves the state as it is and computes `L1` and `L2` with `v`; and
after any call the state holds a vector `v` that every later call, whatever its input,
uses and leaves in place. -/
theorem rVector_sampled_once (st : RState F) (A : List G1) (hA : A ≠ []) :
    (st.rVector = none →
      linearCombinationG1 st A =
        some ((MultiExp (A.take (A.length - 1))
                  ((List.range (A.length - 1)).map (fun i => st.entropy (st.drawn + i))),
               MultiExp (A.drop 1)
                  ((List.range (A.length - 1)).map (fun i => st.entropy (st.drawn + i)))),
              { st with
                rVector := some ((List.range (A.length - 1)).map
                  (fun i => st.entropy (st.drawn + i))),
                drawn := st.drawn + (A.length - 1) }) ∧
      ((List.range (A.length - 1)).map (fun i => st.entropy (st.drawn + i))).length
        = A.length - 1) ∧
    (∀ v, st.rVector = some v →
      linearCombinationG1 st A =
        some ((MultiExp (A.take (A.length - 1)) v, MultiExp (A.drop 1) v), st)) ∧
    (∀ L st1, linearCombinationG1 st A = some (L, st1) →
      ∃ v, st1.rVector = some v ∧
        ∀ B : List G1, B ≠ [] →
          linearCombinationG1 st1 B =
            some ((MultiExp (B.take (B.length - 1)) v, MultiExp (B.drop 1) v), st1)) :=
  linearCombinationG1_once st A hA

end Once

/-- The hypothesis of `rVector_sampled_once` holds for a first call on three points of
the group of order 3, with a random source that yields `0, 1, 2, ...`. -/
theorem rVector_sampled_once_witness :
    (linearCombinationG1 (⟨none, fun i => (i : ZMod 3), 0⟩ : RState (ZMod 3))
        ([1, 2, 1] : List (ZMod 3))).map (fun x => x.2.rVector) = some (some [0, 1]) :=
  ((rVector_sampled_once (⟨none, fun i => (i : ZMod 3), 0⟩ : RState (ZMod 3))
      ([1, 2, 1] : List (ZMod 3)) (List.cons_ne_nil _ _)).1 rfl).1 ▸ by decide

/-! ## The loop of `main`: what an iteration leaves behind -/

theorem ReadFrom_TauG1_eq (P : Params) (c : Chunk G1Affine G2Affine)
    (file : Option (List Byte)) (isFirst : Bool) :
    (ReadFrom P c file isFirst).2.TauG1 = decodedTauG1 P file := by
  unfold decodedTauG1
  cases file with
  | none => simp [ReadFrom]
  | some f =>
    by_cases h : 64 ≤ f.length
    · rw [ReadFrom_of_header P c f isFirst h, ReadFrom_of_header P newChunk f false h]
      simp only [or_true, if_true]
      split_ifs <;> rfl
    · have h1 : f.length < 64 := by omega
      simp [ReadFrom, h1]

section LoopLemmas

variable {G1 G2 GT : Type} [AddCommGroup G1] [AddCommGroup G2] [CommGroup GT]
variable {r : ℕ} [Module (ZMod r) G1] [DecidableEq GT]

/-- What a completed iteration of the loop leaves: both decodes returned no error, the
two chunks are the decoded ones, the three checks passed and the SRS was extended. -/
theorem loopBody_ok (P : Params) (L : Library G1 G2 GT) (inp : Inputs) (i : Nat)
    (st st' : MainState (ZMod r)) (h : loopBody P L inp i st = .ok st') :
    (ReadFrom P st.currChunk (inp.lastRound i) (i == 0)).1 = none ∧
    (ReadFrom P st.prevChunk (inp.prevRound i) (i == 0)).1 = none ∧
    st'.currChunk = (ReadFrom P st.currChunk (inp.lastRound i) (i == 0)).2 ∧
    st'.prevChunk = (ReadFrom P st.prevChunk (inp.prevRound i) (i == 0)).2 ∧
    verifyStep P L inp i st'.currChunk st'.prevChunk = .ok () ∧
    continuityStep L i st'.currChunk st'.prevChunk = .ok () ∧
    validStep L i st'.currChunk st.rnd = .ok st'.rnd ∧
    assembleStep i st'.currChunk st.srs = .ok st'.srs := by
  unfold loopBody at h
  cases h1 : (ReadFrom P st.currChunk (inp.lastRound i) (i == 0)).1 with
  | some e => simp [h1] at h
  | none =>
    cases h2 : (ReadFrom P st.prevChunk (inp.prevRound i) (i == 0)).1 with
    | some e => simp [h1, h2] at h
    | none =>
      simp only [h1, h2] at h
      cases h3 : verifyStep P L inp i (ReadFrom P st.currChunk (inp.lastRound i) (i == 0)).2
          (ReadFrom P st.prevChunk (inp.prevRound i) (i == 0)).2 with
      | error e => simp [h3, bind, Except.bind] at h
      | ok u =>
        cases h4 : continuityStep L i (ReadFrom P st.currChunk (inp.lastRound i) (i == 0)).2
            (ReadFrom P st.prevChunk (inp.prevRound i) (i == 0)).2 with
        | error e => simp [h3, h4, bind, Except.bind] at h
        | ok u2 =>
          cases h5 : validStep L i (ReadFrom P st.currChunk (inp.lastRound i) (i == 0)).2
              st.rnd with
          | error e => simp [h3, h4, h5, bind, Except.bind] at h
          | ok rnd1 =>
            cases h6 : assembleStep i (ReadFrom P st.currChunk (inp.lastRound i) (i == 0)).2
                st.srs with
            | error e => simp [h3, h4, h5, h6, bind, Except.bind] at h
            | ok srs1 =>
              simp only [h3, h4, h5, h6, bind, Except.bind, pure, Except.pure,
                Except.ok.injEq] at h
              subst h
              exact ⟨rfl, rfl, rfl, rfl, h3, h4, h5, h6⟩

theorem loopPrefix_zero (P : Params) (L : Library G1 G2 GT) (inp : Inputs)
    (st : MainState (ZMod r)) : loopPrefix P L inp 0 st = .ok st := rfl

theorem loopPrefix_succ (P : Params) (L : Library G1 G2 GT) (inp : Inputs) (k : Nat)
    (st : MainState (ZMod r)) :
    loopPrefix P L inp (k + 1) st = (loopPrefix P L inp k st).bind (loopBody P L inp k) := by
  simp only [loopPrefix, forRange_succ_last]

theorem loopPrefix_succ_ok (P : Params) (L : Library G1 G2 GT) (inp : Inputs) (k : Nat)
    (st st' : MainState (ZMod r)) (h : loopPrefix P L inp (k + 1) st = .ok st') :
    ∃ mid, loopPrefix P L inp k st = .ok mid ∧ loopBody P L inp k mid = .ok st' := by
  rw [loopPrefix_succ] at h
  cases hm : loopPrefix P L inp k st with
  | error e => simp [hm, Except.bind] at h
  | ok mid =>
    rw [hm] at h
    exact ⟨mid, rfl, h⟩

theorem mainLoop_eq_loopPrefix (P : Params) (L : Library G1 G2 GT) (inp : Inputs)
    (st : MainState (ZMod r)) : mainLoop P L inp st = loopPrefix P L inp P.nbChunks st := rfl

end LoopLemmas

section LoopInvariants

variable {G1 G2 GT : Type} [AddCommGroup G1] [AddCommGroup G2] [CommGroup GT]
variable {r : ℕ} [Module (ZMod r) G1] [DecidableEq GT]

/-- After chunk 0 has been processed, `currChunk.TauG2` is the `TauG2` decoded from
chunk 0 of the last round, and it stays so: the later decodes leave it in place. -/
theorem loopPrefix_TauG2 (P : Params) (L : Library G1 G2 GT) (inp : Inputs) (o : Bool)
    (rnd : RState (ZMod r)) (k : Nat) :
    ∀ st, loopPrefix P L inp (k + 1) (initialState o rnd) = .ok st →
      st.currChunk.TauG2 = decodedTauG2 P (inp.lastRound 0) := by
  induction k with
  | zero =>
    intro st h
    obtain ⟨mid, hm, hb⟩ := loopPrefix_succ_ok P L inp 0 _ st h
    rw [loopPrefix_zero] at hm
    cases hm
    obtain ⟨_, _, hc, _⟩ := loopBody_ok P L inp 0 _ st hb
    rw [hc]
    rfl
  | succ k ih =>
    intro st h
    obtain ⟨mid, hm, hb⟩ := loopPrefix_succ_ok P L inp (k + 1) _ st h
    obtain ⟨_, _, hc, _⟩ := loopBody_ok P L inp (k + 1) _ st hb
    have hf : ((k + 1) == 0) = false := rfl
    rw [hc, hf, (ReadFrom_frame P mid.currChunk _).1]
    exact ih mid hm

theorem flatten_range_succ {α : Type} (f : Nat → List α) (k : Nat) :
    ((List.range (k + 1)).map f).flatten = ((List.range k).map f).flatten ++ f k := by
  simp [List.range_succ]

/-- The SRS after `k` chunks have been processed, when an output SRS is requested. -/
theorem loopPrefix_srs (P : Params) (L : Library G1 G2 GT) (inp : Inputs)
    (rnd : RState (ZMod r)) (k : Nat) :
    ∀ st, loopPrefix P L inp k (initialState true rnd) = .ok st →
      ∃ s, st.srs = some s ∧
        s.PkG1 = ((List.range k).map (fun i => decodedTauG1 P (inp.lastRound i))).flatten ∧
        s.PkG1.length = k * P.nbTauG1 ∧
        s.VkG1 = snarkVMG1Gen ∧ s.VkG2.1 = snarkVMG2Gen ∧
        (1 ≤ k → (decodedTauG2 P (inp.lastRound 0))[1]? = some s.VkG2.2) := by
  induction k with
  | zero =>
    intro st h
    rw [loopPrefix_zero] at h
    cases h
    exact ⟨_, rfl, by simp, by simp, rfl, rfl, fun h => by omega⟩
  | succ k ih =>
    intro st h
    obtain ⟨mid, hm, hb⟩ := loopPrefix_succ_ok P L inp k _ st h
    obtain ⟨s, hs, h1, h2, h3, h4, h5⟩ := ih mid hm
    obtain ⟨hr, _, hc, _, _, _, _, ha⟩ := loopBody_ok P L inp k mid st hb
    have hT1 : st.currChunk.TauG1 = decodedTauG1 P (inp.lastRound k) := by
      rw [hc, ReadFrom_TauG1_eq]
    have hlen : st.currChunk.TauG1.length = P.nbTauG1 := by
      rw [hc]
      exact (ReadFrom_ok_shape P mid.currChunk _ _ hr).1
    have hk1 : (k + 1) * P.nbTauG1 = k * P.nbTauG1 + P.nbTauG1 := by ring
    rw [hs] at ha
    simp only [assembleStep] at ha
    cases k with
    | zero =>
      have hT2 : st.currChunk.TauG2 = decodedTauG2 P (inp.lastRound 0) :=
        loopPrefix_TauG2 P L inp true rnd 0 st h
      simp only [if_true] at ha
      cases ht : st.currChunk.TauG2[1]? with
      | none => simp [ht] at ha
      | some t =>
        simp only [ht, Except.ok.injEq] at ha
        refine ⟨_, ha.symm, ?_, ?_, h3, h4, ?_⟩
        · simp only [flatten_range_succ, ← h1, hT1]
        · simp only [List.length_append, h2, hlen, hk1]
        · intro _
          rw [← hT2, ht]
    | succ k =>
      have hne : k + 1 ≠ 0 := by omega
      simp only [hne, if_false, Except.ok.injEq] at ha
      refine ⟨_, ha.symm, ?_, ?_, h3, h4, ?_⟩
      · simp only [flatten_range_succ (fun i => decodedTauG1 P (inp.lastRound i)) (k + 1),
          ← h1, hT1]
      · simp only [List.length_append, h2, hlen, hk1]
      · intro _
        exact h5 (by omega)

end LoopInvariants

section LoopClaims

variable {G1 G2 GT : Type} [AddCommGroup G1] [AddCommGroup G2] [CommGroup GT]
variable {r : ℕ} [Module (ZMod r) G1] [DecidableEq GT]

/-- C13: SRS assembly. When an output SRS is requested and the loop of `main` has
processed the chunks `0, ..., k - 1` without a fatal error, `srs.Pk.G1` is the
concatenation, in chunk order, of the `TauG1` decoded from the chunks `0, ..., k - 1` of
the last round; its length is `k·nbTauG1`, at most `nbChunks·nbTauG1`; `srs.Vk.G1` is
the G1 generator; `srs.Vk.G2[0]` is the G2 generator and, once chunk 0 has been
processed, `srs.Vk.G2[1]` is the `TauG2[1]` decoded from chunk 0. -/
theorem srs_assembly (P : Params) (L : Library G1 G2 GT) (inp : Inputs)
    (rnd : RState (ZMod r)) (k : Nat) (st : MainState (ZMod r)) (hk : k ≤ P.nbChunks)
    (hrun : loopPrefix P L inp k (initialState true rnd) = .ok st) :
    ∃ s, st.srs = some s ∧
      s.PkG1 = ((List.range k).map (fun i => decodedTauG1 P (inp.lastRound i))).flatten ∧
      s.PkG1.length = k * P.nbTauG1 ∧
      s.PkG1.length ≤ P.nbChunks * P.nbTauG1 ∧
      s.VkG1 = snarkVMG1Gen ∧ s.VkG2.1 = snarkVMG2Gen ∧
      (1 ≤ k → (decodedTauG2 P (inp.lastRound 0))[1]? = some s.VkG2.2) := by
  obtain ⟨s, h0, h1, h2, h3, h4, h5⟩ := loopPrefix_srs P L inp rnd k st hrun
  refine ⟨s, h0, h1, h2, ?_, h3, h4, h5⟩
  rw [h2]
  exact Nat.mul_le_mul_right _ hk

/-- C20: `ReadFrom` with `isFirst = false` leaves `TauG2` and `AlphaG1` exactly as they
were, whatever the file and whether it returns an error or not. Consequently, once the
loop of `main` has processed the chunks `0, ..., i - 1` with `i ≥ 1`, the chunk decoded
for index `i` carries the `TauG2` decoded from chunk 0 of the last round, and the call
of `IsValid` of iteration `i` is evaluated on that chunk, against that `TauG2[1]`. -/
theorem IsValid_uses_chunk0_TauG2 (P : Params) (L : Library G1 G2 GT) (inp : Inputs)
    (o : Bool) (rnd : RState (ZMod r)) (i : Nat) (st : MainState (ZMod r)) (hi : 1 ≤ i)
    (hrun : loopPrefix P L inp i (initialState o rnd) = .ok st) :
    (∀ (c : Chunk G1Affine G2Affine) (file : Option (List Byte)),
      (ReadFrom P c file false).2.TauG2 = c.TauG2 ∧
      (ReadFrom P c file false).2.AlphaG1 = c.AlphaG1) ∧
    (ReadFrom P st.currChunk (inp.lastRound i) (i == 0)).2.TauG2
      = decodedTauG2 P (inp.lastRound 0) ∧
    (∀ st', loopBody P L inp i st = .ok st' →
      IsValid L.E (L.pt2 snarkVMG2Gen) st.rnd
          ((ReadFrom P st.currChunk (inp.lastRound i) (i == 0)).2.map L.pt1 L.pt2)
        = some (true, st'.rnd) ∧
      ((ReadFrom P st.currChunk (inp.lastRound i) (i == 0)).2.map L.pt1 L.pt2).TauG2
        = (decodedTauG2 P (inp.lastRound 0)).map L.pt2) := by
  obtain ⟨k, rfl⟩ : ∃ k, i = k + 1 := ⟨i - 1, by omega⟩
  have hT := loopPrefix_TauG2 P L inp o rnd k st hrun
  have hf : ((k + 1) == 0) = false := rfl
  have hT' : (ReadFrom P st.currChunk (inp.lastRound (k + 1)) ((k + 1) == 0)).2.TauG2
      = decodedTauG2 P (inp.lastRound 0) := by
    rw [hf, (ReadFrom_frame P st.currChunk _).1, hT]
  refine ⟨fun c file => ReadFrom_frame P c file, hT', ?_⟩
  intro st' hb
  obtain ⟨_, _, hc, _, _, _, hv, _⟩ := loopBody_ok P L inp (k + 1) st st' hb
  rw [hc, validStep_ok_iff] at hv
  refine ⟨hv, ?_⟩
  simp only [Chunk.map, hT']

end LoopClaims

/-- The run of two chunks on `zeroInputs` completes. -/
theorem zeroRun_isOk :
    (loopPrefix smallParams smallLibrary zeroInputs 2 (initialState true freshState)).isOk
      = true := by
  decide

/-- The run of one chunk on `zeroInputs` completes. -/
theorem zeroRun_one_isOk :
    (loopPrefix smallParams smallLibrary zeroInputs 1 (initialState false freshState)).isOk
      = true := by
  decide

/-- The hypotheses of `srs_assembly` hold for the run of the two chunks of `smallParams`
on `zeroInputs`. -/
theorem srs_assembly_witness :
    ∃ st, loopPrefix smallParams smallLibrary zeroInputs 2 (initialState true freshState)
        = .ok st ∧
      ∃ s, st.srs = some s ∧
        s.PkG1 = ((List.range 2).map
          (fun i => decodedTauG1 smallParams (zeroInputs.lastRound i))).flatten ∧
        s.PkG1.length = 2 * smallParams.nbTauG1 ∧
        s.PkG1.length ≤ smallParams.nbChunks * smallParams.nbTauG1 ∧
        s.VkG1 = snarkVMG1Gen ∧ s.VkG2.1 = snarkVMG2Gen ∧
        (1 ≤ 2 → (decodedTauG2 smallParams (zeroInputs.lastRound 0))[1]? = some s.VkG2.2) := by
  cases h : loopPrefix smallParams smallLibrary zeroInputs 2 (initialState true freshState) with
  | error e =>
    have hok := zeroRun_isOk
    rw [h] at hok
    cases hok
  | ok st =>
    exact ⟨st, rfl, srs_assembly smallParams smallLibrary zeroInputs freshState 2 st
      (by decide) h⟩

/-- The hypotheses of `IsValid_uses_chunk0_TauG2` hold for chunk index 1 of the run on
`zeroInputs`. -/
theorem IsValid_uses_chunk0_TauG2_witness :
    ∃ st, loopPrefix smallParams smallLibrary zeroInputs 1 (initialState false freshState)
        = .ok st ∧
      (ReadFrom smallParams st.currChunk (zeroInputs.lastRound 1) (1 == 0)).2.TauG2
        = decodedTauG2 smallParams (zeroInputs.lastRound 0) := by
  cases h : loopPrefix smallParams smallLibrary zeroInputs 1 (initialState false freshState) with
  | error e =>
    have hok := zeroRun_one_isOk
    rw [h] at hok
    cases hok
  | ok st =>
    exact ⟨st, rfl, (IsValid_uses_chunk0_TauG2 smallParams smallLibrary zeroInputs false
      freshState 1 st (by decide) h).2.1⟩

end Aleo
